import Mathlib

/-!
# lab0-c `queue.c`: a shallow embedding and its verification

`queue.c` implements a queue of strings on top of an intrusive circular
doubly-linked list (`struct list_head`, a sentinel plus `element_t` nodes).

The embedding is state passing over an explicit memory `Mem`:

* a pointer is a natural number, `0` is `NULL`;
* a `struct list_head` living at address `a` is described by `Mem.next a` and
  `Mem.prev a` (`none`: no such object is live at `a`);
* an `element_t` is identified with the address of its embedded `list` member;
  `Mem.value a` is the `value` member of the `element_t` that embeds the
  `list_head` at `a`, and is `none` when that `list_head` is not embedded in an
  `element_t` (the sentinel that `q_new` allocates is a bare `list_head`);
* for a bare `list_head` at `a`, the address `&list_entry(a, element_t,
  list)->value` lies in front of the block of the `list_head`; the program reads
  and writes the word found there like any other word, and `Mem.front a` is
  that word (it is no member of any object of the program);
* a `char` array living at address `p` is `Mem.bytes p`, the list of its bytes
  (its length is the size of the array).

Every function returns `Except Fault _`: dereferencing `NULL`, touching a field
or an array that is not live, overrunning an array and signed overflow are
faults, and so is running out of fuel in a loop or a recursion.  `malloc` is an
oracle: the address it returns (`0` on failure) is an argument of the embedded
function, and so is, for the sentinel, the word in front of the block.
-/

namespace Lab0

/-- Ways in which a run stops without returning. -/
inductive Fault where
  /-- a field is read or written through `NULL` -/
  | nullDeref
  /-- a field or array that is not live is accessed, or an array is overrun -/
  | badAccess
  /-- an `int` computation leaves the range of `int` -/
  | intOverflow
  /-- the loop or recursion bound of the model was exhausted -/
  | outOfFuel
  deriving DecidableEq, Repr

/-- Addresses; `0` is `NULL`. -/
abbrev Ptr := Nat

/-- The memory: list links, the `value` member of elements, `char` arrays, and
the word in front of the block of a link. -/
structure Mem where
  next : Ptr → Option Ptr
  prev : Ptr → Option Ptr
  value : Ptr → Option Ptr
  bytes : Ptr → Option (List Nat)
  front : Ptr → Ptr

/-- The memory in which nothing is allocated. -/
def Mem.empty : Mem :=
  ⟨fun _ => none, fun _ => none, fun _ => none, fun _ => none, fun _ => 0⟩

/-- Overwrite the `next` member of the link at `p`. -/
def Mem.setNext (m : Mem) (p q : Ptr) : Mem :=
  { m with next := fun a => if a = p then some q else m.next a }

/-- Overwrite the `prev` member of the link at `p`. -/
def Mem.setPrev (m : Mem) (p q : Ptr) : Mem :=
  { m with prev := fun a => if a = p then some q else m.prev a }

/-- Overwrite the `value` member of the element whose link is at `p`. -/
def Mem.setValue (m : Mem) (p v : Ptr) : Mem :=
  { m with value := fun a => if a = p then some v else m.value a }

/-- Overwrite the contents of the `char` array at `p`. -/
def Mem.setBytes (m : Mem) (p : Ptr) (bs : List Nat) : Mem :=
  { m with bytes := fun a => if a = p then some bs else m.bytes a }

/-- Overwrite the word in front of the block of the link at `p`. -/
def Mem.setFront (m : Mem) (p w : Ptr) : Mem :=
  { m with front := fun a => if a = p then w else m.front a }

/-- Read `p->next`. -/
def loadNext (m : Mem) (p : Ptr) : Except Fault Ptr :=
  if p = 0 then .error .nullDeref
  else match m.next p with
    | some q => .ok q
    | none => .error .badAccess

/-- Read `p->prev`. -/
def loadPrev (m : Mem) (p : Ptr) : Except Fault Ptr :=
  if p = 0 then .error .nullDeref
  else match m.prev p with
    | some q => .ok q
    | none => .error .badAccess

/-- Read `list_entry(p, element_t, list)->value`: the `value` member when the
link at `p` is embedded in an `element_t`, and the word in front of the block
when it is a live bare link. -/
def loadValue (m : Mem) (p : Ptr) : Except Fault Ptr :=
  if p = 0 then .error .nullDeref
  else match m.value p with
    | some v => .ok v
    | none =>
      match m.next p with
      | some _ => .ok (m.front p)
      | none => .error .badAccess

/-- Write `p->next = q`. -/
def storeNext (m : Mem) (p q : Ptr) : Except Fault Mem :=
  if p = 0 then .error .nullDeref
  else match m.next p with
    | some _ => .ok (m.setNext p q)
    | none => .error .badAccess

/-- Write `p->prev = q`. -/
def storePrev (m : Mem) (p q : Ptr) : Except Fault Mem :=
  if p = 0 then .error .nullDeref
  else match m.prev p with
    | some _ => .ok (m.setPrev p q)
    | none => .error .badAccess

/-- Write `list_entry(p, element_t, list)->value = v`: the `value` member when
the link at `p` is embedded in an `element_t`, and the word in front of the
block when it is a live bare link. -/
def storeValue (m : Mem) (p v : Ptr) : Except Fault Mem :=
  if p = 0 then .error .nullDeref
  else match m.value p with
    | some _ => .ok (m.setValue p v)
    | none =>
      match m.next p with
      | some _ => .ok (m.setFront p v)
      | none => .error .badAccess

/-- The C string stored in an array: the bytes before the first zero byte. -/
def cstr (bs : List Nat) : List Nat := bs.takeWhile (fun b => b != 0)

/-- The library function `strlen` on a string given by its bytes. -/
def strlen (s : List Nat) : Nat := (cstr s).length

/-- Read the C string at `p`; running off an array that holds no zero byte is a fault. -/
def loadStr (m : Mem) (p : Ptr) : Except Fault (List Nat) :=
  if p = 0 then .error .nullDeref
  else match m.bytes p with
    | some bs => if 0 ∈ bs then .ok (cstr bs) else .error .badAccess
    | none => .error .badAccess

/-- The library function `strcmp` on two C strings (bytes compared as
`unsigned char`); only the sign of the result is meaningful. -/
def strcmp : List Nat → List Nat → Int
  | [], [] => 0
  | [], _ :: _ => -1
  | _ :: _, [] => 1
  | a :: as, b :: bs => if a < b then -1 else if b < a then 1 else strcmp as bs

/-- The `n` bytes that `strncpy(dst, src, n)` writes: the string, cut at `n`
bytes, then zero bytes up to `n`. -/
def strncpyBytes (src : List Nat) (n : Nat) : List Nat :=
  (cstr src).take n ++ List.replicate (n - (cstr src).length) 0

/-- Write `n` bytes produced by `gen` at the start of the array at `dst`. -/
def writeBytes (m : Mem) (dst : Ptr) (n : Nat) (gen : Nat → List Nat) : Except Fault Mem :=
  if dst = 0 then .error .nullDeref
  else match m.bytes dst with
    | some old =>
      if n ≤ old.length then .ok (m.setBytes dst (gen n ++ old.drop n))
      else .error .badAccess
    | none => .error .badAccess

/-- The library function `strncpy(dst, src, n)`, `src` given by its bytes. -/
def strncpy (m : Mem) (dst : Ptr) (src : List Nat) (n : Nat) : Except Fault Mem :=
  writeBytes m dst n (strncpyBytes src)

/-- The library function `memset(dst, 0, n)`. -/
def memset0 (m : Mem) (dst : Ptr) (n : Nat) : Except Fault Mem :=
  writeBytes m dst n (fun k => List.replicate k 0)

/-- The effect of `malloc(sizeof(struct list_head))` returning `a`: a link with
indeterminate members (shown as `0`), and `w` the word that lies in front of
the block; nothing happens when `malloc` fails. -/
def mallocHead (m : Mem) (a w : Ptr) : Mem :=
  if a = 0 then m else ((m.setNext a 0).setPrev a 0).setFront a w

/-- The effect of `malloc(sizeof(element_t))` returning `a`: an element with
indeterminate members (shown as `0`); nothing happens when `malloc` fails. -/
def mallocElem (m : Mem) (a : Ptr) : Mem :=
  if a = 0 then m else ((m.setNext a 0).setPrev a 0).setValue a 0

/-- The effect of `malloc(size)` for a `char` array returning `p`. -/
def mallocBytes (m : Mem) (p : Ptr) (size : Nat) : Mem :=
  if p = 0 then m else m.setBytes p (List.replicate size 0)

/-- The library function `free` on a `char` array; `free(NULL)` does nothing. -/
def freeBytes (m : Mem) (p : Ptr) : Except Fault Mem :=
  if p = 0 then .ok m
  else match m.bytes p with
    | some _ => .ok { m with bytes := fun a => if a = p then none else m.bytes a }
    | none => .error .badAccess

/-- The library function `free` on the `element_t` whose link is at `a`; the
pointer `list_entry(a, element_t, list)` of a bare link is no block that
`malloc` returned. -/
def freeElem (m : Mem) (a : Ptr) : Except Fault Mem :=
  if a = 0 then .ok m
  else match m.value a with
    | some _ =>
      .ok { m with
            next := fun b => if b = a then none else m.next b
            prev := fun b => if b = a then none else m.prev b
            value := fun b => if b = a then none else m.value b }
    | none => .error .badAccess

/-! ## The list primitives of `list.h` -/

/-- Modelled from the spec: `list.h` is not among the sources. `init(link)`:
sets `next = prev = self`. -/
def INIT_LIST_HEAD (m : Mem) (head : Ptr) : Except Fault Mem := do
  let m ← storeNext m head head
  storePrev m head head

/-- Modelled from the spec: `list.h` is not among the sources.
`is_empty(sentinel)`: true iff `sentinel.next == sentinel`. -/
def list_empty (m : Mem) (head : Ptr) : Except Fault Bool := do
  let nx ← loadNext m head
  pure (decide (nx = head))

/-- Modelled from the spec: `list.h` is not among the sources.
`insert_after(anchor, node)`: splices `node` into the ring right after
`anchor`, updating four references. -/
def list_add (m : Mem) (node head : Ptr) : Except Fault Mem := do
  let next ← loadNext m head
  let m ← storePrev m next node
  let m ← storeNext m node next
  let m ← storePrev m node head
  storeNext m head node

/-- Modelled from the spec: `list.h` is not among the sources.
`insert_before(anchor, node)`: splices `node` into the ring right before
`anchor`, updating four references. -/
def list_add_tail (m : Mem) (node head : Ptr) : Except Fault Mem := do
  let prev ← loadPrev m head
  let m ← storeNext m prev node
  let m ← storeNext m node head
  let m ← storePrev m node prev
  storePrev m head node

/-- Modelled from the spec: `list.h` is not among the sources. `unlink(node)`:
relinks the neighbours of `node` to each other and leaves the pointers of
`node` itself as they are. -/
def list_del (m : Mem) (node : Ptr) : Except Fault Mem := do
  let next ← loadNext m node
  let prev ← loadPrev m node
  let m ← storePrev m next prev
  storeNext m prev next

/-- Modelled from the spec: `queue.h` is not among the sources. Whether the
pointer `list_entry(l, element_t, list)` is non-null: it is `l` moved back by
`off = offsetof(element_t, list)` bytes, in 64-bit address arithmetic. -/
def list_entry_nonnull (off : Nat) (l : Ptr) : Bool :=
  decide ((l + 2 ^ 64 - off % 2 ^ 64) % 2 ^ 64 ≠ 0)

/-! ## `queue.c` -/

/-- `q_new`, with `n` the address `malloc` returned and `w` the word in front
of that block; the result is the handle. -/
def q_new (m : Mem) (n w : Ptr) : Except Fault (Ptr × Mem) :=
  let m := mallocHead m n w
  if n = 0 then .ok (0, m)
  else do
    let m ← INIT_LIST_HEAD m n
    pure (n, m)

/-- `q_insert_head`, with `n` and `v` the addresses the two `malloc` calls
returned, in the order of the calls. -/
def q_insert_head (m : Mem) (head : Ptr) (s : List Nat) (n v : Ptr) :
    Except Fault (Bool × Mem) :=
  if head = 0 then .ok (false, m)
  else do
    let m := mallocElem m n
    let m := mallocBytes m v (strlen s + 1)
    let m ← storeValue m n v
    if n = 0 ∨ v = 0 then pure (false, m)
    else do
      let m ← strncpy m v s (strlen s + 1)
      let m ← list_add m n head
      pure (true, m)

/-- `q_insert_tail`, with `n` and `v` the addresses the two `malloc` calls
returned, in the order of the calls. -/
def q_insert_tail (m : Mem) (head : Ptr) (s : List Nat) (n v : Ptr) :
    Except Fault (Bool × Mem) :=
  if head = 0 then .ok (false, m)
  else do
    let m := mallocElem m n
    let m := mallocBytes m v (strlen s + 1)
    let m ← storeValue m n v
    if n = 0 ∨ v = 0 then pure (false, m)
    else do
      let m ← strncpy m v s (strlen s + 1)
      let m ← list_add_tail m n head
      pure (true, m)

/-- The copy-out shared by `q_remove_head` and `q_remove_tail`:
`if (sp) { memset(sp, 0, bufsize); strncpy(sp, e->value, bufsize - 1); }`,
`bufsize - 1` computed in `size_t`. -/
def copyOut (m : Mem) (e sp : Ptr) (bufsize : Nat) : Except Fault Mem :=
  if sp = 0 then .ok m
  else do
    let m ← memset0 m sp bufsize
    let v ← loadValue m e
    let s ← loadStr m v
    strncpy m sp s ((bufsize + 2 ^ 64 - 1) % 2 ^ 64)

/-- `q_remove_head`; the result is the returned element (`0` for `NULL`). -/
def q_remove_head (m : Mem) (head sp : Ptr) (bufsize : Nat) : Except Fault (Ptr × Mem) := do
  let emp ← list_empty m head
  if emp || head == 0 then pure (0, m)
  else do
    let e ← loadNext m head
    let m ← list_del m head
    let m ← copyOut m e sp bufsize
    pure (e, m)

/-- `q_remove_tail`; the result is the returned element (`0` for `NULL`). -/
def q_remove_tail (m : Mem) (head sp : Ptr) (bufsize : Nat) : Except Fault (Ptr × Mem) := do
  let emp ← list_empty m head
  if emp || head == 0 then pure (0, m)
  else do
    let e ← loadPrev m head
    let m ← list_del m e
    let m ← copyOut m e sp bufsize
    pure (e, m)

/-- `q_release_element`: `free(e->value); free(e);`. -/
def q_release_element (m : Mem) (e : Ptr) : Except Fault Mem := do
  let v ← loadValue m e
  let m ← freeBytes m v
  freeElem m e

/-- The loop `list_for_each (li, head) len++;` of `q_size`, from `li` on. -/
def q_size_loop : Nat → Mem → Ptr → Ptr → Nat → Except Fault Nat
  | 0, _, _, _, _ => .error .outOfFuel
  | fuel + 1, m, head, li, len =>
    if li = head then .ok len
    else if 2 ^ 31 ≤ len + 1 then .error .intOverflow
    else do
      let nx ← loadNext m li
      q_size_loop fuel m head nx (len + 1)

/-- `q_size`. -/
def q_size (fuel : Nat) (m : Mem) (head : Ptr) : Except Fault Nat := do
  let emp ← list_empty m head
  if emp || head == 0 then pure 0
  else do
    let li ← loadNext m head
    q_size_loop fuel m head li 0

/-- The loop `for (int i = 0; i < k; i++) p = p->next;`. -/
def advance : Nat → Mem → Ptr → Except Fault Ptr
  | 0, _, p => .ok p
  | k + 1, m, p => do
    let q ← loadNext m p
    advance k m q

/-- `q_delete_mid`. -/
def q_delete_mid (fuel : Nat) (m : Mem) (head : Ptr) : Except Fault (Bool × Mem) := do
  let emp ← list_empty m head
  if emp || head == 0 then pure (false, m)
  else do
    let n ← q_size fuel m head
    let mid := n / 2
    let tmp ← advance mid m head
    let m ← list_del m tmp
    let m ← q_release_element m tmp
    pure (true, m)

/-- `q_swap`: after the guard the body is empty. -/
def q_swap (m : Mem) (head : Ptr) : Except Fault Mem := do
  let emp ← list_empty m head
  if emp || head == 0 then pure m
  else pure m

/-- The loop `list_for_each(lptr, head){}` of `q_reverse`, from `lptr` on: the
value `lptr` has when the loop exits. -/
def list_for_each_end : Nat → Mem → Ptr → Ptr → Except Fault Ptr
  | 0, _, _, _ => .error .outOfFuel
  | fuel + 1, m, head, lptr =>
    if lptr = head then .ok lptr
    else do
      let nx ← loadNext m lptr
      list_for_each_end fuel m head nx

/-- The `do ... while` loop of `q_reverse`. -/
def q_reverse_loop : Nat → Mem → Ptr → Ptr → Except Fault Mem
  | 0, _, _, _ => .error .outOfFuel
  | fuel + 1, m, fptr, lptr => do
    let tmp ← loadValue m fptr
    let lv ← loadValue m lptr
    let m ← storeValue m fptr lv
    let m ← storeValue m lptr tmp
    let fptr ← loadNext m fptr
    let lptr ← loadPrev m lptr
    if fptr = lptr then pure m
    else do
      let ln ← loadNext m lptr
      if fptr = ln then pure m
      else q_reverse_loop fuel m fptr lptr

/-- `q_reverse`. -/
def q_reverse (fuel : Nat) (m : Mem) (head : Ptr) : Except Fault Mem := do
  let n ← q_size fuel m head
  if decide (n < 2) || head == 0 then pure m
  else do
    let first ← loadNext m head
    let lptr ← list_for_each_end fuel m head first
    q_reverse_loop fuel m head lptr

/-- The assignment `*tmp = l` of `merge`: `tmp` is `none` while it points at
the local variable `head`, and `some p` when it points at `p->next`. -/
def storeTmp (m : Mem) (head : Ptr) (tmp : Option Ptr) (l : Ptr) : Except Fault (Ptr × Mem) :=
  match tmp with
  | none => .ok (l, m)
  | some p => do
    let m ← storeNext m p l
    pure (head, m)

/-- The `while (l1 && l2)` loop of `merge`; `e1` and `e2` are computed once
before the loop and never updated. After `*tmp = l`, `tmp = &((*tmp)->next)`
makes `tmp` point at `l->next`. -/
def merge_loop : Nat → Mem → Ptr → Ptr → Ptr → Option Ptr → Ptr → Ptr →
    Except Fault (Mem × Ptr × Option Ptr × Ptr × Ptr)
  | 0, _, _, _, _, _, _, _ => .error .outOfFuel
  | fuel + 1, m, e1, e2, head, tmp, l1, l2 =>
    if l1 ≠ 0 ∧ l2 ≠ 0 then do
      let v1 ← loadValue m e1
      let v2 ← loadValue m e2
      let s1 ← loadStr m v1
      let s2 ← loadStr m v2
      if strcmp s1 s2 < 0 then do
        let (head, m) ← storeTmp m head tmp l1
        let nx ← loadNext m l1
        merge_loop fuel m e1 e2 head (some l1) nx l2
      else do
        let (head, m) ← storeTmp m head tmp l2
        let nx ← loadNext m l2
        merge_loop fuel m e1 e2 head (some l2) l1 nx
    else .ok (m, head, tmp, l1, l2)

/-- `merge`; `off` is `offsetof(element_t, list)`. -/
def merge (off : Nat) (fuel : Nat) (m : Mem) (l1 l2 : Ptr) : Except Fault (Ptr × Mem) := do
  let c2 ← if l2 = 0 then pure true else list_empty m l2
  if c2 then pure (l1, m)
  else do
    let c1 ← if l1 = 0 then pure true else list_empty m l1
    if c1 then pure (l2, m)
    else do
      let (m, head, tmp, l1, l2) ← merge_loop fuel m l1 l2 0 none l1 l2
      let (head, m) ← if list_entry_nonnull off l1 then storeTmp m head tmp l1 else pure (head, m)
      let (head, m) ← if list_entry_nonnull off l2 then storeTmp m head tmp l2 else pure (head, m)
      pure (head, m)

/-- `lsort`; `qSize` is an `int`, and it is divided only when it is at least 2. -/
def lsort (off : Nat) : Nat → Mem → Ptr → Int → Except Fault (Ptr × Mem)
  | 0, _, _, _ => .error .outOfFuel
  | fuel + 1, m, head, qSize =>
    if head = 0 ∨ qSize < 2 then .ok (head, m)
    else do
      let l2 ← advance (qSize / 2).toNat m head
      let (l1, m) ← lsort off fuel m head (qSize / 2)
      let (l2, m) ←
        if qSize - (qSize / 2) * 2 ≠ 0 then lsort off fuel m l2 (qSize / 2)
        else lsort off fuel m l2 (qSize / 2 + 1)
      merge off (fuel + 1) m l1 l2

/-- `q_sort`: the pointer `lsort` returns is assigned to the parameter `head`
and dropped. -/
def q_sort (off : Nat) (fuel : Nat) (m : Mem) (head : Ptr) : Except Fault Mem := do
  let n ← q_size fuel m head
  if decide (n < 2) || head == 0 then pure m
  else do
    let n ← q_size fuel m head
    let (_, m) ← lsort off fuel m head (n : Int)
    pure m

/-- The inner `do ... while (now->value == next->value)` loop of `q_delete_dup`;
`node` is the current node and `nxt` the link of the element `next`. -/
def q_delete_dup_inner : Nat → Mem → Ptr → Ptr → Ptr → Except Fault (Mem × Ptr)
  | 0, _, _, _, _ => .error .outOfFuel
  | fuel + 1, m, node, tmp, nxt => do
    let tmp ← loadNext m tmp
    let nn ← loadNext m node
    let m ← list_del m nn
    let m ← q_release_element m nxt
    let nxt := tmp
    let a ← loadValue m node
    let b ← loadValue m nxt
    if a = b then q_delete_dup_inner fuel m node tmp nxt
    else pure (m, tmp)

/-- The `list_for_each(node, head)` loop of `q_delete_dup`, from `node` on. -/
def q_delete_dup_loop : Nat → Mem → Ptr → Ptr → Except Fault Mem
  | 0, _, _, _ => .error .outOfFuel
  | fuel + 1, m, head, node =>
    if node = head then .ok m
    else do
      let nn ← loadNext m node
      let a ← loadValue m node
      let b ← loadValue m nn
      let (m, node) ←
        if a = b then do
          let (m, tmp) ← q_delete_dup_inner fuel m node nn nn
          let tp ← loadPrev m tmp
          let m ← list_del m tp
          let tp ← loadPrev m tmp
          let m ← q_release_element m tp
          pure (m, tmp)
        else pure (m, node)
      let nx ← loadNext m node
      q_delete_dup_loop fuel m head nx

/-- `q_delete_dup`. -/
def q_delete_dup (off : Nat) (fuel : Nat) (m : Mem) (head : Ptr) :
    Except Fault (Bool × Mem) := do
  let emp ← list_empty m head
  if emp || head == 0 then pure (false, m)
  else do
    let m ← q_sort off fuel m head
    let first ← loadNext m head
    let m ← q_delete_dup_loop fuel m head first
    pure (true, m)

/-! ## Well-formed queues -/

/-- A doubly-linked segment: `next` leads from `p` through `xs` to `q`, and
`prev` leads back. -/
def Seg (m : Mem) : Ptr → List Ptr → Ptr → Prop
  | p, [], q => m.next p = some q ∧ m.prev q = some p
  | p, x :: xs, q => m.next p = some x ∧ m.prev x = some p ∧ Seg m x xs q

instance Seg.decidable (m : Mem) : (p : Ptr) → (xs : List Ptr) → (q : Ptr) → Decidable (Seg m p xs q)
  | p, [], q => inferInstanceAs (Decidable (m.next p = some q ∧ m.prev q = some p))
  | p, x :: xs, q =>
    have := Seg.decidable m x xs q
    inferInstanceAs (Decidable (m.next p = some x ∧ m.prev x = some p ∧ Seg m x xs q))

/-- The ring invariant of a queue with sentinel `head` and elements `xs`: the
links are non-null and distinct, `next` leads from the sentinel through `xs`
back to the sentinel, and `prev` leads back. -/
def Ring (m : Mem) (head : Ptr) (xs : List Ptr) : Prop :=
  (∀ a ∈ head :: xs, a ≠ 0) ∧ (head :: xs).Nodup ∧ Seg m head xs head

instance (m : Mem) (head : Ptr) (xs : List Ptr) : Decidable (Ring m head xs) := by
  unfold Ring; infer_instance

/-- The string an element holds: defined when the link at `x` is embedded in a
live element whose `value` points at a live, terminated `char` array. -/
def valueOf (m : Mem) (x : Ptr) : Option (List Nat) :=
  match m.value x with
  | none => none
  | some v =>
    if v = 0 then none
    else match m.bytes v with
      | none => none
      | some bs => if 0 ∈ bs then some (cstr bs) else none

/-- The queue with sentinel `head` is well formed and its elements, in order
from the sentinel, are `xs`: a ring of distinct non-null links, the sentinel a
bare link, every other link embedded in an element that owns its own string. -/
def WF (m : Mem) (head : Ptr) (xs : List Ptr) : Prop :=
  (∀ a ∈ head :: xs, a ≠ 0) ∧ (head :: xs).Nodup ∧ Seg m head xs head ∧
    m.value head = none ∧ (∀ x ∈ xs, (valueOf m x).isSome) ∧ (xs.map m.value).Nodup

instance (m : Mem) (head : Ptr) (xs : List Ptr) : Decidable (WF m head xs) := by
  unfold WF; infer_instance

/-- Every link of `S` is non-null and its `next` is again a link of `S`. -/
def NextClosed (m : Mem) (S : List Ptr) : Prop :=
  ∀ a ∈ S, a ≠ 0 ∧ ∃ b ∈ S, m.next a = some b

/-- The output buffer handed to a remove is usable: `sp` is `NULL`, or it points
at an array of at least `bufsize >= 1` bytes that is not the string of any of
the elements `ys`. -/
def BufOK (m : Mem) (sp : Ptr) (bufsize : Nat) (ys : List Ptr) : Prop :=
  sp = 0 ∨ (1 ≤ bufsize ∧ bufsize < 2 ^ 64 ∧
    (∃ old, m.bytes sp = some old ∧ bufsize ≤ old.length) ∧ ∀ y ∈ ys, m.value y ≠ some sp)

/-! ## Concrete queues -/

/-- The bytes of an ASCII string. -/
def ascii (s : String) : List Nat := s.toList.map Char.toNat

/-- Insert the strings at the tail, one after the other; the allocator hands
out the blocks `a, a + 1`, then `a + 10, a + 11`, and so on. -/
def fill (m : Mem) (head : Ptr) : List (List Nat) → Ptr → Except Fault Mem
  | [], _ => .ok m
  | s :: ss, a => do
    let (_, m) ← q_insert_tail m head s a (a + 1)
    fill m head ss (a + 10)

/-- The memory after `q_new` (the sentinel is allocated at address `1`, with
the word `3735928559` in front of its block) and one `q_insert_tail` for each
of the strings; the elements are at `10, 20, ...`. -/
def build (ss : List (List Nat)) : Mem :=
  match (do let (_, m) ← q_new Mem.empty 1 3735928559; fill m 1 ss 10) with
  | .ok m => m
  | .error _ => Mem.empty

/-- The links met by following `next` from `li` until `head` is met. -/
def traverse : Nat → Mem → Ptr → Ptr → Except Fault (List Ptr)
  | 0, _, _, _ => .error .outOfFuel
  | fuel + 1, m, head, li =>
    if li = head then .ok []
    else do
      let nx ← loadNext m li
      let rest ← traverse fuel m head nx
      pure (li :: rest)

/-- The value sequence of a queue: the strings of the elements met by a
traversal from the sentinel. -/
def valueSeq (fuel : Nat) (m : Mem) (head : Ptr) : Except Fault (List (List Nat)) := do
  let first ← loadNext m head
  let xs ← traverse fuel m head first
  xs.mapM (fun x => do
    let v ← loadValue m x
    loadStr m v)

/-! ## Chains -/

/-- A null-terminated chain: `p` points at the first link of `xs` (it is `NULL`
when `xs` is empty), the links are non-null, `next` leads from each link to the
following one and from the last one to `NULL`. -/
def Chain (m : Mem) : Ptr → List Ptr → Prop
  | p, [] => p = 0
  | p, x :: xs => p = x ∧ x ≠ 0 ∧ m.next x = some (xs.headD 0) ∧ Chain m (xs.headD 0) xs

instance Chain.decidable (m : Mem) : (p : Ptr) → (xs : List Ptr) → Decidable (Chain m p xs)
  | p, [] => inferInstanceAs (Decidable (p = 0))
  | p, x :: xs =>
    have := Chain.decidable m (xs.headD 0) xs
    inferInstanceAs
      (Decidable (p = x ∧ x ≠ 0 ∧ m.next x = some (xs.headD 0) ∧ Chain m (xs.headD 0) xs))

/-- The last link of the chain `c :: cs`. -/
def lastOf : Ptr → List Ptr → Ptr
  | c, [] => c
  | _, c2 :: cs => lastOf c2 cs

/-- Strings in ascending order: `strcmp(left, right) <= 0` for every adjacent pair. -/
def Ascending : List (List Nat) → Prop
  | [] => True
  | [_] => True
  | a :: b :: rest => strcmp a b ≤ 0 ∧ Ascending (b :: rest)

instance Ascending.decidable : (l : List (List Nat)) → Decidable (Ascending l)
  | [] => inferInstanceAs (Decidable True)
  | [_] => inferInstanceAs (Decidable True)
  | a :: b :: rest =>
    have := Ascending.decidable (b :: rest)
    inferInstanceAs (Decidable (strcmp a b ≤ 0 ∧ Ascending (b :: rest)))

/-- A memory extended by a null-terminated chain of elements holding the given
strings, at the addresses `a`, `a + 10`, ... (their strings at `a + 1`,
`a + 11`, ...). -/
def mkChain (m : Mem) : List (List Nat) → Ptr → Mem
  | [], _ => m
  | s :: ss, a =>
    let m := mallocElem m a
    let m := mallocBytes m (a + 1) (strlen s + 1)
    let m := (m.setValue a (a + 1)).setBytes (a + 1) (cstr s ++ [0])
    let m := m.setNext a (match ss with | [] => 0 | _ :: _ => a + 10)
    mkChain m ss (a + 10)

/-! ## Reading and writing memory -/

@[simp] theorem bind_ok_eq {α β : Type} (a : α) (f : α → Except Fault β) :
    (Except.ok a >>= f) = f a := rfl

@[simp] theorem bind_error_eq {α β : Type} (e : Fault) (f : α → Except Fault β) :
    (Except.error e >>= f) = Except.error e := rfl

@[simp] theorem pure_eq_ok {α : Type} (a : α) : (pure a : Except Fault α) = Except.ok a := rfl

@[simp] theorem setNext_next (m : Mem) (p q a : Ptr) :
    (m.setNext p q).next a = if a = p then some q else m.next a := rfl
@[simp] theorem setNext_prev (m : Mem) (p q : Ptr) : (m.setNext p q).prev = m.prev := rfl
@[simp] theorem setNext_value (m : Mem) (p q : Ptr) : (m.setNext p q).value = m.value := rfl
@[simp] theorem setNext_bytes (m : Mem) (p q : Ptr) : (m.setNext p q).bytes = m.bytes := rfl
@[simp] theorem setPrev_prev (m : Mem) (p q a : Ptr) :
    (m.setPrev p q).prev a = if a = p then some q else m.prev a := rfl
@[simp] theorem setPrev_next (m : Mem) (p q : Ptr) : (m.setPrev p q).next = m.next := rfl
@[simp] theorem setPrev_value (m : Mem) (p q : Ptr) : (m.setPrev p q).value = m.value := rfl
@[simp] theorem setPrev_bytes (m : Mem) (p q : Ptr) : (m.setPrev p q).bytes = m.bytes := rfl
@[simp] theorem setValue_value (m : Mem) (p q a : Ptr) :
    (m.setValue p q).value a = if a = p then some q else m.value a := rfl
@[simp] theorem setValue_next (m : Mem) (p q : Ptr) : (m.setValue p q).next = m.next := rfl
@[simp] theorem setValue_prev (m : Mem) (p q : Ptr) : (m.setValue p q).prev = m.prev := rfl
@[simp] theorem setValue_bytes (m : Mem) (p q : Ptr) : (m.setValue p q).bytes = m.bytes := rfl
@[simp] theorem setBytes_bytes (m : Mem) (p a : Ptr) (bs : List Nat) :
    (m.setBytes p bs).bytes a = if a = p then some bs else m.bytes a := rfl
@[simp] theorem setBytes_next (m : Mem) (p : Ptr) (bs : List Nat) : (m.setBytes p bs).next = m.next := rfl
@[simp] theorem setBytes_prev (m : Mem) (p : Ptr) (bs : List Nat) : (m.setBytes p bs).prev = m.prev := rfl
@[simp] theorem setBytes_value (m : Mem) (p : Ptr) (bs : List Nat) : (m.setBytes p bs).value = m.value := rfl
@[simp] theorem setNext_front (m : Mem) (p q : Ptr) : (m.setNext p q).front = m.front := rfl
@[simp] theorem setPrev_front (m : Mem) (p q : Ptr) : (m.setPrev p q).front = m.front := rfl
@[simp] theorem setValue_front (m : Mem) (p q : Ptr) : (m.setValue p q).front = m.front := rfl
@[simp] theorem setBytes_front (m : Mem) (p : Ptr) (bs : List Nat) : (m.setBytes p bs).front = m.front := rfl
@[simp] theorem setFront_front (m : Mem) (p q a : Ptr) :
    (m.setFront p q).front a = if a = p then q else m.front a := rfl
@[simp] theorem setFront_next (m : Mem) (p q : Ptr) : (m.setFront p q).next = m.next := rfl
@[simp] theorem setFront_prev (m : Mem) (p q : Ptr) : (m.setFront p q).prev = m.prev := rfl
@[simp] theorem setFront_value (m : Mem) (p q : Ptr) : (m.setFront p q).value = m.value := rfl
@[simp] theorem setFront_bytes (m : Mem) (p q : Ptr) : (m.setFront p q).bytes = m.bytes := rfl

theorem loadNext_ok {m : Mem} {p q : Ptr} (hp : p ≠ 0) (h : m.next p = some q) :
    loadNext m p = .ok q := by
  simp [loadNext, hp, h]

theorem loadPrev_ok {m : Mem} {p q : Ptr} (hp : p ≠ 0) (h : m.prev p = some q) :
    loadPrev m p = .ok q := by
  simp [loadPrev, hp, h]

theorem loadValue_ok {m : Mem} {p q : Ptr} (hp : p ≠ 0) (h : m.value p = some q) :
    loadValue m p = .ok q := by
  simp [loadValue, hp, h]

theorem storeNext_ok {m : Mem} {p : Ptr} (r : Ptr) (hp : p ≠ 0) (h : (m.next p).isSome) :
    storeNext m p r = .ok (m.setNext p r) := by
  obtain ⟨a, ha⟩ := Option.isSome_iff_exists.1 h
  simp [storeNext, hp, ha]

theorem storePrev_ok {m : Mem} {p : Ptr} (r : Ptr) (hp : p ≠ 0) (h : (m.prev p).isSome) :
    storePrev m p r = .ok (m.setPrev p r) := by
  obtain ⟨a, ha⟩ := Option.isSome_iff_exists.1 h
  simp [storePrev, hp, ha]

theorem storeValue_ok {m : Mem} {p : Ptr} (r : Ptr) (hp : p ≠ 0) (h : (m.value p).isSome) :
    storeValue m p r = .ok (m.setValue p r) := by
  obtain ⟨a, ha⟩ := Option.isSome_iff_exists.1 h
  simp [storeValue, hp, ha]

theorem isSome_ite {α : Type} {c : Prop} [Decidable c] {a : α} {o : Option α}
    (h : o.isSome) : (if c then some a else o).isSome := by
  split <;> simp [h]

theorem list_add_ok {m : Mem} {n head x : Ptr} (hh : head ≠ 0) (hn : n ≠ 0) (hx : x ≠ 0)
    (h1 : m.next head = some x) (h2 : (m.prev x).isSome) (h3 : (m.next n).isSome)
    (h4 : (m.prev n).isSome) :
    list_add m n head =
      .ok ((((m.setPrev x n).setNext n x).setPrev n head).setNext head n) := by
  have h5 : (m.next head).isSome := by simp [h1]
  unfold list_add
  rw [loadNext_ok hh h1]
  simp only [bind_ok_eq]
  rw [storePrev_ok _ hx h2]
  simp only [bind_ok_eq]
  rw [storeNext_ok _ hn (by simpa using h3)]
  simp only [bind_ok_eq]
  rw [storePrev_ok _ hn (by simpa using isSome_ite h4)]
  simp only [bind_ok_eq]
  rw [storeNext_ok _ hh (by simpa using isSome_ite h5)]

theorem list_add_tail_ok {m : Mem} {n head x : Ptr} (hh : head ≠ 0) (hn : n ≠ 0) (hx : x ≠ 0)
    (h1 : m.prev head = some x) (h2 : (m.next x).isSome) (h3 : (m.next n).isSome)
    (h4 : (m.prev n).isSome) :
    list_add_tail m n head =
      .ok ((((m.setNext x n).setNext n head).setPrev n x).setPrev head n) := by
  have h5 : (m.prev head).isSome := by simp [h1]
  unfold list_add_tail
  rw [loadPrev_ok hh h1]
  simp only [bind_ok_eq]
  rw [storeNext_ok _ hx h2]
  simp only [bind_ok_eq]
  rw [storeNext_ok _ hn (by simpa using isSome_ite h3)]
  simp only [bind_ok_eq]
  rw [storePrev_ok _ hn (by simpa using h4)]
  simp only [bind_ok_eq]
  rw [storePrev_ok _ hh (by simpa using isSome_ite h5)]

theorem list_del_ok {m : Mem} {t nx pv : Ptr} (ht : t ≠ 0) (hnx : nx ≠ 0) (hpv : pv ≠ 0)
    (h1 : m.next t = some nx) (h2 : m.prev t = some pv) (h3 : (m.prev nx).isSome)
    (h4 : (m.next pv).isSome) :
    list_del m t = .ok ((m.setPrev nx pv).setNext pv nx) := by
  unfold list_del
  rw [loadNext_ok ht h1]
  simp only [bind_ok_eq]
  rw [loadPrev_ok ht h2]
  simp only [bind_ok_eq]
  rw [storePrev_ok _ hnx h3]
  simp only [bind_ok_eq]
  rw [storeNext_ok _ hpv (by simpa using h4)]

/-! ## Segments -/

theorem Seg.append {m : Mem} {xs : List Ptr} {p y q : Ptr} {ys : List Ptr} :
    Seg m p (xs ++ y :: ys) q ↔ Seg m p xs y ∧ Seg m y ys q := by
  induction xs generalizing p with
  | nil => simp [Seg, and_assoc]
  | cons x xs ih => simp [Seg, ih, and_assoc]

theorem Seg.frame {m m2 : Mem} {xs : List Ptr} {p q : Ptr}
    (hn : ∀ a ∈ p :: xs, m2.next a = m.next a) (hp : ∀ b ∈ xs ++ [q], m2.prev b = m.prev b)
    (h : Seg m p xs q) : Seg m2 p xs q := by
  induction xs generalizing p with
  | nil =>
    simp only [Seg] at h ⊢
    rw [hn p (by simp), hp q (by simp)]
    exact h
  | cons x xs ih =>
    simp only [Seg] at h ⊢
    refine ⟨by rw [hn p (by simp)]; exact h.1, by rw [hp x (by simp)]; exact h.2.1, ?_⟩
    exact ih (fun a ha => hn a (List.mem_cons_of_mem _ ha))
      (fun b hb => hp b (by simp at hb ⊢; tauto)) h.2.2

theorem cstr_append_zero (s t : List Nat) : cstr (cstr s ++ 0 :: t) = cstr s := by
  unfold cstr
  rw [List.takeWhile_append_of_pos (by
    intro b hb
    have := List.mem_takeWhile_imp hb
    simpa using this)]
  simp

theorem strncpyBytes_full (s : List Nat) : strncpyBytes s (strlen s + 1) = cstr s ++ [0] := by
  simp [strncpyBytes, strlen]

theorem Seg.next_isSome {m : Mem} {xs : List Ptr} {p q : Ptr} (h : Seg m p xs q) :
    ∀ a ∈ p :: xs, (m.next a).isSome := by
  induction xs generalizing p with
  | nil => intro a ha; simp at ha; subst ha; simp [h.1]
  | cons x xs ih =>
    intro a ha
    rcases List.mem_cons.1 ha with rfl | ha
    · simp [h.1]
    · exact ih h.2.2 a ha

theorem Seg.prev_isSome {m : Mem} {xs : List Ptr} {p q : Ptr} (h : Seg m p xs q) :
    ∀ b ∈ xs ++ [q], (m.prev b).isSome := by
  induction xs generalizing p with
  | nil => intro b hb; simp at hb; subst hb; simp [h.2]
  | cons x xs ih =>
    intro b hb
    rcases List.mem_cons.1 hb with rfl | hb
    · simp [h.2.1]
    · exact ih h.2.2 b hb

theorem valueOf_frame {m m2 : Mem} {x : Ptr} (hv : m2.value x = m.value x)
    (hb : ∀ v, m.value x = some v → m2.bytes v = m.bytes v) : valueOf m2 x = valueOf m x := by
  unfold valueOf
  rw [hv]
  cases h : m.value x with
  | none => rfl
  | some v => simp only [hb v h]

theorem valueOf_bytes_isSome {m : Mem} {x v : Ptr} (h : (valueOf m x).isSome)
    (hv : m.value x = some v) : (m.bytes v).isSome := by
  unfold valueOf at h
  rw [hv] at h
  by_cases h0 : v = 0
  · simp [h0] at h
  · cases hb : m.bytes v with
    | none => simp [h0, hb] at h
    | some bs => simp

theorem WF.ring_isSome {m : Mem} {head : Ptr} {xs : List Ptr} (h : WF m head xs) :
    ∀ a ∈ head :: xs, (m.next a).isSome ∧ (m.prev a).isSome := by
  intro a ha
  refine ⟨h.2.2.1.next_isSome a ha, h.2.2.1.prev_isSome a ?_⟩
  simp at ha ⊢
  tauto

/-- `list_add` on a ring: the new link becomes the first one after the sentinel. -/
theorem list_add_seg {m : Mem} {head n : Ptr} {xs : List Ptr}
    (hnz : ∀ a ∈ head :: xs, a ≠ 0) (hnd : (head :: xs).Nodup) (hseg : Seg m head xs head)
    (hn : n ≠ 0) (hnew : n ∉ head :: xs) (hnn : (m.next n).isSome) (hnp : (m.prev n).isSome) :
    ∃ m2, list_add m n head = .ok m2 ∧ Seg m2 head (n :: xs) head ∧
      m2.value = m.value ∧ m2.bytes = m.bytes := by
  have hh : head ≠ 0 := hnz head (by simp)
  have hnh : n ≠ head := fun h => hnew (by simp [h])
  cases xs with
  | nil =>
    simp only [Seg] at hseg
    refine ⟨_, list_add_ok hh hn hh hseg.1 (by simp [hseg.2]) hnn hnp, ?_, rfl, rfl⟩
    simp [Seg, hnh, hnh.symm]
  | cons x xs =>
    simp only [Seg] at hseg
    have hx0 : x ≠ 0 := hnz x (by simp)
    have hnx : n ≠ x := fun h => hnew (by simp [h])
    have hxh : x ≠ head := by
      intro h; simp [h] at hnd
    refine ⟨_, list_add_ok hh hn hx0 hseg.1 (by simp [hseg.2.1]) hnn hnp, ?_, rfl, rfl⟩
    simp only [Seg]
    refine ⟨by simp, by simp, by simp [hnh], by simp [hnx.symm], ?_⟩
    refine Seg.frame ?_ ?_ hseg.2.2
    · intro a ha
      have h1 : a ≠ head := by
        rintro rfl; simp at hnd ha; tauto
      have h2 : a ≠ n := by
        rintro rfl; exact hnew (List.mem_cons_of_mem _ ha)
      simp [h1, h2]
    · intro b hb
      have h1 : b ≠ n := by
        rintro rfl; simp at hb hnew; tauto
      have h2 : b ≠ x := by
        rintro rfl
        simp at hb hnd
        rcases hb with hb | hb
        · exact hnd.2.1 hb
        · exact hxh hb
      simp [h1, h2]

theorem eq_nil_or_snoc (xs : List Ptr) : xs = [] ∨ ∃ ys y, xs = ys ++ [y] := by
  rcases List.eq_nil_or_concat xs with h | ⟨L, b, h⟩
  · exact Or.inl h
  · exact Or.inr ⟨L, b, by simpa using h⟩

theorem nodup_split {head t : Ptr} {as bs : List Ptr}
    (hnd : (head :: (as ++ t :: bs)).Nodup) :
    t ≠ head ∧ t ∉ as ∧ t ∉ bs ∧ head ∉ as ∧ head ∉ bs ∧ (∀ a ∈ as, a ∉ bs) ∧
      as.Nodup ∧ bs.Nodup := by
  simp [List.nodup_append] at hnd
  obtain ⟨⟨h1, h2, h3⟩, h4, ⟨h5, h6⟩, h7, h8⟩ := hnd
  exact ⟨fun h => h2 h.symm, h7, h5, h1, h3, fun a ha hb => h8 ha hb, h4, h6⟩

/-- `list_add_tail` on a ring: the new link becomes the last one before the sentinel. -/
theorem list_add_tail_seg {m : Mem} {head n : Ptr} {xs : List Ptr}
    (hnz : ∀ a ∈ head :: xs, a ≠ 0) (hnd : (head :: xs).Nodup) (hseg : Seg m head xs head)
    (hn : n ≠ 0) (hnew : n ∉ head :: xs) (hnn : (m.next n).isSome) (hnp : (m.prev n).isSome) :
    ∃ m2, list_add_tail m n head = .ok m2 ∧ Seg m2 head (xs ++ [n]) head ∧
      m2.value = m.value ∧ m2.bytes = m.bytes := by
  have hh : head ≠ 0 := hnz head (by simp)
  have hnh : n ≠ head := fun h => hnew (by simp [h])
  rcases eq_nil_or_snoc xs with rfl | ⟨ys, y, rfl⟩
  · simp only [Seg] at hseg
    refine ⟨_, list_add_tail_ok hh hn hh hseg.2 (by simp [hseg.1]) hnn hnp, ?_, rfl, rfl⟩
    simp [Seg, hnh, hnh.symm]
  · rw [Seg.append] at hseg
    obtain ⟨hs1, hs2⟩ := hseg
    simp only [Seg] at hs2
    have hy0 : y ≠ 0 := hnz y (by simp)
    have hny : n ≠ y := fun h => hnew (by simp [h])
    have hyh : y ≠ head := by
      intro h; simp [h] at hnd
    refine ⟨_, list_add_tail_ok hh hn hy0 hs2.2 (by simp [hs2.1]) hnn hnp, ?_, rfl, rfl⟩
    obtain ⟨-, hyys, -, hhys, -, -, -, -⟩ := nodup_split hnd
    rw [List.append_assoc, List.singleton_append, Seg.append]
    refine ⟨?_, ?_⟩
    · refine Seg.frame ?_ ?_ hs1
      · intro a ha
        have h1 : a ≠ y := by
          rintro rfl
          simp at ha
          rcases ha with ha | ha
          · exact hyh ha
          · exact hyys ha
        have h2 : a ≠ n := by
          rintro rfl; simp at ha hnew; tauto
        simp [h1, h2]
      · intro b hb
        have h1 : b ≠ head := by
          rintro rfl; simp at hb hnd; tauto
        have h2 : b ≠ n := by
          rintro rfl; simp at hb hnew; tauto
        simp [h1, h2]
    · simp [Seg, hnh, hnh.symm, hny, hny.symm, hyh]

/-- `list_del` of a link of a ring: the link leaves the ring, keeps its own
pointers, and nothing else moves. -/
theorem list_del_seg {m : Mem} {head t : Ptr} {as bs : List Ptr}
    (hnz : ∀ a ∈ head :: (as ++ t :: bs), a ≠ 0) (hnd : (head :: (as ++ t :: bs)).Nodup)
    (hseg : Seg m head (as ++ t :: bs) head) :
    ∃ m2, list_del m t = .ok m2 ∧ Seg m2 head (as ++ bs) head ∧
      m2.value = m.value ∧ m2.bytes = m.bytes ∧ m2.next t = m.next t ∧ m2.prev t = m.prev t := by
  have hh : head ≠ 0 := hnz head (by simp)
  have ht0 : t ≠ 0 := hnz t (by simp)
  obtain ⟨hth, hta, htb, hha, hhb, hab, hand, hbnd⟩ := nodup_split hnd
  rw [Seg.append] at hseg
  obtain ⟨hs1, hs2⟩ := hseg
  -- the neighbours of `t`
  rcases eq_nil_or_snoc as with rfl | ⟨as1, pv, rfl⟩
  · -- `t` is the first element: its predecessor is the sentinel
    simp only [Seg] at hs1
    cases bs with
    | nil =>
      simp only [Seg] at hs2
      refine ⟨_, list_del_ok ht0 hh hh hs2.1 hs1.2 (by simp [hs2.2]) (by simp [hs1.1]),
        ?_, rfl, rfl, ?_, ?_⟩
      · simp [Seg]
      · simp [hth]
      · simp [hth]
    | cons nx bs =>
      simp only [Seg] at hs2
      have hnx0 : nx ≠ 0 := hnz nx (by simp)
      have hnxt : nx ≠ t := by
        rintro rfl; exact htb (by simp)
      have hnxh : nx ≠ head := by
        rintro rfl; exact hhb (by simp)
      have hnxb : nx ∉ bs := (List.nodup_cons.1 hbnd).1
      refine ⟨_, list_del_ok ht0 hnx0 hh hs2.1 hs1.2 (by simp [hs2.2.1]) (by simp [hs1.1]),
        ?_, rfl, rfl, ?_, ?_⟩
      · simp only [List.nil_append, Seg]
        refine ⟨by simp, by simp, ?_⟩
        refine Seg.frame ?_ ?_ hs2.2.2
        · intro a ha
          have h1 : a ≠ head := by
            rintro rfl; simp at ha; rcases ha with ha | ha
            · exact hnxh ha.symm
            · exact hhb (List.mem_cons_of_mem _ ha)
          simp [h1]
        · intro b hb
          have h1 : b ≠ nx := by
            rintro rfl; simp at hb; rcases hb with hb | hb
            · exact hnxb hb
            · exact hnxh hb
          simp [h1]
      · simp [hth]
      · simp [hnxt.symm]
  · -- the predecessor of `t` is the element `pv`
    rw [Seg.append] at hs1
    obtain ⟨hs0, hs1⟩ := hs1
    simp only [Seg] at hs1
    have hpv0 : pv ≠ 0 := hnz pv (by simp)
    have hpvt : pv ≠ t := by
      rintro rfl; exact hta (by simp)
    have hpvh : pv ≠ head := by
      rintro rfl; exact hha (by simp)
    have hpva : pv ∉ as1 := by
      intro h
      simp [List.nodup_append] at hand
      exact hand.2 h
    cases bs with
    | nil =>
      simp only [Seg] at hs2
      refine ⟨_, list_del_ok ht0 hh hpv0 hs2.1 hs1.2 (by simp [hs2.2]) (by simp [hs1.1]),
        ?_, rfl, rfl, ?_, ?_⟩
      · rw [List.append_nil, Seg.append]
        refine ⟨?_, by simp [Seg]⟩
        refine Seg.frame ?_ ?_ hs0
        · intro a ha
          have h1 : a ≠ pv := by
            rintro rfl; simp at ha; rcases ha with ha | ha
            · exact hpvh ha
            · exact hpva ha
          simp [h1]
        · intro b hb
          have h1 : b ≠ head := by
            rintro rfl; simp at hb; rcases hb with hb | hb
            · exact hha (by simp [hb])
            · exact hpvh hb.symm
          simp [h1]
      · simp [hpvt.symm]
      · simp [hth]
    | cons nx bs =>
      simp only [Seg] at hs2
      have hnx0 : nx ≠ 0 := hnz nx (by simp)
      have hnxt : nx ≠ t := by
        rintro rfl; exact htb (by simp)
      have hnxh : nx ≠ head := by
        rintro rfl; exact hhb (by simp)
      have hnxb : nx ∉ bs := (List.nodup_cons.1 hbnd).1
      have hnxa : nx ∉ as1 ++ [pv] := fun h => hab nx h (by simp)
      refine ⟨_, list_del_ok ht0 hnx0 hpv0 hs2.1 hs1.2 (by simp [hs2.2.1]) (by simp [hs1.1]),
        ?_, rfl, rfl, ?_, ?_⟩
      · rw [List.append_assoc, List.singleton_append, Seg.append]
        refine ⟨?_, ?_⟩
        · refine Seg.frame ?_ ?_ hs0
          · intro a ha
            have h1 : a ≠ pv := by
              rintro rfl; simp at ha; rcases ha with ha | ha
              · exact hpvh ha
              · exact hpva ha
            simp [h1]
          · intro b hb
            have h1 : b ≠ nx := by
              rintro rfl; exact hnxa (by simpa using hb)
            simp [h1]
        · simp only [Seg]
          refine ⟨by simp, by simp, ?_⟩
          refine Seg.frame ?_ ?_ hs2.2.2
          · intro a ha
            have h1 : a ≠ pv := by
              intro h; rw [h] at ha; exact hab pv (by simp) (by simpa using ha)
            simp [h1]
          · intro b hb
            have h1 : b ≠ nx := by
              rintro rfl; simp at hb; rcases hb with hb | hb
              · exact hnxb hb
              · exact hnxh hb
            simp [h1]
      · simp [hpvt.symm]
      · simp [hnxt.symm]

/-- The memory right before the new element is linked in by `q_insert_head` or
`q_insert_tail`: the ring is untouched and the new element holds a copy of `s`. -/
theorem insert_prepared {m : Mem} {head : Ptr} {xs : List Ptr} (s : List Nat) {n v : Ptr}
    (hwf : WF m head xs) (hn : n ≠ 0) (hv : v ≠ 0)
    (hfresh : m.next n = none ∧ m.prev n = none ∧ m.value n = none) (hvf : m.bytes v = none)
    {m4 : Mem}
    (hm4 : m4 = ((((((m.setNext n 0).setPrev n 0).setValue n 0).setBytes v
      (List.replicate (strlen s + 1) 0)).setValue n v).setBytes v (cstr s ++ [0]))) :
    n ∉ head :: xs ∧ Seg m4 head xs head ∧ (m4.next n).isSome ∧ (m4.prev n).isSome ∧
      ∀ m2 : Mem, m2.value = m4.value → m2.bytes = m4.bytes →
        m2.value head = none ∧ valueOf m2 n = some (cstr s) ∧
        (∀ x ∈ xs, valueOf m2 x = valueOf m x) ∧
        ((n :: xs).map m2.value).Nodup ∧ ((xs ++ [n]).map m2.value).Nodup := by
  have hiso := hwf.ring_isSome
  obtain ⟨hnz, hnd, hseg, hsent, hel, hvnd⟩ := hwf
  have hnew : n ∉ head :: xs := by
    intro hmem
    have := (hiso n hmem).1
    simp [hfresh.1] at this
  have hhn : head ≠ n := fun h => hnew (by simp [h])
  have hxn : ∀ x ∈ xs, x ≠ n := by
    rintro x hx rfl; exact hnew (List.mem_cons_of_mem _ hx)
  have hvnew : ∀ x ∈ xs, m.value x ≠ some v := by
    intro x hx hxv
    have := valueOf_bytes_isSome (hel x hx) hxv
    simp [hvf] at this
  subst hm4
  refine ⟨hnew, ?_, by simp, by simp, ?_⟩
  · refine Seg.frame ?_ ?_ hseg
    · intro a ha
      have : a ≠ n := by rintro rfl; exact hnew ha
      simp [this]
    · intro b hb
      have : b ≠ n := by
        rintro rfl; simp at hb hnew; tauto
      simp [this]
  · intro m2 h1 h2
    have hvx : ∀ x ∈ xs, m2.value x = m.value x := by
      intro x hx; simp [h1, hxn x hx]
    have hmap : xs.map m2.value = xs.map m.value := List.map_congr_left hvx
    have hvn : m2.value n = some v := by simp [h1]
    have hnotin : some v ∉ xs.map m.value := by
      intro h
      obtain ⟨x, hx, hxv⟩ := List.mem_map.1 h
      exact hvnew x hx hxv
    refine ⟨by simp [h1, hhn, hsent], ?_, ?_, ?_, ?_⟩
    · simp [valueOf, h1, h2, hv, cstr_append_zero]
    · intro x hx
      apply valueOf_frame (hvx x hx)
      intro w hw
      have : w ≠ v := by rintro rfl; exact hvnew x hx hw
      simp [h2, this]
    · rw [List.map_cons, hmap, hvn]
      exact List.nodup_cons.2 ⟨hnotin, hvnd⟩
    · rw [List.map_append, hmap, List.map_singleton, hvn]
      refine List.Nodup.append hvnd (List.nodup_singleton _) ?_
      intro a ha hb
      simp at hb
      subst hb
      exact hnotin ha

theorem valueOf_eq_some {m : Mem} {x : Ptr} {s : List Nat} (h : valueOf m x = some s) :
    ∃ v bs, m.value x = some v ∧ v ≠ 0 ∧ m.bytes v = some bs ∧ 0 ∈ bs ∧ cstr bs = s := by
  unfold valueOf at h
  cases hv : m.value x with
  | none => simp [hv] at h
  | some v =>
    by_cases h0 : v = 0
    · simp [hv, h0] at h
    · cases hb : m.bytes v with
      | none => simp [hv, h0, hb] at h
      | some bs =>
        by_cases hz : 0 ∈ bs
        · simp [hv, h0, hb, hz] at h
          exact ⟨v, bs, rfl, h0, hb, hz, h⟩
        · simp [hv, h0, hb, hz] at h

theorem strncpyBytes_length (s : List Nat) (n : Nat) : (strncpyBytes s n).length = n := by
  simp [strncpyBytes]
  omega

/-- The copy-out of `q_remove_head` and `q_remove_tail` into a buffer of at
least `bufsize >= 1` bytes that is not the string of the element: only the
buffer changes, and it receives the string cut at `bufsize - 1` bytes, padded
with zero bytes up to `bufsize`. -/
theorem copyOut_ok {m : Mem} {e sp : Ptr} {bufsize : Nat} {s old : List Nat}
    (he : e ≠ 0) (hs : valueOf m e = some s) (hsp : sp ≠ 0)
    (hb1 : 1 ≤ bufsize) (hb2 : bufsize < 2 ^ 64)
    (hold : m.bytes sp = some old) (hlen : bufsize ≤ old.length)
    (hdisj : m.value e ≠ some sp) :
    ∃ m2, copyOut m e sp bufsize = .ok m2 ∧ m2.next = m.next ∧ m2.prev = m.prev ∧
      m2.value = m.value ∧ (∀ p, p ≠ sp → m2.bytes p = m.bytes p) ∧
      m2.bytes sp = some (strncpyBytes s (bufsize - 1) ++ 0 :: old.drop bufsize) := by
  obtain ⟨v, bs, hv, hv0, hbs, hz, hc⟩ := valueOf_eq_some hs
  have hvsp : v ≠ sp := by
    rintro rfl; exact hdisj hv
  have hmod : (bufsize + 2 ^ 64 - 1) % 2 ^ 64 = bufsize - 1 := by
    have : bufsize + 2 ^ 64 - 1 = (bufsize - 1) + 2 ^ 64 := by omega
    rw [this, Nat.add_mod_right, Nat.mod_eq_of_lt (by omega)]
  have hdrop : List.drop (bufsize - 1) (List.replicate bufsize 0 ++ List.drop bufsize old) =
      0 :: List.drop bufsize old := by
    obtain ⟨k, rfl⟩ : ∃ k, bufsize = k + 1 := ⟨bufsize - 1, by omega⟩
    rw [List.drop_append_of_le_length (by simp)]
    simp [List.replicate_succ']
  refine ⟨(m.setBytes sp (List.replicate bufsize 0 ++ old.drop bufsize)).setBytes sp
    (strncpyBytes s (bufsize - 1) ++ 0 :: old.drop bufsize), ?_, rfl, rfl, rfl, ?_, by simp⟩
  · simp only [copyOut, hsp, if_false, memset0, writeBytes, hold, hlen, if_true, bind_ok_eq]
    rw [loadValue_ok he (by simpa using hv)]
    simp only [bind_ok_eq, loadStr, hv0, if_false, setBytes_bytes, hvsp, hbs, hz, if_true, hc,
      strncpy, writeBytes, hsp, hmod]
    have hle : bufsize - 1 ≤ (List.replicate bufsize 0 ++ List.drop bufsize old).length := by
      simp; omega
    simp only [hle, if_true, hdrop]
  · intro p hp
    simp [hp]

theorem WF.ring {m : Mem} {head : Ptr} {xs : List Ptr} (h : WF m head xs) : Ring m head xs :=
  ⟨h.1, h.2.1, h.2.2.1⟩

theorem Ring.empty_test {m : Mem} {head : Ptr} {xs : List Ptr} (h : Ring m head xs) :
    list_empty m head = .ok (decide (xs = [])) := by
  obtain ⟨hnz, hnd, hseg⟩ := h
  have hh : head ≠ 0 := hnz head (by simp)
  cases xs with
  | nil =>
    simp only [Seg] at hseg
    simp [list_empty, loadNext_ok hh hseg.1]
  | cons x xs =>
    simp only [Seg] at hseg
    have : x ≠ head := by
      rintro rfl; simp at hnd
    simp [list_empty, loadNext_ok hh hseg.1, this]

theorem WF.list_empty_eq {m : Mem} {head : Ptr} {xs : List Ptr} (h : WF m head xs) :
    list_empty m head = .ok (decide (xs = [])) :=
  h.ring.empty_test

theorem Seg.prev_last {m : Mem} {xs : List Ptr} {p x q : Ptr} (h : Seg m p (xs ++ [x]) q) :
    m.prev q = some x := by
  rw [Seg.append] at h
  exact h.2.2


/-! ## The traversal of `q_size` -/

theorem q_size_loop_at_head {m : Mem} {head : Ptr} {fuel len k : Nat}
    (h : q_size_loop fuel m head head len = .ok k) : k = len := by
  cases fuel with
  | zero => simp [q_size_loop] at h
  | succ fuel => simp [q_size_loop] at h; exact h.symm

/-- Whenever the loop of `q_size` returns on a ring, it has counted the links
up to the sentinel. -/
theorem q_size_loop_imp {m : Mem} {head : Ptr} :
    ∀ (ys : List Ptr) (p y : Ptr) (fuel len k : Nat), Seg m p (y :: ys) head →
      head ∉ y :: ys → (∀ a ∈ y :: ys, a ≠ 0) →
      q_size_loop fuel m head y len = .ok k → k = len + (y :: ys).length := by
  intro ys
  induction ys with
  | nil =>
    intro p y fuel len k hseg hnot hnz h
    cases fuel with
    | zero => simp [q_size_loop] at h
    | succ fuel =>
      have hy : y ≠ head := fun e => hnot (by simp [e])
      simp only [Seg] at hseg
      simp only [q_size_loop, hy, if_false] at h
      split at h
      · simp at h
      · rw [loadNext_ok (hnz y (by simp)) hseg.2.2.1] at h
        simp only [bind_ok_eq] at h
        have := q_size_loop_at_head h
        simp [this]
  | cons y2 ys ih =>
    intro p y fuel len k hseg hnot hnz h
    cases fuel with
    | zero => simp [q_size_loop] at h
    | succ fuel =>
      have hy : y ≠ head := fun e => hnot (by simp [e])
      have hseg2 : Seg m y (y2 :: ys) head := hseg.2.2
      simp only [q_size_loop, hy, if_false] at h
      split at h
      · simp at h
      · rw [loadNext_ok (hnz y (by simp)) hseg2.1] at h
        simp only [bind_ok_eq] at h
        have := ih y y2 fuel (len + 1) k hseg2
          (fun hm => hnot (List.mem_cons_of_mem _ hm))
          (fun a ha => hnz a (List.mem_cons_of_mem _ ha)) h
        simp [this]
        omega

/-- With enough fuel and below `INT_MAX` the loop of `q_size` counts the links
up to the sentinel. -/
theorem q_size_loop_ok {m : Mem} {head : Ptr} :
    ∀ (ys : List Ptr) (p y : Ptr) (fuel len : Nat), Seg m p (y :: ys) head →
      head ∉ y :: ys → (∀ a ∈ y :: ys, a ≠ 0) →
      (y :: ys).length < fuel → len + (y :: ys).length < 2 ^ 31 →
      q_size_loop fuel m head y len = .ok (len + (y :: ys).length) := by
  intro ys
  induction ys with
  | nil =>
    intro p y fuel len hseg hnot hnz hf hlen
    obtain ⟨f, rfl⟩ : ∃ f, fuel = f + 2 := ⟨fuel - 2, by simp at hf; omega⟩
    have hy : y ≠ head := fun e => hnot (by simp [e])
    simp only [Seg] at hseg
    have hov : ¬ 2 ^ 31 ≤ len + 1 := by simp at hlen; omega
    simp only [q_size_loop, hy, if_false, hov, loadNext_ok (hnz y (by simp)) hseg.2.2.1,
      bind_ok_eq, if_true]
    simp
  | cons y2 ys ih =>
    intro p y fuel len hseg hnot hnz hf hlen
    obtain ⟨f, rfl⟩ : ∃ f, fuel = f + 1 := ⟨fuel - 1, by simp at hf; omega⟩
    have hy : y ≠ head := fun e => hnot (by simp [e])
    have hseg2 : Seg m y (y2 :: ys) head := hseg.2.2
    have hov : ¬ 2 ^ 31 ≤ len + 1 := by simp at hlen; omega
    simp only [q_size_loop, hy, if_false, hov, loadNext_ok (hnz y (by simp)) hseg2.1, bind_ok_eq]
    rw [ih y y2 f (len + 1) hseg2 (fun hm => hnot (List.mem_cons_of_mem _ hm))
      (fun a ha => hnz a (List.mem_cons_of_mem _ ha)) (by simp at hf ⊢; omega)
      (by simp at hlen ⊢; omega)]
    simp
    omega

/-- Whenever `q_size` returns on a ring, it returns the number of elements. -/
theorem Ring.size_imp {m : Mem} {head : Ptr} {xs : List Ptr} (h : Ring m head xs)
    {fuel k : Nat} (hk : q_size fuel m head = .ok k) : k = xs.length := by
  have hemp := h.empty_test
  obtain ⟨hnz, hnd, hseg⟩ := h
  have hh : head ≠ 0 := hnz head (by simp)
  cases xs with
  | nil =>
    simp [q_size, hemp] at hk
    simp [hk]
  | cons x xs =>
    simp [q_size, hemp, hh, loadNext_ok hh hseg.1] at hk
    have := q_size_loop_imp xs head x fuel 0 k hseg (List.nodup_cons.1 hnd).1
      (fun a ha => hnz a (List.mem_cons_of_mem _ ha)) hk
    simpa using this

/-- On a ring of fewer than `2 ^ 31` elements `q_size` returns the number of
elements, given fuel for one step per link. -/
theorem Ring.size_ok {m : Mem} {head : Ptr} {xs : List Ptr} (h : Ring m head xs)
    {fuel : Nat} (hf : xs.length < fuel) (hlen : xs.length < 2 ^ 31) :
    q_size fuel m head = .ok xs.length := by
  have hemp := h.empty_test
  obtain ⟨hnz, hnd, hseg⟩ := h
  have hh : head ≠ 0 := hnz head (by simp)
  cases xs with
  | nil => simp [q_size, hemp]
  | cons x xs =>
    simp only [q_size, hemp, bind_ok_eq, loadNext_ok hh hseg.1]
    have := q_size_loop_ok xs head x fuel 0 hseg (List.nodup_cons.1 hnd).1
      (fun a ha => hnz a (List.mem_cons_of_mem _ ha)) hf (by simpa using hlen)
    simpa [hh] using this

theorem WF.q_size_imp {m : Mem} {head : Ptr} {xs : List Ptr} (h : WF m head xs)
    {fuel k : Nat} (hk : q_size fuel m head = .ok k) : k = xs.length :=
  h.ring.size_imp hk

theorem WF.q_size_ok {m : Mem} {head : Ptr} {xs : List Ptr} (h : WF m head xs)
    {fuel : Nat} (hf : xs.length < fuel) (hlen : xs.length < 2 ^ 31) :
    q_size fuel m head = .ok xs.length :=
  h.ring.size_ok hf hlen

theorem Seg.next_mem {m : Mem} {xs : List Ptr} {p q : Ptr} (h : Seg m p xs q) :
    ∀ a ∈ p :: xs, ∃ b ∈ xs ++ [q], m.next a = some b := by
  induction xs generalizing p with
  | nil => intro a ha; simp at ha; subst ha; exact ⟨q, by simp, h.1⟩
  | cons x xs ih =>
    intro a ha
    rcases List.mem_cons.1 ha with rfl | ha
    · exact ⟨x, by simp, h.1⟩
    · obtain ⟨b, hb, hab⟩ := ih h.2.2 a ha
      exact ⟨b, List.mem_cons_of_mem _ hb, hab⟩

theorem Ring.closed {m : Mem} {head : Ptr} {xs : List Ptr} (h : Ring m head xs) :
    NextClosed m (head :: xs) := by
  intro a ha
  obtain ⟨b, hb, hab⟩ := h.2.2.next_mem a ha
  exact ⟨h.1 a ha, b, by simp at hb ⊢; tauto, hab⟩

theorem WF.nextClosed {m : Mem} {head : Ptr} {xs : List Ptr} (h : WF m head xs) :
    NextClosed m (head :: xs) :=
  h.ring.closed

theorem advance_closed {m : Mem} {S : List Ptr} (hc : NextClosed m S) :
    ∀ (k : Nat) (p : Ptr), p ∈ S → ∃ q ∈ S, advance k m p = .ok q := by
  intro k
  induction k with
  | zero => intro p hp; exact ⟨p, hp, rfl⟩
  | succ k ih =>
    intro p hp
    obtain ⟨hp0, b, hb, hpb⟩ := hc p hp
    obtain ⟨q, hq, hadv⟩ := ih b hb
    exact ⟨q, hq, by simp [advance, loadNext_ok hp0 hpb, hadv]⟩

theorem lsort_base {off fuel : Nat} {m : Mem} {p : Ptr} {qSize : Int} (h : qSize < 2) :
    lsort off (fuel + 1) m p qSize = .ok (p, m) := by
  rw [lsort]; simp [h]

theorem lsort_step {off fuel : Nat} {m : Mem} {p : Ptr} {qSize : Int} (hp : p ≠ 0)
    (h : 2 ≤ qSize) :
    lsort off (fuel + 1) m p qSize =
      (advance (qSize / 2).toNat m p >>= fun l2 =>
        lsort off fuel m p (qSize / 2) >>= fun r1 =>
          if qSize - (qSize / 2) * 2 ≠ 0 then
            lsort off fuel r1.2 l2 (qSize / 2) >>= fun r2 => merge off (fuel + 1) r2.2 r1.1 r2.1
          else
            lsort off fuel r1.2 l2 (qSize / 2 + 1) >>= fun r2 =>
              merge off (fuel + 1) r2.2 r1.1 r2.1) := by
  rw [lsort]
  simp only [hp, false_or, not_lt.2 h, if_false]

/-- On links whose `next` pointers never leave a set of non-null links (a ring),
`lsort` with count 2 calls itself with count 2 on the next link, without end. -/
theorem lsort_two_closed {m : Mem} {S : List Ptr} (hc : NextClosed m S) (off : Nat) :
    ∀ (fuel : Nat) (p : Ptr), p ∈ S → lsort off fuel m p 2 = .error .outOfFuel := by
  intro fuel
  induction fuel with
  | zero => intro p _; rfl
  | succ fuel ih =>
    intro p hp
    obtain ⟨hp0, b, hb, hpb⟩ := hc p hp
    have h1 : advance 1 m p = .ok b := by simp [advance, loadNext_ok hp0 hpb]
    have h2 : ((2 : Int) / 2).toNat = 1 := by decide
    have h3 : (2 : Int) / 2 = 1 := by decide
    rw [lsort_step hp0 (le_refl _), h2, h3, h1]
    simp only [bind_ok_eq]
    cases fuel with
    | zero => rfl
    | succ f =>
      rw [lsort_base (by decide)]
      simp only [bind_ok_eq]
      have h4 : ¬ ((2 : Int) - 1 * 2 ≠ 0) := by decide
      rw [if_neg h4, show (1 : Int) + 1 = 2 from rfl, ih b hb]
      rfl

theorem bind_error_of_error {α β : Type} {x : Except Fault α} {f : α → Except Fault β}
    (h : ∃ e, x = .error e) : ∃ e, (x >>= f) = .error e := by
  obtain ⟨e, rfl⟩ := h
  exact ⟨e, rfl⟩

theorem error_or_ok {α : Type} (x : Except Fault α) : (∃ e, x = .error e) ∨ ∃ a, x = .ok a := by
  cases x with
  | error e => exact Or.inl ⟨e, rfl⟩
  | ok a => exact Or.inr ⟨a, rfl⟩

theorem NextClosed.setNext {m : Mem} {S : List Ptr} (hc : NextClosed m S) {p l : Ptr}
    (hl : l ∈ S) : NextClosed (m.setNext p l) S := by
  intro a ha
  obtain ⟨ha0, b, hb, hab⟩ := hc a ha
  refine ⟨ha0, ?_⟩
  by_cases hap : a = p
  · exact ⟨l, hl, by simp [hap]⟩
  · exact ⟨b, hb, by simp [hap, hab]⟩

theorem storeTmp_closed {m : Mem} {S : List Ptr} (hc : NextClosed m S) (hd : Ptr)
    (tmp : Option Ptr) {l : Ptr} (hl : l ∈ S) :
    (∃ e, storeTmp m hd tmp l = .error e) ∨
      ∃ r, storeTmp m hd tmp l = .ok r ∧ NextClosed r.2 S := by
  cases tmp with
  | none => exact Or.inr ⟨(l, m), rfl, hc⟩
  | some p =>
    rcases error_or_ok (storeNext m p l) with ⟨e, he⟩ | ⟨m2, hm2⟩
    · exact Or.inl ⟨e, by simp [storeTmp, he]⟩
    · refine Or.inr ⟨(hd, m2), by simp [storeTmp, hm2], ?_⟩
      have : m2 = m.setNext p l := by
        unfold storeNext at hm2
        split at hm2
        · simp at hm2
        · split at hm2
          · simpa using hm2.symm
          · simp at hm2
      rw [this]
      exact hc.setNext hl

/-- On a ring the `while (l1 && l2)` loop of `merge` never ends: neither
pointer ever becomes `NULL`. -/
theorem merge_loop_closed {S : List Ptr} (e1 e2 : Ptr) :
    ∀ (fuel : Nat) (m : Mem) (hd : Ptr) (tmp : Option Ptr) (l1 l2 : Ptr),
      NextClosed m S → l1 ∈ S → l2 ∈ S →
      ∃ e, merge_loop fuel m e1 e2 hd tmp l1 l2 = .error e := by
  intro fuel
  induction fuel with
  | zero => intro m hd tmp l1 l2 _ _ _; exact ⟨_, rfl⟩
  | succ fuel ih =>
    intro m hd tmp l1 l2 hc h1 h2
    have h10 : l1 ≠ 0 := (hc l1 h1).1
    have h20 : l2 ≠ 0 := (hc l2 h2).1
    rw [merge_loop]
    simp only [h10, h20, ne_eq, not_false_eq_true, and_self, if_true]
    rcases error_or_ok (loadValue m e1) with he | ⟨v1, hv1⟩
    · exact bind_error_of_error he
    rw [hv1, bind_ok_eq]
    rcases error_or_ok (loadValue m e2) with he | ⟨v2, hv2⟩
    · exact bind_error_of_error he
    rw [hv2, bind_ok_eq]
    rcases error_or_ok (loadStr m v1) with he | ⟨s1, hs1⟩
    · exact bind_error_of_error he
    rw [hs1, bind_ok_eq]
    rcases error_or_ok (loadStr m v2) with he | ⟨s2, hs2⟩
    · exact bind_error_of_error he
    rw [hs2, bind_ok_eq]
    by_cases hlt : strcmp s1 s2 < 0
    · rw [if_pos hlt]
      rcases storeTmp_closed hc hd tmp h1 with he | ⟨r, hr, hcr⟩
      · exact bind_error_of_error he
      · obtain ⟨-, b, hb, hlb⟩ := hcr l1 h1
        rw [hr, bind_ok_eq]
        simp only [loadNext_ok h10 hlb, bind_ok_eq]
        exact ih r.2 r.1 (some l1) b l2 hcr hb h2
    · rw [if_neg hlt]
      rcases storeTmp_closed hc hd tmp h2 with he | ⟨r, hr, hcr⟩
      · exact bind_error_of_error he
      · obtain ⟨-, b, hb, hlb⟩ := hcr l2 h2
        rw [hr, bind_ok_eq]
        simp only [loadNext_ok h20 hlb, bind_ok_eq]
        exact ih r.2 r.1 (some l2) l1 b hcr h1 hb

/-- Called by `q_sort`, `lsort` starts at the sentinel of a ring; with any
count of at least 2 it never returns: halving the count leads to count 2, which
recurses without end, or to count 3, where `merge` is entered with two links of
the ring and its loop never meets `NULL` (if it gets past `strcmp` on the word
in front of the sentinel block at all). -/
theorem lsort_sentinel {m : Mem} {head : Ptr} {xs : List Ptr} (hwf : Ring m head xs)
    (hne : xs ≠ []) (off : Nat) :
    ∀ (n : Nat), 2 ≤ n → ∀ fuel, ∃ e, lsort off fuel m head (n : Int) = .error e := by
  have hc := hwf.closed
  obtain ⟨hnz, hnd, hseg⟩ := hwf
  have hh : head ≠ 0 := hnz head (by simp)
  intro n
  induction n using Nat.strong_induction_on with
  | _ n ih =>
    intro hn fuel
    cases fuel with
    | zero => exact ⟨_, rfl⟩
    | succ fuel =>
      rw [lsort_step hh (by exact_mod_cast hn)]
      have hdiv : ((n : Int) / 2) = ((n / 2 : Nat) : Int) := by norm_cast
      by_cases h4 : 4 ≤ n
      · -- the first recursive call never returns
        rcases error_or_ok (advance ((n : Int) / 2).toNat m head) with he | ⟨l2, hl2⟩
        · exact bind_error_of_error he
        · rw [hl2, bind_ok_eq, hdiv]
          exact bind_error_of_error (ih (n / 2) (by omega) (by omega) fuel)
      · by_cases h2 : n = 2
        · subst h2
          have := lsort_two_closed hc off (fuel + 1) head (by simp)
          rw [lsort_step hh (by decide)] at this
          exact ⟨_, this⟩
        · have h3 : n = 3 := by omega
          subst h3
          cases xs with
          | nil => exact absurd rfl hne
          | cons x xs =>
            have hx0 : x ≠ 0 := hnz x (by simp)
            have hxh : x ≠ head := by
              rintro rfl; simp at hnd
            obtain ⟨y, hy, hxy⟩ := hseg.2.2.next_mem x (by simp)
            have hyx : y ≠ x := by
              intro hyx
              rw [hyx] at hy
              have hnd2 := (List.nodup_cons.1 hnd).2
              simp at hy
              rcases hy with hy | hy
              · exact (List.nodup_cons.1 hnd2).1 hy
              · exact hxh hy
            have ha : advance 1 m head = .ok x := by
              simp [advance, loadNext_ok hh hseg.1]
            have e1 : (((3 : Nat) : Int) / 2).toNat = 1 := by decide
            have e2 : (((3 : Nat) : Int) / 2) = 1 := by decide
            have e3 : (((3 : Nat) : Int) - 1 * 2 ≠ 0) := by decide
            rw [e1, e2, ha, bind_ok_eq]
            cases fuel with
            | zero => exact ⟨_, rfl⟩
            | succ f =>
              rw [lsort_base (by decide), bind_ok_eq, if_pos e3, lsort_base (by decide),
                bind_ok_eq]
              have hl2 : list_empty m x = .ok false := by
                simp [list_empty, loadNext_ok hx0 hxy, hyx]
              have hl1 : list_empty m head = .ok false := by
                simp [list_empty, loadNext_ok hh hseg.1, hxh]
              simp only [merge, hx0, hh, if_false, hl2, hl1, bind_ok_eq, Bool.false_eq_true]
              exact bind_error_of_error
                (merge_loop_closed head x (f + 1 + 1) m 0 none head x hc (by simp) (by simp))

/-- `q_sort` on a ring of two or more elements never returns. -/
theorem q_sort_error {m : Mem} {head : Ptr} {xs : List Ptr} (hwf : Ring m head xs)
    (hlen : 2 ≤ xs.length) (off fuel : Nat) : ∃ e, q_sort off fuel m head = .error e := by
  have hh : head ≠ 0 := hwf.1 head (by simp)
  have hne : xs ≠ [] := by
    rintro rfl; simp at hlen
  unfold q_sort
  rcases error_or_ok (q_size fuel m head) with he | ⟨k, hk⟩
  · exact bind_error_of_error he
  · have hkl := hwf.size_imp hk
    subst hkl
    have h1 : ¬ xs.length < 2 := by omega
    simp only [hk, bind_ok_eq, h1, decide_False, Bool.false_or, beq_iff_eq, hh, if_false]
    exact bind_error_of_error (lsort_sentinel hwf hne off xs.length hlen fuel)

theorem Seg.next_prev {m : Mem} {xs : List Ptr} {p q : Ptr} (h : Seg m p xs q) :
    ∀ a ∈ p :: xs, ∃ b ∈ xs ++ [q], m.next a = some b ∧ m.prev b = some a := by
  induction xs generalizing p with
  | nil => intro a ha; simp at ha; subst ha; exact ⟨q, by simp, h.1, h.2⟩
  | cons x xs ih =>
    intro a ha
    rcases List.mem_cons.1 ha with rfl | ha
    · exact ⟨x, by simp, h.1, h.2.1⟩
    · obtain ⟨b, hb, hab⟩ := ih h.2.2 a ha
      exact ⟨b, List.mem_cons_of_mem _ hb, hab⟩

/-- The copy-out with a usable buffer changes no link and no string of the
elements `ys`. -/
theorem copyOut_frame {m : Mem} {x sp : Ptr} {bufsize : Nat} {ys : List Ptr}
    (hx0 : x ≠ 0) (hxs : (valueOf m x).isSome) (hx : x ∈ ys) (hsp : BufOK m sp bufsize ys) :
    ∃ m2, copyOut m x sp bufsize = .ok m2 ∧ m2.next = m.next ∧ m2.prev = m.prev ∧
      m2.value = m.value ∧ ∀ y ∈ ys, valueOf m2 y = valueOf m y := by
  by_cases hsp0 : sp = 0
  · subst hsp0
    exact ⟨m, by simp [copyOut], rfl, rfl, rfl, fun _ _ => rfl⟩
  · obtain ⟨hb1, hb2, ⟨old, hold, hlen⟩, hdisj⟩ := hsp.resolve_left hsp0
    obtain ⟨s, hs⟩ := Option.isSome_iff_exists.1 hxs
    obtain ⟨m2, hrun, h1, h2, h3, h4, -⟩ :=
      copyOut_ok hx0 hs hsp0 hb1 hb2 hold hlen (hdisj x hx)
    refine ⟨m2, hrun, h1, h2, h3, ?_⟩
    intro y hy
    refine valueOf_frame (by rw [h3]) (fun w hw => ?_)
    have : w ≠ sp := by
      rintro rfl; exact hdisj y hy hw
    exact h4 w this

/-- What `q_remove_head` does on a well-formed non-empty queue: `list_del(head)`
unlinks the sentinel. The first element `x` is returned but stays where it was:
the last element `pv` and `x` are linked to each other, and the sentinel keeps
pointing at `x`. -/
theorem q_remove_head_state {m : Mem} {head x sp : Ptr} {rest : List Ptr} {bufsize : Nat}
    (hwf : WF m head (x :: rest)) (hsp : BufOK m sp bufsize (x :: rest)) :
    ∃ m2 pv, q_remove_head m head sp bufsize = .ok (x, m2) ∧ pv ∈ x :: rest ∧
      m.prev head = some pv ∧
      m2.next = (fun a => if a = pv then some x else m.next a) ∧
      m2.prev = (fun a => if a = x then some pv else m.prev a) ∧
      m2.value = m.value ∧ ∀ y ∈ x :: rest, valueOf m2 y = valueOf m y := by
  have hemp := hwf.list_empty_eq
  have hiso := hwf.ring_isSome
  obtain ⟨hnz, hnd, hseg, hsent, hel, hvnd⟩ := hwf
  have hh : head ≠ 0 := hnz head (by simp)
  have hx0 : x ≠ 0 := hnz x (by simp)
  -- the last element
  obtain ⟨pv, hpvmem, hpv⟩ : ∃ pv, pv ∈ x :: rest ∧ m.prev head = some pv := by
    rcases eq_nil_or_snoc rest with rfl | ⟨ys, y, rfl⟩
    · exact ⟨x, by simp, hseg.2.2.2⟩
    · have : Seg m head ((x :: ys) ++ [y]) head := hseg
      exact ⟨y, by simp, this.prev_last⟩
  have hpv0 : pv ≠ 0 := hnz pv (List.mem_cons_of_mem _ hpvmem)
  have hdel : list_del m head = .ok ((m.setPrev x pv).setNext pv x) :=
    list_del_ok hh hx0 hpv0 hseg.1 hpv (hiso x (by simp)).2
      (hiso pv (List.mem_cons_of_mem _ hpvmem)).1
  obtain ⟨m2, hrun, h1, h2, h3, h4⟩ := copyOut_frame (m := (m.setPrev x pv).setNext pv x)
    hx0 (hel x (by simp)) (List.mem_cons_self x rest) hsp
  refine ⟨m2, pv, ?_, hpvmem, hpv, ?_, ?_, h3, h4⟩
  · simp [q_remove_head, hemp, hh, loadNext_ok hh hseg.1, hdel, hrun]
  · rw [h1]; funext a; simp
  · rw [h2]; funext a; simp

/-- After `q_remove_head` on a well-formed non-empty queue the former elements
form a ring of their own, which the sentinel points into and is not part of. -/
theorem q_remove_head_closed {m : Mem} {head x sp : Ptr} {rest : List Ptr} {bufsize : Nat}
    (hwf : WF m head (x :: rest)) (hsp : BufOK m sp bufsize (x :: rest)) :
    ∃ m2, q_remove_head m head sp bufsize = .ok (x, m2) ∧ m2.next head = some x ∧
      m2.prev x ≠ some head ∧ NextClosed m2 (x :: rest) ∧
      ∀ y ∈ x :: rest, valueOf m2 y = valueOf m y := by
  obtain ⟨m2, pv, hrun, hpvmem, hpv, hn, hp, -, hvals⟩ := q_remove_head_state hwf hsp
  obtain ⟨hnz, hnd, hseg, -⟩ := hwf
  have hhx : head ∉ x :: rest := (List.nodup_cons.1 hnd).1
  have hpvh : pv ≠ head := by
    rintro rfl; exact hhx hpvmem
  refine ⟨m2, hrun, ?_, ?_, ?_, hvals⟩
  · rw [hn]; simp [hpvh.symm, hseg.1]
  · rw [hp]; simp [hpvh]
  · intro a ha
    refine ⟨hnz a (List.mem_cons_of_mem _ ha), ?_⟩
    by_cases hapv : a = pv
    · exact ⟨x, by simp, by rw [hn]; simp [hapv]⟩
    · obtain ⟨b, hb, hab, hba⟩ := hseg.next_prev a (List.mem_cons_of_mem _ ha)
      have hbh : b ≠ head := by
        rintro rfl
        rw [hpv] at hba
        exact hapv (Option.some.inj hba).symm
      refine ⟨b, ?_, by rw [hn]; simp [hapv, hab]⟩
      simp at hb ⊢
      tauto

/-- On a ring that does not contain `head` the loop of `q_size` never returns. -/
theorem q_size_loop_closed {m : Mem} {head : Ptr} {S : List Ptr} (hc : NextClosed m S)
    (hh : head ∉ S) :
    ∀ (fuel : Nat) (li : Ptr) (len : Nat), li ∈ S →
      ∃ e, q_size_loop fuel m head li len = .error e := by
  intro fuel
  induction fuel with
  | zero => intro li len _; exact ⟨_, rfl⟩
  | succ fuel ih =>
    intro li len hli
    obtain ⟨hli0, b, hb, hlib⟩ := hc li hli
    have hne : li ≠ head := by
      rintro rfl; exact hh hli
    simp only [q_size_loop, hne, if_false]
    split
    · exact ⟨_, rfl⟩
    · rw [loadNext_ok hli0 hlib]
      exact ih b (len + 1) hb

/-- From a link whose `next` lies in a ring that does not contain `head`, no
chain of `next` pointers leads to `head`. -/
theorem not_seg_of_closed {m : Mem} {head : Ptr} {S : List Ptr} (hc : NextClosed m S)
    (hh : head ∉ S) :
    ∀ (ys : List Ptr) (p : Ptr), (∃ b ∈ S, m.next p = some b) → ¬ Seg m p ys head := by
  intro ys
  induction ys with
  | nil =>
    rintro p ⟨b, hb, hpb⟩ hseg
    simp only [Seg] at hseg
    rw [hseg.1] at hpb
    exact hh (by rw [Option.some.inj hpb]; exact hb)
  | cons y ys ih =>
    rintro p ⟨b, hb, hpb⟩ hseg
    simp only [Seg] at hseg
    rw [hseg.1] at hpb
    have hy : y ∈ S := by rw [Option.some.inj hpb]; exact hb
    obtain ⟨-, c, hc1, hc2⟩ := hc y hy
    exact ih y ⟨c, hc1, hc2⟩ hseg.2.2

theorem list_for_each_end_imp {m : Mem} {head : Ptr} :
    ∀ (fuel : Nat) (li p : Ptr), list_for_each_end fuel m head li = .ok p → p = head := by
  intro fuel
  induction fuel with
  | zero => intro li p h; simp [list_for_each_end] at h
  | succ fuel ih =>
    intro li p h
    by_cases hli : li = head
    · simp [list_for_each_end, hli] at h; exact h.symm
    · simp only [list_for_each_end, hli, if_false] at h
      rcases error_or_ok (loadNext m li) with ⟨e, he⟩ | ⟨nx, hnx⟩
      · simp [he] at h
      · rw [hnx] at h
        exact ih nx p h

/-- `q_delete_dup` on a ring of two or more elements never returns: the call of
`q_sort` it starts with does not return. -/
theorem q_delete_dup_error {m : Mem} {head : Ptr} {xs : List Ptr} (hwf : Ring m head xs)
    (hlen : 2 ≤ xs.length) (off fuel : Nat) : ∃ e, q_delete_dup off fuel m head = .error e := by
  have hemp := hwf.empty_test
  have hh : head ≠ 0 := hwf.1 head (by simp)
  have hne : xs ≠ [] := by
    rintro rfl; simp at hlen
  unfold q_delete_dup
  simp only [hemp, bind_ok_eq, hne, decide_False, Bool.false_or, beq_iff_eq, hh, if_false]
  exact bind_error_of_error (q_sort_error hwf hlen off fuel)

/-- Following `next` from the start of a segment for `as.length + 1` steps
reaches the link after `as`. -/
theorem advance_seg {m : Mem} {t q : Ptr} {bs : List Ptr} :
    ∀ (as : List Ptr) (p : Ptr), Seg m p (as ++ t :: bs) q → (∀ a ∈ p :: as, a ≠ 0) →
      advance (as.length + 1) m p = .ok t := by
  intro as
  induction as with
  | nil =>
    intro p hseg hnz
    simp [advance, loadNext_ok (hnz p (by simp)) hseg.1]
  | cons a as ih =>
    intro p hseg hnz
    have h1 : m.next p = some a := hseg.1
    have h2 : Seg m a (as ++ t :: bs) q := hseg.2.2
    have := ih a h2 (fun b hb => hnz b (List.mem_cons_of_mem _ hb))
    simp only [List.length_cons, advance, loadNext_ok (hnz p (by simp)) h1, bind_ok_eq]
    exact this

/-- `q_release_element` on an element that is no longer in the ring `ys`: the
ring and the strings of its elements are untouched, the block of the element
is gone. -/
theorem q_release_element_frame {m : Mem} {head t : Ptr} {ys : List Ptr}
    (ht0 : t ≠ 0) (hts : (valueOf m t).isSome) (hty : t ∉ head :: ys)
    (hseg : Seg m head ys head) (hown : ∀ y ∈ ys, m.value y ≠ m.value t) :
    ∃ m2, q_release_element m t = .ok m2 ∧ Seg m2 head ys head ∧
      (∀ a, a ≠ t → m2.value a = m.value a) ∧ (∀ y ∈ ys, valueOf m2 y = valueOf m y) ∧
      m2.next t = none ∧ m2.prev t = none ∧ m2.value t = none := by
  obtain ⟨s, hs⟩ := Option.isSome_iff_exists.1 hts
  obtain ⟨v, bs, hv, hv0, hbs, -⟩ := valueOf_eq_some hs
  refine ⟨{ next := fun b => if b = t then none else m.next b
            prev := fun b => if b = t then none else m.prev b
            value := fun b => if b = t then none else m.value b
            bytes := fun a => if a = v then none else m.bytes a
            front := m.front }, ?_, ?_, ?_, ?_, ?_, ?_, ?_⟩
  · simp only [q_release_element, loadValue_ok ht0 hv, bind_ok_eq, freeBytes, hv0, if_false, hbs]
    simp only [freeElem, ht0, if_false, hv]
  · refine Seg.frame ?_ ?_ hseg
    · intro a ha
      have : a ≠ t := by rintro rfl; exact hty ha
      simp [this]
    · intro b hb
      have : b ≠ t := by
        rintro rfl; simp at hb hty; tauto
      simp [this]
  · intro a ha
    simp [ha]
  · intro y hy
    have hyt : y ≠ t := by
      rintro rfl; exact hty (List.mem_cons_of_mem _ hy)
    refine valueOf_frame (by simp [hyt]) (fun w hw => ?_)
    have : w ≠ v := by
      rintro rfl
      exact hown y hy (by rw [hw, hv])
    simp [this]
  · simp
  · simp
  · simp

/-- What `q_delete_mid` does on a well-formed queue of `n >= 2` elements: it
walks `n / 2` links from the sentinel, so it unlinks and releases the element
at 0-based index `n / 2 - 1`. -/
theorem q_delete_mid_state {m : Mem} {head t : Ptr} {as bs : List Ptr} {fuel : Nat}
    (hwf : WF m head (as ++ t :: bs))
    (hmid : as.length + 1 = (as ++ t :: bs).length / 2)
    (hfuel : (as ++ t :: bs).length < fuel) (hint : (as ++ t :: bs).length < 2 ^ 31) :
    ∃ m2, q_delete_mid fuel m head = .ok (true, m2) ∧ WF m2 head (as ++ bs) ∧
      (as ++ bs).map (valueOf m2) = (as ++ bs).map (valueOf m) ∧
      m2.next t = none ∧ m2.value t = none := by
  have hemp := hwf.list_empty_eq
  have hsize := hwf.q_size_ok hfuel hint
  obtain ⟨hnz, hnd, hseg, hsent, hel, hvnd⟩ := hwf
  have hh : head ≠ 0 := hnz head (by simp)
  have ht0 : t ≠ 0 := hnz t (by simp)
  obtain ⟨hth, hta, htb, hha, hhb, hab, hand, hbnd⟩ := nodup_split hnd
  have hadv : advance ((as ++ t :: bs).length / 2) m head = .ok t := by
    rw [← hmid]
    exact advance_seg as head hseg (fun a ha => hnz a (by simp at ha ⊢; tauto))
  obtain ⟨m1, hdel, hseg1, hval1, hbytes1, -, -⟩ := list_del_seg hnz hnd hseg
  have hown : ∀ y ∈ as ++ bs, m1.value y ≠ m1.value t := by
    intro y hy
    rw [hval1]
    have hyt : y ≠ t := by
      rintro rfl; simp at hy; tauto
    have hymem : y ∈ as ++ t :: bs := by simp at hy ⊢; tauto
    intro heq
    exact hyt (List.inj_on_of_nodup_map hvnd hymem (by simp) heq)
  obtain ⟨m2, hrel, hseg2, hval2, hvals2, hn2, -, hv2⟩ :=
    @q_release_element_frame m1 head t (as ++ bs) ht0
      (by rw [valueOf_frame (m := m) (by rw [hval1]) (fun w _ => by rw [hbytes1])]
          exact hel t (by simp))
      (by simp; tauto) hseg1 hown
  have hvals : ∀ y ∈ as ++ bs, valueOf m2 y = valueOf m y := by
    intro y hy
    rw [hvals2 y hy]
    exact valueOf_frame (by rw [hval1]) (fun w _ => by rw [hbytes1])
  have hsub : ∀ y ∈ as ++ bs, y ∈ as ++ t :: bs := by
    intro y hy; simp at hy ⊢; tauto
  refine ⟨m2, ?_, ⟨?_, ?_, hseg2, ?_, ?_, ?_⟩, ?_, hn2, hv2⟩
  · have hne : ¬ (as ++ t :: bs = []) := by simp
    simp only [q_delete_mid, hemp, bind_ok_eq, hne, decide_False, Bool.false_or, beq_iff_eq, hh,
      if_false, hsize, hadv, hdel, hrel, pure_eq_ok]
  · intro a ha
    rcases List.mem_cons.1 ha with rfl | ha
    · exact hh
    · exact hnz a (List.mem_cons_of_mem _ (hsub a ha))
  · refine List.nodup_cons.2 ⟨by simp; tauto, ?_⟩
    exact List.Nodup.append hand hbnd (fun a ha hb => hab a ha hb)
  · rw [hval2 head hth.symm, hval1]; exact hsent
  · intro y hy
    rw [hvals y hy]; exact hel y (hsub y hy)
  · have hmap : (as ++ bs).map m2.value = (as ++ bs).map m.value := by
      refine List.map_congr_left (fun y hy => ?_)
      have hyt : y ≠ t := by
        rintro rfl; simp at hy; tauto
      rw [hval2 y hyt, hval1]
    rw [hmap]
    have hsl : ((as ++ bs).map m.value).Sublist ((as ++ t :: bs).map m.value) := by
      refine List.Sublist.map _ ?_
      exact List.Sublist.append (List.Sublist.refl as) (List.sublist_cons_self t bs)
    exact hsl.nodup hvnd
  · exact List.map_congr_left hvals

/-- One round of the swap loop of `q_reverse` on two links that both carry a
`value` member. -/
theorem q_reverse_loop_step {m : Mem} {f l vf vl f2 l2 : Ptr} (fuel : Nat)
    (hf : f ≠ 0) (hl : l ≠ 0) (hvf : m.value f = some vf) (hvl : m.value l = some vl)
    (hn : m.next f = some f2) (hp : m.prev l = some l2) :
    q_reverse_loop (fuel + 1) m f l =
      if f2 = l2 then .ok ((m.setValue f vl).setValue l vf)
      else loadNext ((m.setValue f vl).setValue l vf) l2 >>= fun ln =>
        if f2 = ln then .ok ((m.setValue f vl).setValue l vf)
        else q_reverse_loop fuel ((m.setValue f vl).setValue l vf) f2 l2 := by
  have h1 : storeValue m f vl = .ok (m.setValue f vl) := storeValue_ok _ hf (by simp [hvf])
  have h2 : storeValue (m.setValue f vl) l vf = .ok ((m.setValue f vl).setValue l vf) :=
    storeValue_ok _ hl (by simpa using isSome_ite (by simp [hvl]))
  have h3 : loadNext ((m.setValue f vl).setValue l vf) f = .ok f2 := loadNext_ok hf (by simpa using hn)
  have h4 : loadPrev ((m.setValue f vl).setValue l vf) l = .ok l2 := loadPrev_ok hl (by simpa using hp)
  rw [q_reverse_loop]
  simp only [loadValue_ok hf hvf, loadValue_ok hl hvl, bind_ok_eq, h1, h2, h3, h4, pure_eq_ok]

/-- The swap loop of `q_reverse`, started on the two ends `f` and `l` of a
segment whose links all carry a `value` member, reverses the `value` members
along the segment and touches nothing else. -/
theorem q_reverse_loop_mid : ∀ (mid : List Ptr) (m : Mem) (p f l q : Ptr) (fuel : Nat),
    Seg m p (f :: (mid ++ [l])) q → (f :: (mid ++ [l])).Nodup →
    (∀ a ∈ f :: (mid ++ [l]), a ≠ 0 ∧ (m.value a).isSome) → mid.length < fuel →
    ∃ m2, q_reverse_loop fuel m f l = .ok m2 ∧
      (f :: (mid ++ [l])).map m2.value = ((f :: (mid ++ [l])).map m.value).reverse ∧
      (∀ a, a ∉ f :: (mid ++ [l]) → m2.value a = m.value a) ∧
      m2.next = m.next ∧ m2.prev = m.prev ∧ m2.bytes = m.bytes ∧ m2.front = m.front := by
  intro mid
  induction mid using List.bidirectionalRec with
  | nil =>
    intro m p f l q fuel hseg hnd hel hfuel
    obtain ⟨k, rfl⟩ : ∃ k, fuel = k + 1 := ⟨fuel - 1, by simp at hfuel; omega⟩
    simp only [List.nil_append, Seg] at hseg
    obtain ⟨-, -, hfl, hlf, -, -⟩ := hseg
    have hfl' : f ≠ l := by
      intro h; simp [h] at hnd
    obtain ⟨hf0, hfs⟩ := hel f (by simp)
    obtain ⟨hl0, hls⟩ := hel l (by simp)
    obtain ⟨vf, hvf⟩ := Option.isSome_iff_exists.1 hfs
    obtain ⟨vl, hvl⟩ := Option.isSome_iff_exists.1 hls
    refine ⟨(m.setValue f vl).setValue l vf, ?_, ?_, ?_, rfl, rfl, rfl, rfl⟩
    · rw [q_reverse_loop_step k hf0 hl0 hvf hvl hfl hlf, if_neg hfl'.symm,
        loadNext_ok hf0 (by simpa using hfl)]
      simp
    · simp [hfl', hvf, hvl]
    · intro a ha
      simp at ha
      simp [ha.1, ha.2]
  | singleton c =>
    intro m p f l q fuel hseg hnd hel hfuel
    obtain ⟨k, rfl⟩ : ∃ k, fuel = k + 1 := ⟨fuel - 1, by simp at hfuel; omega⟩
    simp only [List.singleton_append, Seg] at hseg
    obtain ⟨-, -, hfc, -, -, hlc, -, -⟩ := hseg
    simp at hnd
    obtain ⟨hf0, hfs⟩ := hel f (by simp)
    obtain ⟨hl0, hls⟩ := hel l (by simp)
    obtain ⟨vf, hvf⟩ := Option.isSome_iff_exists.1 hfs
    obtain ⟨vl, hvl⟩ := Option.isSome_iff_exists.1 hls
    refine ⟨(m.setValue f vl).setValue l vf, ?_, ?_, ?_, rfl, rfl, rfl, rfl⟩
    · rw [q_reverse_loop_step k hf0 hl0 hvf hvl hfc hlc, if_pos rfl]
    · have h1 : f ≠ l := hnd.1.2
      have h2 : c ≠ l := hnd.2
      have h3 : c ≠ f := fun h => hnd.1.1 h.symm
      simp [h1, h2, h3, hvf, hvl]
    · intro a ha
      simp at ha
      simp [ha.1, ha.2.2]
  | cons_append a mid b ih =>
    intro m p f l q fuel hseg hnd hel hfuel
    obtain ⟨k, rfl⟩ : ∃ k, fuel = k + 1 := ⟨fuel - 1, by simp at hfuel; omega⟩
    obtain ⟨hf0, hfs⟩ := hel f (by simp)
    obtain ⟨hl0, hls⟩ := hel l (by simp)
    obtain ⟨vf, hvf⟩ := Option.isSome_iff_exists.1 hfs
    obtain ⟨vl, hvl⟩ := Option.isSome_iff_exists.1 hls
    have hb0 : b ≠ 0 := (hel b (by simp)).1
    -- the links around the two ends
    have hseg1 : Seg m f (a :: (mid ++ [b]) ++ [l]) q := hseg.2.2
    rw [Seg.append] at hseg1
    obtain ⟨hin, hlq⟩ := hseg1
    have hfa : m.next f = some a := hin.1
    have hin2 : Seg m f ((a :: mid) ++ [b]) l := hin
    rw [Seg.append] at hin2
    have hbl : m.next b = some l := hin2.2.1
    have hlb : m.prev l = some b := hin2.2.2
    -- distinctness
    have hnd1 : f ∉ a :: (mid ++ [b]) ++ [l] := (List.nodup_cons.1 hnd).1
    have hnd2 : (a :: (mid ++ [b]) ++ [l]).Nodup := (List.nodup_cons.1 hnd).2
    have hnd3 : (a :: (mid ++ [b])).Nodup := (List.nodup_append.1 hnd2).1
    have hlin : l ∉ a :: (mid ++ [b]) := by
      intro h
      exact (List.nodup_append.1 hnd2).2.2 h (by simp)
    have hfin : f ∉ a :: (mid ++ [b]) := fun h => hnd1 (List.mem_append_left _ h)
    have hfl : f ≠ l := by
      rintro rfl; exact hnd1 (by simp)
    have hab : a ≠ b := by
      intro h; simp [h] at hnd3
    have hla : a ≠ l := by
      rintro rfl; exact hlin (by simp)
    -- the inner segment after the swap of the ends
    obtain ⟨m2, hrun, hvals, hout, hn2, hp2, hb2, hfr2⟩ :=
      ih ((m.setValue f vl).setValue l vf) f a b l k
        (Seg.frame (m := m) (fun _ _ => rfl) (fun _ _ => rfl) hin) hnd3
        (fun x hx => by
          have hxf : x ≠ f := by rintro rfl; exact hfin hx
          have hxl : x ≠ l := by rintro rfl; exact hlin hx
          have := hel x (by simp at hx ⊢; tauto)
          simpa [hxf, hxl] using this)
        (by simp at hfuel; omega)
    refine ⟨m2, ?_, ?_, ?_, hn2, hp2, hb2, hfr2⟩
    · rw [q_reverse_loop_step k hf0 hl0 hvf hvl hfa hlb, if_neg hab,
        loadNext_ok hb0 (by simpa using hbl), bind_ok_eq, if_neg hla, hrun]
    · have e1 : m2.value f = some vl := by
        rw [hout f hfin]; simp [hfl]
      have e2 : m2.value l = some vf := by
        rw [hout l hlin]; simp
      have e3 : (a :: (mid ++ [b])).map ((m.setValue f vl).setValue l vf).value =
          (a :: (mid ++ [b])).map m.value := by
        refine List.map_congr_left (fun x hx => ?_)
        have hxf : x ≠ f := by rintro rfl; exact hfin hx
        have hxl : x ≠ l := by rintro rfl; exact hlin hx
        simp [hxf, hxl]
      rw [e3] at hvals
      have e4 : (f :: (a :: (mid ++ [b]) ++ [l])).map m2.value =
          m2.value f :: ((a :: (mid ++ [b])).map m2.value ++ [m2.value l]) := by simp
      have e5 : (f :: (a :: (mid ++ [b]) ++ [l])).map m.value =
          m.value f :: ((a :: (mid ++ [b])).map m.value ++ [m.value l]) := by simp
      rw [e4, e5, hvals, e1, e2, hvf, hvl]
      simp
    · intro x hx
      have hxin : x ∉ a :: (mid ++ [b]) := fun h => hx (by simp at h ⊢; tauto)
      have hxf : x ≠ f := by rintro rfl; exact hx (by simp)
      have hxl : x ≠ l := by rintro rfl; exact hx (by simp)
      rw [hout x hxin]
      simp [hxf, hxl]

/-- With enough fuel the loop `list_for_each(lptr, head){}` runs over the ring
and exits with `lptr` at the sentinel. -/
theorem list_for_each_end_ok {m : Mem} {head : Ptr} :
    ∀ (ys : List Ptr) (p y : Ptr) (fuel : Nat), Seg m p (y :: ys) head →
      head ∉ y :: ys → (∀ a ∈ y :: ys, a ≠ 0) → (y :: ys).length < fuel →
      list_for_each_end fuel m head y = .ok head := by
  intro ys
  induction ys with
  | nil =>
    intro p y fuel hseg hnot hnz hf
    obtain ⟨f, rfl⟩ : ∃ f, fuel = f + 2 := ⟨fuel - 2, by simp at hf; omega⟩
    have hy : y ≠ head := fun e => hnot (by simp [e])
    simp only [Seg] at hseg
    simp [list_for_each_end, hy, loadNext_ok (hnz y (by simp)) hseg.2.2.1]
  | cons y2 ys ih =>
    intro p y fuel hseg hnot hnz hf
    obtain ⟨f, rfl⟩ : ∃ f, fuel = f + 1 := ⟨fuel - 1, by simp at hf; omega⟩
    have hy : y ≠ head := fun e => hnot (by simp [e])
    have hseg2 : Seg m y (y2 :: ys) head := hseg.2.2
    simp only [list_for_each_end, hy, if_false, loadNext_ok (hnz y (by simp)) hseg2.1,
      bind_ok_eq]
    exact ih y y2 f hseg2 (fun hm => hnot (List.mem_cons_of_mem _ hm))
      (fun a ha => hnz a (List.mem_cons_of_mem _ ha)) (by simp at hf ⊢; omega)

/-- `q_reverse` leaves a queue of fewer than two elements as it is. -/
theorem q_reverse_short {m : Mem} {head : Ptr} {xs : List Ptr} {fuel : Nat}
    (h : Ring m head xs) (hlen : xs.length < 2) (hfuel : xs.length < fuel) :
    q_reverse fuel m head = .ok m := by
  have hsize := h.size_ok hfuel (by omega)
  simp [q_reverse, hsize, hlen]

/-- The first round of the swap loop of `q_reverse`: `fptr` and `lptr` are both
the sentinel `h`, a bare link, so the word in front of its block is read and
written back twice. -/
theorem q_reverse_loop_sentinel {m : Mem} {h f2 l2 : Ptr} (fuel : Nat)
    (hh : h ≠ 0) (hv : m.value h = none) (hn : m.next h = some f2) (hp : m.prev h = some l2) :
    q_reverse_loop (fuel + 1) m h h =
      if f2 = l2 then .ok ((m.setFront h (m.front h)).setFront h (m.front h))
      else loadNext ((m.setFront h (m.front h)).setFront h (m.front h)) l2 >>= fun ln =>
        if f2 = ln then .ok ((m.setFront h (m.front h)).setFront h (m.front h))
        else q_reverse_loop fuel ((m.setFront h (m.front h)).setFront h (m.front h)) f2 l2 := by
  have h0 : loadValue m h = .ok (m.front h) := by simp [loadValue, hh, hv, hn]
  have h1 : storeValue m h (m.front h) = .ok (m.setFront h (m.front h)) := by
    simp [storeValue, hh, hv, hn]
  have h2 : storeValue (m.setFront h (m.front h)) h (m.front h) =
      .ok ((m.setFront h (m.front h)).setFront h (m.front h)) := by
    simp [storeValue, hh, hv, hn]
  have h3 : loadNext ((m.setFront h (m.front h)).setFront h (m.front h)) h = .ok f2 :=
    loadNext_ok hh (by simpa using hn)
  have h4 : loadPrev ((m.setFront h (m.front h)).setFront h (m.front h)) h = .ok l2 :=
    loadPrev_ok hh (by simpa using hp)
  rw [q_reverse_loop]
  simp only [h0, bind_ok_eq, h1, h2, h3, h4, pure_eq_ok]

/-- The string of an element is a function of its `value` member and of the
`char` arrays. -/
theorem valueOf_factor (m : Mem) :
    ∃ g : Option Ptr → Option (List Nat),
      ∀ m2 : Mem, m2.bytes = m.bytes → ∀ x, valueOf m2 x = g (m2.value x) := by
  refine ⟨fun o => match o with
    | none => none
    | some v =>
      if v = 0 then none
      else match m.bytes v with
        | none => none
        | some bs => if 0 ∈ bs then some (cstr bs) else none, ?_⟩
  intro m2 hb x
  unfold valueOf
  rw [hb]

/-- What `q_reverse` does on a well-formed queue: it returns, the links are as
they were, the queue is well formed with the same elements, and the strings
the elements hold are those they held before, in reverse order. The first
round of the swap loop works on the sentinel alone (the word in front of its
block is written back to itself); the later rounds swap the `value` members of
the elements from the two ends inward. A queue of fewer than two elements is
returned as it was. -/
theorem q_reverse_state {m : Mem} {head : Ptr} {xs : List Ptr} {fuel : Nat}
    (hwf : WF m head xs) (hint : xs.length < 2 ^ 31) (hfuel : xs.length < fuel) :
    ∃ m2, q_reverse fuel m head = .ok m2 ∧ WF m2 head xs ∧
      xs.map (valueOf m2) = (xs.map (valueOf m)).reverse ∧
      xs.map m2.value = (xs.map m.value).reverse ∧
      m2.next = m.next ∧ m2.prev = m.prev ∧ m2.bytes = m.bytes ∧ m2.front = m.front ∧
      (xs.length < 2 → m2 = m) := by
  by_cases hlen : xs.length < 2
  · refine ⟨m, q_reverse_short hwf.ring hlen hfuel, hwf, ?_, ?_, rfl, rfl, rfl, rfl, fun _ => rfl⟩
    · cases xs with
      | nil => rfl
      | cons x xs =>
        cases xs with
        | nil => rfl
        | cons y ys => simp only [List.length_cons] at hlen; omega
    · cases xs with
      | nil => rfl
      | cons x xs =>
        cases xs with
        | nil => rfl
        | cons y ys => simp only [List.length_cons] at hlen; omega
  · have hsize := hwf.ring.size_ok hfuel hint
    obtain ⟨hnz, hnd, hseg, hsent, hel, hvnd⟩ := hwf
    have hh : head ≠ 0 := hnz head (by simp)
    -- the first and the last element
    obtain ⟨x, mid, y, rfl⟩ : ∃ x mid y, xs = x :: (mid ++ [y]) := by
      cases xs with
      | nil => simp at hlen
      | cons x ys =>
        rcases eq_nil_or_snoc ys with rfl | ⟨mid, y, rfl⟩
        · simp at hlen
        · exact ⟨x, mid, y, rfl⟩
    have hhx : head ∉ x :: (mid ++ [y]) := (List.nodup_cons.1 hnd).1
    have hnd1 : (x :: (mid ++ [y])).Nodup := (List.nodup_cons.1 hnd).2
    have hx0 : x ≠ 0 := hnz x (by simp)
    have hy0 : y ≠ 0 := hnz y (by simp)
    have hxh : x ≠ head := by
      rintro rfl; exact hhx (by simp)
    have hxy : x ≠ y := by
      intro e; simp [e] at hnd1
    have hnx : m.next head = some x := hseg.1
    have hseg' : Seg m head ((x :: mid) ++ [y]) head := hseg
    have hpy : m.prev head = some y := hseg'.prev_last
    have hny : m.next y = some head := (Seg.append.1 hseg').2.1
    obtain ⟨k, rfl⟩ : ∃ k, fuel = k + 1 := ⟨fuel - 1, by omega⟩
    have hend : list_for_each_end (k + 1) m head x = .ok head :=
      list_for_each_end_ok (mid ++ [y]) head x (k + 1) hseg hhx
        (fun a ha => hnz a (List.mem_cons_of_mem _ ha)) hfuel
    have hvs : ∀ a ∈ x :: (mid ++ [y]), (m.value a).isSome := by
      intro a ha
      obtain ⟨s, hs⟩ := Option.isSome_iff_exists.1 (hel a ha)
      obtain ⟨v, bs, hv, -⟩ := valueOf_eq_some hs
      simp [hv]
    obtain ⟨m2, hrun, hvals, hout, hn2, hp2, hb2, hfr2⟩ :=
      q_reverse_loop_mid mid ((m.setFront head (m.front head)).setFront head (m.front head))
        head x y head k
        (Seg.frame (m := m) (fun _ _ => rfl) (fun _ _ => rfl) hseg) hnd1
        (fun a ha => ⟨hnz a (List.mem_cons_of_mem _ ha), by simpa using hvs a ha⟩)
        (by simp at hfuel; omega)
    have hvals2 : (x :: (mid ++ [y])).map m2.value =
        ((x :: (mid ++ [y])).map m.value).reverse := hvals
    have hbytes : m2.bytes = m.bytes := hb2
    obtain ⟨g, hg⟩ := valueOf_factor m
    have hstr : (x :: (mid ++ [y])).map (valueOf m2) =
        ((x :: (mid ++ [y])).map (valueOf m)).reverse := by
      have e1 : (x :: (mid ++ [y])).map (valueOf m2) =
          ((x :: (mid ++ [y])).map m2.value).map g := by
        rw [List.map_map]
        exact List.map_congr_left (fun a _ => hg m2 hbytes a)
      have e2 : (x :: (mid ++ [y])).map (valueOf m) =
          ((x :: (mid ++ [y])).map m.value).map g := by
        rw [List.map_map]
        exact List.map_congr_left (fun a _ => hg m rfl a)
      rw [e1, e2, hvals2, List.map_reverse]
    refine ⟨m2, ?_, ⟨hnz, hnd, ?_, ?_, ?_, ?_⟩, hstr, hvals2, hn2, hp2, hb2, ?_,
      fun h => absurd h hlen⟩
    · have h2 : ¬ (x :: (mid ++ [y])).length < 2 := hlen
      simp only [q_reverse, hsize, bind_ok_eq, h2, decide_False, Bool.false_or, beq_iff_eq, hh,
        if_false, loadNext_ok hh hnx, hend]
      rw [q_reverse_loop_sentinel k hh hsent hnx hpy, if_neg hxy,
        loadNext_ok hy0 (by simpa using hny), bind_ok_eq, if_neg hxh, hrun]
    · exact Seg.frame (fun a _ => by rw [hn2]; rfl) (fun b _ => by rw [hp2]; rfl) hseg
    · rw [hout head hhx]; exact hsent
    · intro a ha
      have hmem : valueOf m2 a ∈ (x :: (mid ++ [y])).map (valueOf m2) :=
        List.mem_map_of_mem _ ha
      rw [hstr, List.mem_reverse, List.mem_map] at hmem
      obtain ⟨b, hb, hba⟩ := hmem
      rw [← hba]
      exact hel b hb
    · rw [hvals2]
      exact List.nodup_reverse.2 hvnd
    · rw [hfr2]
      funext a
      by_cases ha : a = head
      · simp [ha]
      · simp [ha]

/-- Applying `q_reverse` twice to a well-formed queue gives back the strings in
their original order. -/
theorem q_reverse_twice {m : Mem} {head : Ptr} {xs : List Ptr} {fuel : Nat}
    (hwf : WF m head xs) (hint : xs.length < 2 ^ 31) (hfuel : xs.length < fuel) :
    ∃ m2 m3, q_reverse fuel m head = .ok m2 ∧ q_reverse fuel m2 head = .ok m3 ∧
      WF m3 head xs ∧ xs.map (valueOf m3) = xs.map (valueOf m) := by
  obtain ⟨m2, hrun2, hwf2, hstr2, -⟩ := q_reverse_state hwf hint hfuel
  obtain ⟨m3, hrun3, hwf3, hstr3, -⟩ := q_reverse_state hwf2 hint hfuel
  exact ⟨m2, m3, hrun2, hrun3, hwf3, by rw [hstr3, hstr2, List.reverse_reverse]⟩

/-! ### Runs on concrete queues -/

/-- Scenario A of the specification: after `insert_tail` of "banana", "apple",
"cherry", `q_sort` stops in `merge(sentinel, first element)`, at the `strcmp`
that takes the word in front of the sentinel block for a string. -/
theorem q_sort_scenario_A :
    q_sort 8 16 (build [ascii "banana", ascii "apple", ascii "cherry"]) 1 = .error .badAccess := by
  rfl

/-- Scenario B of the specification: `q_delete_dup` starts with `q_sort`, which
stops in `merge(sentinel, first element)`, at the `strcmp` that takes the word
in front of the sentinel block for a string. -/
theorem q_delete_dup_scenario_B :
    q_delete_dup 8 16
      (build [ascii "a", ascii "a", ascii "b", ascii "b", ascii "b", ascii "c"]) 1 =
      .error .badAccess := by
  rfl

/-- Scenario C of the specification: on "a" .. "f", `q_delete_mid` removes "c". -/
theorem q_delete_mid_scenario_C :
    (do
      let r ← q_delete_mid 8
        (build [ascii "a", ascii "b", ascii "c", ascii "d", ascii "e", ascii "f"]) 1
      let vs ← valueSeq 8 r.2 1
      pure (r.1, vs)) =
      .ok (true, [ascii "a", ascii "b", ascii "d", ascii "e", ascii "f"]) := by
  rfl

/-- On the queue "a", "b" `q_reverse` returns and leaves "b", "a". -/
theorem q_reverse_two :
    (do
      let m ← q_reverse 8 (build [ascii "a", ascii "b"]) 1
      valueSeq 8 m 1) = .ok [ascii "b", ascii "a"] := by
  rfl

/-- On the queue "c" alone `q_delete_dup` returns true and leaves "c": the one
comparison `now->value == next->value` is between the string pointer of the
element and the word in front of the sentinel block. -/
theorem q_delete_dup_one :
    (do
      let r ← q_delete_dup 8 8 (build [ascii "c"]) 1
      let vs ← valueSeq 8 r.2 1
      pure (r.1, vs)) = .ok (true, [ascii "c"]) := by
  rfl

/-! ### The claims -/

/-- C1 (the code does not do it): `q_sort` does not leave the sorted permutation
in the queue. On every queue of two or more elements whose links form a ring
the call never returns: `lsort` is started at the sentinel, on the ring, and
either recurses without end (count 2) or reaches `merge` on two links of the
ring, whose loop waits for a `NULL` that a ring does not have. This does not
depend on what the elements hold. -/
theorem q_sort_never_returns (m : Mem) (head : Ptr) (xs : List Ptr) (off fuel : Nat)
    (hring : Ring m head xs) (hlen : 2 ≤ xs.length) :
    ∃ e, q_sort off fuel m head = .error e :=
  q_sort_error hring hlen off fuel

theorem q_sort_never_returns_witness :
    Ring (build [ascii "banana", ascii "apple", ascii "cherry"]) 1 [10, 20, 30] ∧
      2 ≤ [10, 20, 30].length ∧
      ∃ e, q_sort 8 16 (build [ascii "banana", ascii "apple", ascii "cherry"]) 1 = .error e :=
  ⟨by decide, by decide,
    q_sort_never_returns (build [ascii "banana", ascii "apple", ascii "cherry"]) 1 [10, 20, 30]
      8 16 (by decide) (by decide)⟩

/-- C2 (the code does not do it): on a well-formed queue `x :: rest`,
`q_remove_head` returns the first element `x`, with its value, but does not
take it out of the queue: `list_del(head)` unlinks the sentinel, the sentinel
still points at `x`, and the queue is not the well-formed queue `rest`. -/
theorem q_remove_head_keeps_first (m : Mem) (head x sp : Ptr) (rest : List Ptr) (bufsize : Nat)
    (hwf : WF m head (x :: rest)) (hsp : BufOK m sp bufsize (x :: rest)) :
    ∃ m2, q_remove_head m head sp bufsize = .ok (x, m2) ∧ valueOf m2 x = valueOf m x ∧
      m2.next head = some x ∧ ¬ WF m2 head rest := by
  obtain ⟨m2, hrun, hnext, -, -, hvals⟩ := q_remove_head_closed hwf hsp
  refine ⟨m2, hrun, hvals x (by simp), hnext, ?_⟩
  intro hwf2
  have hseg2 := hwf2.2.2.1
  have hnd := hwf.2.1
  cases rest with
  | nil =>
    simp only [Seg] at hseg2
    rw [hseg2.1] at hnext
    have : head = x := Option.some.inj hnext
    simp [this] at hnd
  | cons y ys =>
    simp only [Seg] at hseg2
    rw [hseg2.1] at hnext
    have : y = x := Option.some.inj hnext
    simp [this] at hnd

theorem q_remove_head_keeps_first_witness :
    WF (build [ascii "x"]) 1 [10] ∧ BufOK (build [ascii "x"]) 0 0 [10] ∧
      ∃ m2, q_remove_head (build [ascii "x"]) 1 0 0 = .ok (10, m2) ∧
        valueOf m2 10 = valueOf (build [ascii "x"]) 10 ∧ m2.next 1 = some 10 ∧ ¬ WF m2 1 [] :=
  ⟨by decide, Or.inl rfl,
    q_remove_head_keeps_first (build [ascii "x"]) 1 10 0 [] 0 (by decide) (Or.inl rfl)⟩

/-- C3 (the code does not do it): on a well-formed queue of `n >= 2` elements
`q_delete_mid` returns true and removes the element at 0-based index
`n / 2 - 1`, not the one at index `n / 2`: the `n / 2` steps are counted from
the sentinel. Here the queue is `as ++ t :: bs` with `as.length + 1 = n / 2`,
and `t` is the element that is removed and released. -/
theorem q_delete_mid_removes_before_middle (m : Mem) (head t : Ptr) (as bs : List Ptr)
    (fuel : Nat) (hwf : WF m head (as ++ t :: bs))
    (hmid : as.length + 1 = (as ++ t :: bs).length / 2)
    (hfuel : (as ++ t :: bs).length < fuel) (hint : (as ++ t :: bs).length < 2 ^ 31) :
    ∃ m2, q_delete_mid fuel m head = .ok (true, m2) ∧ WF m2 head (as ++ bs) ∧
      (as ++ bs).map (valueOf m2) = (as ++ bs).map (valueOf m) ∧
      m2.next t = none ∧ m2.value t = none :=
  q_delete_mid_state hwf hmid hfuel hint

theorem q_delete_mid_removes_before_middle_witness :
    WF (build [ascii "a", ascii "b", ascii "c", ascii "d", ascii "e", ascii "f"]) 1
        ([10, 20] ++ 30 :: [40, 50, 60]) ∧
      [10, 20].length + 1 = ([10, 20] ++ 30 :: [40, 50, 60]).length / 2 ∧
      ([10, 20] ++ 30 :: [40, 50, 60]).length < 8 ∧
      ([10, 20] ++ 30 :: [40, 50, 60]).length < 2 ^ 31 ∧
      ∃ m2, q_delete_mid 8
          (build [ascii "a", ascii "b", ascii "c", ascii "d", ascii "e", ascii "f"]) 1 =
            .ok (true, m2) ∧
        WF m2 1 ([10, 20] ++ [40, 50, 60]) ∧
        ([10, 20] ++ [40, 50, 60]).map (valueOf m2) = ([10, 20] ++ [40, 50, 60]).map
          (valueOf (build [ascii "a", ascii "b", ascii "c", ascii "d", ascii "e", ascii "f"])) ∧
        m2.next 30 = none ∧ m2.value 30 = none :=
  ⟨by decide, by decide, by decide, by decide,
    q_delete_mid_removes_before_middle
      (build [ascii "a", ascii "b", ascii "c", ascii "d", ascii "e", ascii "f"]) 1 30
      [10, 20] [40, 50, 60] 8 (by decide) (by decide) (by decide) (by decide)⟩

/-- C4 (the code does not do it): `q_delete_dup` does not leave the values that
occurred once. On every queue of two or more elements whose links form a ring
the call never returns: it starts with `q_sort`, which does not return on such
a queue. This does not depend on what the elements hold. -/
theorem q_delete_dup_never_returns (m : Mem) (head : Ptr) (xs : List Ptr) (off fuel : Nat)
    (hring : Ring m head xs) (hlen : 2 ≤ xs.length) :
    ∃ e, q_delete_dup off fuel m head = .error e :=
  q_delete_dup_error hring hlen off fuel

theorem q_delete_dup_never_returns_witness :
    Ring (build [ascii "a", ascii "a", ascii "b", ascii "b", ascii "b", ascii "c"]) 1
        [10, 20, 30, 40, 50, 60] ∧
      2 ≤ [10, 20, 30, 40, 50, 60].length ∧
      ∃ e, q_delete_dup 8 16
        (build [ascii "a", ascii "a", ascii "b", ascii "b", ascii "b", ascii "c"]) 1 = .error e :=
  ⟨by decide, by decide,
    q_delete_dup_never_returns
      (build [ascii "a", ascii "a", ascii "b", ascii "b", ascii "b", ascii "c"]) 1
      [10, 20, 30, 40, 50, 60] 8 16 (by decide) (by decide)⟩

/-- C5: on a well-formed queue holding the elements `xs`, when both allocations
succeed (`n` and `v` are fresh non-null blocks), `q_insert_head` returns true
and the queue becomes `n :: xs`, `q_insert_tail` returns true and the queue
becomes `xs ++ [n]`; the new element `n` holds a copy of the string `s`, and the
old elements keep their order and their values. -/
theorem q_insert_head_tail_spec (m : Mem) (head : Ptr) (xs : List Ptr) (s : List Nat) (n v : Ptr)
    (hwf : WF m head xs) (hn : n ≠ 0) (hv : v ≠ 0)
    (hfresh : m.next n = none ∧ m.prev n = none ∧ m.value n = none) (hvf : m.bytes v = none) :
    (∃ m2, q_insert_head m head s n v = .ok (true, m2) ∧ WF m2 head (n :: xs) ∧
      (n :: xs).map (valueOf m2) = some (cstr s) :: xs.map (valueOf m)) ∧
    (∃ m2, q_insert_tail m head s n v = .ok (true, m2) ∧ WF m2 head (xs ++ [n]) ∧
      (xs ++ [n]).map (valueOf m2) = xs.map (valueOf m) ++ [some (cstr s)]) := by
  obtain ⟨hnew, hseg4, hn4, hp4, hrest⟩ := insert_prepared s hwf hn hv hfresh hvf rfl
  obtain ⟨hnz, hnd, -, -, hel, -⟩ := hwf
  have hh : head ≠ 0 := hnz head (by simp)
  have hnz2 : ∀ a ∈ head :: n :: xs, a ≠ 0 := by
    intro a ha
    simp at ha
    rcases ha with rfl | rfl | ha
    · exact hh
    · exact hn
    · exact hnz a (by simp [ha])
  constructor
  · obtain ⟨m2, hrun, hseg2, hval2, hbytes2⟩ := list_add_seg hnz hnd hseg4 hn hnew hn4 hp4
    obtain ⟨hs, hvn, hvx, hnd1, -⟩ := hrest m2 hval2 hbytes2
    refine ⟨m2, ?_, ⟨hnz2, ?_, hseg2, hs, ?_, hnd1⟩, ?_⟩
    · simp only [q_insert_head, hh, if_false]
      simp [hn, hv, mallocElem, mallocBytes, storeValue_ok, strncpy, writeBytes,
        strncpyBytes_full, hrun]
    · have : (n :: head :: xs).Nodup := List.nodup_cons.2 ⟨hnew, hnd⟩
      exact (List.Perm.swap head n xs).nodup_iff.1 this
    · intro x hx
      rcases List.mem_cons.1 hx with rfl | hx
      · simp [hvn]
      · rw [hvx x hx]; exact hel x hx
    · rw [List.map_cons, hvn, List.map_congr_left hvx]
  · obtain ⟨m2, hrun, hseg2, hval2, hbytes2⟩ := list_add_tail_seg hnz hnd hseg4 hn hnew hn4 hp4
    obtain ⟨hs, hvn, hvx, -, hnd2⟩ := hrest m2 hval2 hbytes2
    refine ⟨m2, ?_, ⟨?_, ?_, hseg2, hs, ?_, hnd2⟩, ?_⟩
    · simp only [q_insert_tail, hh, if_false]
      simp [hn, hv, mallocElem, mallocBytes, storeValue_ok, strncpy, writeBytes,
        strncpyBytes_full, hrun]
    · intro a ha
      exact hnz2 a (by simp at ha ⊢; tauto)
    · have : (n :: head :: xs).Nodup := List.nodup_cons.2 ⟨hnew, hnd⟩
      have hp : (n :: head :: xs).Perm (head :: (xs ++ [n])) := by
        refine (List.Perm.swap head n xs).trans (List.Perm.cons _ ?_)
        simpa using (List.perm_append_singleton n xs).symm
      exact hp.nodup_iff.1 this
    · intro x hx
      rcases List.mem_append.1 hx with hx | hx
      · rw [hvx x hx]; exact hel x hx
      · simp at hx; subst hx; simp [hvn]
    · rw [List.map_append, List.map_singleton, hvn, List.map_congr_left hvx]

theorem q_insert_head_tail_spec_witness :
    WF (build [ascii "a", ascii "b"]) 1 [10, 20] ∧
    ((∃ m2, q_insert_head (build [ascii "a", ascii "b"]) 1 (ascii "zz") 50 51 = .ok (true, m2) ∧
        WF m2 1 [50, 10, 20] ∧
        [50, 10, 20].map (valueOf m2) =
          some (cstr (ascii "zz")) :: [10, 20].map (valueOf (build [ascii "a", ascii "b"]))) ∧
      (∃ m2, q_insert_tail (build [ascii "a", ascii "b"]) 1 (ascii "zz") 50 51 = .ok (true, m2) ∧
        WF m2 1 [10, 20, 50] ∧
        [10, 20, 50].map (valueOf m2) =
          [10, 20].map (valueOf (build [ascii "a", ascii "b"])) ++ [some (cstr (ascii "zz"))])) :=
  ⟨by decide,
    q_insert_head_tail_spec (build [ascii "a", ascii "b"]) 1 [10, 20] (ascii "zz") 50 51
      (by decide) (by decide) (by decide) (by decide) (by decide)⟩

/-- C6: on a well-formed queue holding the elements `xs ++ [x]`, with a usable
output buffer (or none), `q_remove_tail` returns the last element `x`, the
queue is well formed and holds `xs` with the values they had, and `x` is not
released: its block is live and it still holds its string. -/
theorem q_remove_tail_spec (m : Mem) (head : Ptr) (xs : List Ptr) (x sp : Ptr) (bufsize : Nat)
    (hwf : WF m head (xs ++ [x])) (hsp : BufOK m sp bufsize (xs ++ [x])) :
    ∃ m2, q_remove_tail m head sp bufsize = .ok (x, m2) ∧ WF m2 head xs ∧
      xs.map (valueOf m2) = xs.map (valueOf m) ∧
      (valueOf m2 x).isSome ∧ valueOf m2 x = valueOf m x ∧
      (m2.next x).isSome ∧ (m2.prev x).isSome ∧ m2.value x = m.value x := by
  have hemp := hwf.list_empty_eq
  have hiso := hwf.ring_isSome
  obtain ⟨hnz, hnd, hseg, hsent, hel, hvnd⟩ := hwf
  have hh : head ≠ 0 := hnz head (by simp)
  have hx0 : x ≠ 0 := hnz x (by simp)
  have hprev : m.prev head = some x := hseg.prev_last
  obtain ⟨m1, hdel, hseg1, hval1, hbytes1, hnx1, hpx1⟩ := list_del_seg hnz hnd hseg
  rw [List.append_nil] at hseg1
  have hxs : (valueOf m x).isSome := hel x (by simp)
  have hframe : ∀ y, valueOf m1 y = valueOf m y := fun y =>
    valueOf_frame (by rw [hval1]) (fun w _ => by rw [hbytes1])
  have hsp1 : BufOK m1 sp bufsize (xs ++ [x]) := by
    unfold BufOK at hsp ⊢
    rw [hval1, hbytes1]
    exact hsp
  obtain ⟨m2, hrun, hn2, hp2, hv2, hvals2⟩ :=
    copyOut_frame hx0 (by rw [hframe]; exact hxs) (by simp) hsp1
  have hvals : ∀ y ∈ xs ++ [x], valueOf m2 y = valueOf m y := fun y hy => by
    rw [hvals2 y hy, hframe]
  refine ⟨m2, ?_, ⟨?_, ?_, ?_, ?_, ?_, ?_⟩, ?_, ?_, ?_, ?_, ?_, ?_⟩
  · simp [q_remove_tail, hemp, hh, loadPrev_ok hh hprev, hdel, hrun]
  · intro a ha
    exact hnz a (by simp at ha ⊢; tauto)
  · obtain ⟨-, -, -, hhxs, -, -, hxsnd, -⟩ := nodup_split hnd
    exact List.nodup_cons.2 ⟨hhxs, hxsnd⟩
  · exact Seg.frame (fun a _ => by rw [hn2]) (fun b _ => by rw [hp2]) hseg1
  · rw [hv2, hval1]; exact hsent
  · intro y hy
    rw [hvals y (by simp [hy])]
    exact hel y (by simp [hy])
  · have : xs.map m2.value = xs.map m.value := by rw [hv2, hval1]
    rw [this]
    rw [List.map_append] at hvnd
    exact (List.nodup_append.1 hvnd).1
  · exact List.map_congr_left (fun y hy => hvals y (by simp [hy]))
  · rw [hvals x (by simp)]; exact hxs
  · exact hvals x (by simp)
  · rw [hn2, hnx1]; exact (hiso x (by simp)).1
  · rw [hp2, hpx1]; exact (hiso x (by simp)).2
  · rw [hv2, hval1]

theorem q_remove_tail_spec_witness :
    WF (mallocBytes (build [ascii "a", ascii "hello"]) 99 4) 1 ([10] ++ [20]) ∧
      BufOK (mallocBytes (build [ascii "a", ascii "hello"]) 99 4) 99 4 ([10] ++ [20]) ∧
      ∃ m2, q_remove_tail (mallocBytes (build [ascii "a", ascii "hello"]) 99 4) 1 99 4 =
          .ok (20, m2) ∧
        WF m2 1 [10] ∧
        [10].map (valueOf m2) =
          [10].map (valueOf (mallocBytes (build [ascii "a", ascii "hello"]) 99 4)) ∧
        (valueOf m2 20).isSome ∧
        valueOf m2 20 = valueOf (mallocBytes (build [ascii "a", ascii "hello"]) 99 4) 20 ∧
        (m2.next 20).isSome ∧ (m2.prev 20).isSome ∧
        m2.value 20 = (mallocBytes (build [ascii "a", ascii "hello"]) 99 4).value 20 :=
  ⟨by decide,
    Or.inr ⟨by decide, by decide, ⟨[0, 0, 0, 0], by decide, by decide⟩, by decide⟩,
    q_remove_tail_spec (mallocBytes (build [ascii "a", ascii "hello"]) 99 4) 1 [10] 20 99 4
      (by decide) (Or.inr ⟨by decide, by decide, ⟨[0, 0, 0, 0], by decide, by decide⟩, by decide⟩)⟩

/-- C7 (the code does not do it): after a `q_remove_head` on a well-formed
non-empty queue, `q_size` does not return the number of elements left: it never
returns, because the traversal from the sentinel no longer comes back to it. -/
theorem q_size_after_remove_head (m : Mem) (head x sp : Ptr) (rest : List Ptr)
    (bufsize fuel : Nat) (hwf : WF m head (x :: rest)) (hsp : BufOK m sp bufsize (x :: rest)) :
    ∃ m2, q_remove_head m head sp bufsize = .ok (x, m2) ∧
      ∃ e, q_size fuel m2 head = .error e := by
  obtain ⟨m2, hrun, hnext, -, hclosed, -⟩ := q_remove_head_closed hwf hsp
  have hh : head ≠ 0 := hwf.1 head (by simp)
  have hhx : head ∉ x :: rest := (List.nodup_cons.1 hwf.2.1).1
  have hxh : x ≠ head := by
    rintro rfl; exact hhx (by simp)
  refine ⟨m2, hrun, ?_⟩
  simp only [q_size, list_empty, loadNext_ok hh hnext, bind_ok_eq, pure_eq_ok, hxh,
    decide_False, Bool.false_or, beq_iff_eq, hh, if_false]
  exact q_size_loop_closed hclosed hhx fuel x 0 (by simp)

theorem q_size_after_remove_head_witness :
    WF (build [ascii "a"]) 1 [10] ∧ BufOK (build [ascii "a"]) 0 0 [10] ∧
      ∃ m2, q_remove_head (build [ascii "a"]) 1 0 0 = .ok (10, m2) ∧
        ∃ e, q_size 100 m2 1 = .error e :=
  ⟨by decide, Or.inl rfl,
    q_size_after_remove_head (build [ascii "a"]) 1 10 0 [] 0 100 (by decide) (Or.inl rfl)⟩

/-- C8: on a well-formed queue holding the elements `xs`, `q_reverse` returns
and the queue is well formed with the same elements, whose strings are the
strings they held before in reverse order; a second `q_reverse` returns too and
gives back the original order; a queue of fewer than 2 elements is returned as
it was. The strings are exchanged by swapping the `value` pointers, the links
and the `char` arrays stay as they are. -/
theorem q_reverse_spec (m : Mem) (head : Ptr) (xs : List Ptr) (fuel : Nat)
    (hwf : WF m head xs) (hint : xs.length < 2 ^ 31) (hfuel : xs.length < fuel) :
    ∃ m2, q_reverse fuel m head = .ok m2 ∧ WF m2 head xs ∧
      xs.map (valueOf m2) = (xs.map (valueOf m)).reverse ∧
      m2.next = m.next ∧ m2.prev = m.prev ∧ m2.bytes = m.bytes ∧
      (xs.length < 2 → m2 = m) ∧
      ∃ m3, q_reverse fuel m2 head = .ok m3 ∧ WF m3 head xs ∧
        xs.map (valueOf m3) = xs.map (valueOf m) := by
  obtain ⟨m2, hrun2, hwf2, hstr2, -, hn2, hp2, hb2, -, hshort⟩ := q_reverse_state hwf hint hfuel
  obtain ⟨m2b, m3, hrun2b, hrun3, hwf3, hstr3⟩ := q_reverse_twice hwf hint hfuel
  have e : m2b = m2 := by
    rw [hrun2] at hrun2b
    exact (Except.ok.inj hrun2b).symm
  subst e
  exact ⟨m2b, hrun2, hwf2, hstr2, hn2, hp2, hb2, hshort, m3, hrun3, hwf3, hstr3⟩

theorem q_reverse_spec_witness :
    WF (build [ascii "a", ascii "b", ascii "c"]) 1 [10, 20, 30] ∧
      [10, 20, 30].length < 2 ^ 31 ∧ [10, 20, 30].length < 8 ∧
      ∃ m2, q_reverse 8 (build [ascii "a", ascii "b", ascii "c"]) 1 = .ok m2 ∧
        WF m2 1 [10, 20, 30] ∧
        [10, 20, 30].map (valueOf m2) =
          ([10, 20, 30].map (valueOf (build [ascii "a", ascii "b", ascii "c"]))).reverse ∧
        m2.next = (build [ascii "a", ascii "b", ascii "c"]).next ∧
        m2.prev = (build [ascii "a", ascii "b", ascii "c"]).prev ∧
        m2.bytes = (build [ascii "a", ascii "b", ascii "c"]).bytes ∧
        ([10, 20, 30].length < 2 → m2 = build [ascii "a", ascii "b", ascii "c"]) ∧
        ∃ m3, q_reverse 8 m2 1 = .ok m3 ∧ WF m3 1 [10, 20, 30] ∧
          [10, 20, 30].map (valueOf m3) =
            [10, 20, 30].map (valueOf (build [ascii "a", ascii "b", ascii "c"])) :=
  ⟨by decide, by decide, by decide,
    q_reverse_spec (build [ascii "a", ascii "b", ascii "c"]) 1 [10, 20, 30] 8
      (by decide) (by decide) (by decide)⟩

/-- C9 (the code does not do it): `q_remove_head` breaks the ring invariant. After
it, on a well-formed non-empty queue, the sentinel points at `x` while `x` does
not point back, and following `next` from the sentinel never returns to the
sentinel, whatever the elements are taken to be. -/
theorem q_remove_head_breaks_ring (m : Mem) (head x sp : Ptr) (rest : List Ptr) (bufsize : Nat)
    (hwf : WF m head (x :: rest)) (hsp : BufOK m sp bufsize (x :: rest)) :
    ∃ m2, q_remove_head m head sp bufsize = .ok (x, m2) ∧ m2.next head = some x ∧
      m2.prev x ≠ some head ∧ ∀ ys, ¬ Seg m2 head ys head := by
  obtain ⟨m2, hrun, hnext, hprev, hclosed, -⟩ := q_remove_head_closed hwf hsp
  have hhx : head ∉ x :: rest := (List.nodup_cons.1 hwf.2.1).1
  exact ⟨m2, hrun, hnext, hprev,
    fun ys => not_seg_of_closed hclosed hhx ys head ⟨x, by simp, hnext⟩⟩

theorem q_remove_head_breaks_ring_witness :
    WF (build [ascii "a", ascii "b"]) 1 [10, 20] ∧ BufOK (build [ascii "a", ascii "b"]) 0 0 [10, 20] ∧
      ∃ m2, q_remove_head (build [ascii "a", ascii "b"]) 1 0 0 = .ok (10, m2) ∧
        m2.next 1 = some 10 ∧ m2.prev 10 ≠ some 1 ∧ ∀ ys, ¬ Seg m2 1 ys 1 :=
  ⟨by decide, Or.inl rfl,
    q_remove_head_breaks_ring (build [ascii "a", ascii "b"]) 1 10 0 [20] 0 (by decide)
      (Or.inl rfl)⟩

/-- C10 (the code does not do it): with a `NULL` handle every operation reads
through the handle before it tests it: in `list_empty(head) || !head` and in
`q_size(head) < 2 || !head` the left operand dereferences `head` first. -/
theorem null_handle_is_read (m : Mem) (off fuel : Nat) (sp : Ptr) (bufsize : Nat) :
    q_size fuel m 0 = .error .nullDeref ∧
      q_remove_head m 0 sp bufsize = .error .nullDeref ∧
      q_remove_tail m 0 sp bufsize = .error .nullDeref ∧
      q_delete_mid fuel m 0 = .error .nullDeref ∧
      q_delete_dup off fuel m 0 = .error .nullDeref ∧
      q_reverse fuel m 0 = .error .nullDeref ∧
      q_sort off fuel m 0 = .error .nullDeref := by
  have h : list_empty m 0 = .error .nullDeref := by simp [list_empty, loadNext]
  have hs : q_size fuel m 0 = .error .nullDeref := by simp [q_size, h]
  refine ⟨hs, ?_, ?_, ?_, ?_, ?_, ?_⟩
  · simp [q_remove_head, h]
  · simp [q_remove_tail, h]
  · simp [q_delete_mid, h]
  · simp [q_delete_dup, h]
  · simp [q_reverse, hs]
  · simp [q_sort, hs]

/-- A block that is allocated next to a well-formed queue, whatever its
`value` member is set to, leaves the queue as it is. -/
theorem WF.alloc_frame {m : Mem} {head : Ptr} {xs : List Ptr} (hwf : WF m head xs) {n : Ptr}
    (hfresh : m.next n = none) {m2 : Mem}
    (hn2 : ∀ a, a ≠ n → m2.next a = m.next a) (hp2 : ∀ a, a ≠ n → m2.prev a = m.prev a)
    (hv2 : ∀ a, a ≠ n → m2.value a = m.value a) (hb2 : m2.bytes = m.bytes) :
    WF m2 head xs ∧ xs.map (valueOf m2) = xs.map (valueOf m) := by
  have hiso := hwf.ring_isSome
  obtain ⟨hnz, hnd, hseg, hsent, hel, hvnd⟩ := hwf
  have hnew : ∀ a ∈ head :: xs, a ≠ n := by
    rintro a ha rfl
    have := (hiso a ha).1
    simp [hfresh] at this
  have hvals : ∀ x ∈ xs, valueOf m2 x = valueOf m x := fun x hx =>
    valueOf_frame (hv2 x (hnew x (List.mem_cons_of_mem _ hx))) (fun w _ => by rw [hb2])
  refine ⟨⟨hnz, hnd, ?_, ?_, ?_, ?_⟩, List.map_congr_left hvals⟩
  · refine Seg.frame (fun a ha => hn2 a (hnew a ha)) (fun b hb => hp2 b (hnew b ?_)) hseg
    simp at hb ⊢; tauto
  · rw [hv2 head (hnew head (by simp))]; exact hsent
  · intro x hx; rw [hvals x hx]; exact hel x hx
  · rw [List.map_congr_left (fun x hx => hv2 x (hnew x (List.mem_cons_of_mem _ hx)))]
    exact hvnd

/-- When `malloc` fails for the element, `n->value = malloc(...)` writes through
`NULL` before `n` is tested. -/
theorem q_insert_null_element (m : Mem) (head : Ptr) (s : List Nat) (v : Ptr) (hh : head ≠ 0) :
    q_insert_head m head s 0 v = .error .nullDeref ∧
      q_insert_tail m head s 0 v = .error .nullDeref := by
  constructor
  · simp [q_insert_head, hh, mallocElem, storeValue]
  · simp [q_insert_tail, hh, mallocElem, storeValue]

/-- When `malloc` fails for the string only, the inserts return false and the
queue is as it was; the element block that was allocated is not given back. -/
theorem q_insert_null_string {m : Mem} {head : Ptr} {xs : List Ptr} (s : List Nat) {n : Ptr}
    (hwf : WF m head xs) (hn : n ≠ 0) (hfresh : m.next n = none) :
    (∃ m2, q_insert_head m head s n 0 = .ok (false, m2) ∧ WF m2 head xs ∧
        xs.map (valueOf m2) = xs.map (valueOf m) ∧ (m2.next n).isSome) ∧
      (∃ m2, q_insert_tail m head s n 0 = .ok (false, m2) ∧ WF m2 head xs ∧
        xs.map (valueOf m2) = xs.map (valueOf m) ∧ (m2.next n).isSome) := by
  have hh : head ≠ 0 := hwf.1 head (by simp)
  have hfr := @WF.alloc_frame m head xs hwf n hfresh
    ((((m.setNext n 0).setPrev n 0).setValue n 0).setValue n 0)
    (fun a ha => by simp [ha]) (fun a ha => by simp [ha]) (fun a ha => by simp [ha]) rfl
  constructor
  · refine ⟨_, ?_, hfr.1, hfr.2, by simp⟩
    simp [q_insert_head, hh, hn, mallocElem, mallocBytes, storeValue_ok]
  · refine ⟨_, ?_, hfr.1, hfr.2, by simp⟩
    simp [q_insert_tail, hh, hn, mallocElem, mallocBytes, storeValue_ok]

/-- C11 (the code does not do it): when the allocation of the element fails,
`q_insert_head` and `q_insert_tail` do not return false: `n->value = malloc(...)`
is executed before `n` is tested and writes through `NULL`. (When only the
allocation of the string fails they do return false with the queue as it was,
see `q_insert_null_string`.) -/
theorem q_insert_element_alloc_failure (m : Mem) (head : Ptr) (s : List Nat) (v : Ptr)
    (hh : head ≠ 0) :
    q_insert_head m head s 0 v = .error .nullDeref ∧
      q_insert_tail m head s 0 v = .error .nullDeref :=
  q_insert_null_element m head s v hh

theorem q_insert_element_alloc_failure_witness :
    (1 : Ptr) ≠ 0 ∧
      q_insert_head (build [ascii "a"]) 1 (ascii "z") 0 51 = .error .nullDeref ∧
      q_insert_tail (build [ascii "a"]) 1 (ascii "z") 0 51 = .error .nullDeref :=
  ⟨by decide, q_insert_element_alloc_failure (build [ascii "a"]) 1 (ascii "z") 51 (by decide)⟩

theorem cstr_cstr (bs : List Nat) : cstr (cstr bs) = cstr bs := by
  unfold cstr
  rw [List.takeWhile_eq_self_iff]
  intro b hb
  have h := List.mem_takeWhile_imp hb
  simpa using h

/-- The first `bufsize` bytes of the buffer after the copy-out: the string cut
at `bufsize - 1` bytes, then zero bytes. -/
theorem copied_bytes (s rest : List Nat) (bufsize : Nat) (hb : 1 ≤ bufsize) (hs : cstr s = s) :
    (strncpyBytes s (bufsize - 1) ++ 0 :: rest).take bufsize =
      s.take (min s.length (bufsize - 1)) ++
        List.replicate (bufsize - min s.length (bufsize - 1)) 0 := by
  have hlen := strncpyBytes_length s (bufsize - 1)
  have h1 : (strncpyBytes s (bufsize - 1) ++ 0 :: rest).take bufsize =
      strncpyBytes s (bufsize - 1) ++ [0] := by
    rw [List.take_append_eq_append_take, hlen]
    have : bufsize - (bufsize - 1) = 1 := by omega
    rw [this, List.take_of_length_le (by omega)]
    simp
  rw [h1]
  unfold strncpyBytes
  rw [hs, List.append_assoc]
  have h2 : List.take (min s.length (bufsize - 1)) s = List.take (bufsize - 1) s := by
    rcases Nat.le_total s.length (bufsize - 1) with h | h
    · rw [Nat.min_eq_left h, List.take_of_length_le h, List.take_of_length_le (le_refl _)]
    · rw [Nat.min_eq_right h]
  rw [h2]
  congr 1
  have h3 : List.replicate (bufsize - 1 - s.length) 0 ++ [0] =
      List.replicate (bufsize - 1 - s.length + 1) (0 : Nat) := by
    rw [List.replicate_succ']
  rw [h3]
  congr 1
  omega

/-- The output buffer after `q_remove_head`, which returns the first element
`x`, and after `q_remove_tail`, which returns the last element `y`. -/
theorem remove_buffer {m : Mem} {head sp x y : Ptr} {xs rest ys : List Ptr} {bufsize : Nat}
    {old : List Nat} (hwf : WF m head xs) (hfirst : xs = x :: rest) (hlast : xs = ys ++ [y])
    (hsp : sp ≠ 0) (hb1 : 1 ≤ bufsize) (hb2 : bufsize < 2 ^ 64)
    (hold : m.bytes sp = some old) (hlen : bufsize ≤ old.length)
    (hdisj : ∀ z ∈ xs, m.value z ≠ some sp) :
    (∃ m2 s out, q_remove_head m head sp bufsize = .ok (x, m2) ∧ valueOf m x = some s ∧
        m2.bytes sp = some out ∧
        out.take bufsize = s.take (min s.length (bufsize - 1)) ++
          List.replicate (bufsize - min s.length (bufsize - 1)) 0) ∧
      (∃ m2 s out, q_remove_tail m head sp bufsize = .ok (y, m2) ∧ valueOf m y = some s ∧
        m2.bytes sp = some out ∧
        out.take bufsize = s.take (min s.length (bufsize - 1)) ++
          List.replicate (bufsize - min s.length (bufsize - 1)) 0) := by
  have hemp := hwf.list_empty_eq
  have hiso := hwf.ring_isSome
  have hh : head ≠ 0 := hwf.1 head (by simp)
  have hel := hwf.2.2.2.2.1
  have hne : ¬ (xs = []) := by rw [hfirst]; simp
  -- the copy-out once the element `e` has been read and a link has been unlinked
  have hcopy : ∀ (e : Ptr) (m1 : Mem), e ∈ xs → m1.value = m.value → m1.bytes = m.bytes →
      ∃ m2 s out, copyOut m1 e sp bufsize = .ok m2 ∧ valueOf m e = some s ∧
        m2.bytes sp = some out ∧
        out.take bufsize = s.take (min s.length (bufsize - 1)) ++
          List.replicate (bufsize - min s.length (bufsize - 1)) 0 := by
    intro e m1 he hv1 hbs1
    have he0 : e ≠ 0 := hwf.1 e (List.mem_cons_of_mem _ he)
    obtain ⟨s, hs⟩ := Option.isSome_iff_exists.1 (hel e he)
    have hs1 : valueOf m1 e = some s := by
      rw [← hs]; exact valueOf_frame (by rw [hv1]) (fun w _ => by rw [hbs1])
    obtain ⟨m2, hrun, -, -, -, -, hout⟩ := copyOut_ok he0 hs1 hsp hb1 hb2
      (by rw [hbs1]; exact hold) hlen (by rw [hv1]; exact hdisj e he)
    obtain ⟨v, bs, -, -, -, -, hc⟩ := valueOf_eq_some hs
    have hcs : cstr s = s := by rw [← hc]; exact cstr_cstr bs
    exact ⟨m2, s, _, hrun, hs, hout, copied_bytes s _ bufsize hb1 hcs⟩
  obtain ⟨hnz, hnd, hseg, -⟩ := hwf
  constructor
  · have hxmem : x ∈ xs := by rw [hfirst]; simp
    have hx0 : x ≠ 0 := hnz x (List.mem_cons_of_mem _ hxmem)
    have hnx : m.next head = some x := by
      have := hseg
      rw [hfirst] at this
      exact this.1
    have hpv : m.prev head = some y := by
      have := hseg
      rw [hlast] at this
      exact this.prev_last
    have hymem : y ∈ xs := by rw [hlast]; simp
    have hy0 : y ≠ 0 := hnz y (List.mem_cons_of_mem _ hymem)
    have hdel : list_del m head = .ok ((m.setPrev x y).setNext y x) :=
      list_del_ok hh hx0 hy0 hnx hpv (hiso x (List.mem_cons_of_mem _ hxmem)).2
        (hiso y (List.mem_cons_of_mem _ hymem)).1
    obtain ⟨m2, s, out, hrun, hs, hout, htake⟩ :=
      hcopy x ((m.setPrev x y).setNext y x) hxmem rfl rfl
    refine ⟨m2, s, out, ?_, hs, hout, htake⟩
    simp [q_remove_head, hemp, hne, hh, loadNext_ok hh hnx, hdel, hrun]
  · subst hlast
    have hprev : m.prev head = some y := hseg.prev_last
    obtain ⟨m1, hdel, -, hval1, hbytes1, -, -⟩ := list_del_seg hnz hnd hseg
    obtain ⟨m2, s, out, hrun, hs, hout, htake⟩ := hcopy y m1 (by simp) hval1 hbytes1
    refine ⟨m2, s, out, ?_, hs, hout, htake⟩
    simp [q_remove_tail, hemp, hh, loadPrev_ok hh hprev, hdel, hrun]

/-- C12: on a well-formed non-empty queue with first element `x` and last
element `y`, with an output buffer `sp` of at least `bufsize >= 1` bytes that
is not a string of the queue, after `q_remove_head` (which returns `x`) and
after `q_remove_tail` (which returns `y`) the first `bufsize` bytes of the
buffer are the first `min (len s) (bufsize - 1)` bytes of the string `s` of the
returned element followed by zero bytes: a terminated prefix, cut silently when
the string is longer. -/
theorem remove_copies_value (m : Mem) (head sp x y : Ptr) (xs rest ys : List Ptr)
    (bufsize : Nat) (old : List Nat) (hwf : WF m head xs) (hfirst : xs = x :: rest)
    (hlast : xs = ys ++ [y]) (hsp : sp ≠ 0) (hb1 : 1 ≤ bufsize) (hb2 : bufsize < 2 ^ 64)
    (hold : m.bytes sp = some old) (hlen : bufsize ≤ old.length)
    (hdisj : ∀ z ∈ xs, m.value z ≠ some sp) :
    (∃ m2 s out, q_remove_head m head sp bufsize = .ok (x, m2) ∧ valueOf m x = some s ∧
        m2.bytes sp = some out ∧
        out.take bufsize = s.take (min s.length (bufsize - 1)) ++
          List.replicate (bufsize - min s.length (bufsize - 1)) 0) ∧
      (∃ m2 s out, q_remove_tail m head sp bufsize = .ok (y, m2) ∧ valueOf m y = some s ∧
        m2.bytes sp = some out ∧
        out.take bufsize = s.take (min s.length (bufsize - 1)) ++
          List.replicate (bufsize - min s.length (bufsize - 1)) 0) :=
  remove_buffer hwf hfirst hlast hsp hb1 hb2 hold hlen hdisj

theorem remove_copies_value_witness :
    WF (mallocBytes (build [ascii "a", ascii "hello"]) 99 4) 1 [10, 20] ∧
      (∃ m2 s out,
        q_remove_head (mallocBytes (build [ascii "a", ascii "hello"]) 99 4) 1 99 4 =
          .ok (10, m2) ∧
        valueOf (mallocBytes (build [ascii "a", ascii "hello"]) 99 4) 10 = some s ∧
        m2.bytes 99 = some out ∧
        out.take 4 = s.take (min s.length (4 - 1)) ++
          List.replicate (4 - min s.length (4 - 1)) 0) ∧
      (∃ m2 s out,
        q_remove_tail (mallocBytes (build [ascii "a", ascii "hello"]) 99 4) 1 99 4 =
          .ok (20, m2) ∧
        valueOf (mallocBytes (build [ascii "a", ascii "hello"]) 99 4) 20 = some s ∧
        m2.bytes 99 = some out ∧
        out.take 4 = s.take (min s.length (4 - 1)) ++
          List.replicate (4 - min s.length (4 - 1)) 0) :=
  ⟨by decide,
    remove_copies_value (mallocBytes (build [ascii "a", ascii "hello"]) 99 4) 1 99 10 20
      [10, 20] [20] [10] 4 [0, 0, 0, 0] (by decide) (by decide) (by decide) (by decide)
      (by decide) (by decide) (by decide) (by decide) (by decide)⟩

/-- The buffer in the run of the witness: "hello" cut to "hel" and terminated. -/
theorem remove_tail_truncates :
    (q_remove_tail (mallocBytes (build [ascii "a", ascii "hello"]) 99 4) 1 99 4).toOption.map
      (fun r => (r.1, r.2.bytes 99)) = some (20, some (ascii "hel" ++ [0])) := by
  rfl

/-- On an empty queue the guards of `q_size`, `q_remove_head` and
`q_delete_mid` return at once. -/
theorem empty_queue_guards {m : Mem} {head : Ptr} (hwf : WF m head []) (fuel : Nat) (sp : Ptr)
    (bufsize : Nat) :
    q_size fuel m head = .ok 0 ∧ q_remove_head m head sp bufsize = .ok (0, m) ∧
      q_delete_mid fuel m head = .ok (false, m) := by
  have hemp := hwf.list_empty_eq
  refine ⟨?_, ?_, ?_⟩
  · simp [q_size, hemp]
  · simp [q_remove_head, hemp]
  · simp [q_delete_mid, hemp]

/-- C13: on an empty well-formed queue `q_size` returns 0, `q_remove_head`
returns `NULL` and `q_delete_mid` returns false; each returns the memory it was
given, so the queue stays empty and well formed. -/
theorem empty_queue_ops (m : Mem) (head : Ptr) (fuel : Nat) (sp : Ptr) (bufsize : Nat)
    (hwf : WF m head []) :
    q_size fuel m head = .ok 0 ∧ q_remove_head m head sp bufsize = .ok (0, m) ∧
      q_delete_mid fuel m head = .ok (false, m) ∧ WF m head [] :=
  ⟨(empty_queue_guards hwf fuel sp bufsize).1, (empty_queue_guards hwf fuel sp bufsize).2.1,
    (empty_queue_guards hwf fuel sp bufsize).2.2, hwf⟩

theorem empty_queue_ops_witness :
    WF (build []) 1 [] ∧
      (q_size 0 (build []) 1 = .ok 0 ∧ q_remove_head (build []) 1 0 0 = .ok (0, build []) ∧
        q_delete_mid 0 (build []) 1 = .ok (false, build []) ∧ WF (build []) 1 []) :=
  ⟨by decide, empty_queue_ops (build []) 1 0 0 0 (by decide)⟩

/-- `q_swap` returns the memory it was given. -/
theorem q_swap_noop {m : Mem} {head : Ptr} {xs : List Ptr} (hring : Ring m head xs) :
    q_swap m head = .ok m := by
  have hemp := hring.empty_test
  unfold q_swap
  rw [hemp]
  simp only [bind_ok_eq]
  split <;> rfl

/-- C14 (the code does not do it): `q_swap` swaps nothing. After the guard its
body is empty: on every queue it returns with the memory, and so the value
sequence, unchanged. -/
theorem q_swap_changes_nothing (m : Mem) (head : Ptr) (xs : List Ptr) (hring : Ring m head xs) :
    q_swap m head = .ok m :=
  q_swap_noop hring

theorem q_swap_changes_nothing_witness :
    Ring (build [ascii "a", ascii "b"]) 1 [10, 20] ∧
      q_swap (build [ascii "a", ascii "b"]) 1 = .ok (build [ascii "a", ascii "b"]) :=
  ⟨by decide, q_swap_changes_nothing (build [ascii "a", ascii "b"]) 1 [10, 20] (by decide)⟩

/-- The value sequence after `q_swap` on "a", "b" is still "a", "b". -/
theorem q_swap_two :
    (q_swap (build [ascii "a", ascii "b"]) 1 >>= fun m => valueSeq 8 m 1) =
      .ok [ascii "a", ascii "b"] := by
  rfl

/-! ## `merge` on null-terminated chains -/

theorem setNext_same {m : Mem} {p q : Ptr} (h : m.next p = some q) : m.setNext p q = m := by
  cases m with
  | mk nx pv vl bt fr =>
    simp only [Mem.setNext, Mem.mk.injEq, and_true]
    funext a
    by_cases ha : a = p
    · subst ha; simpa using h.symm
    · simp [ha]

theorem Chain.same_next {m m2 : Mem} : ∀ (xs : List Ptr) (p : Ptr),
    (∀ a ∈ xs, m2.next a = m.next a) → Chain m p xs → Chain m2 p xs := by
  intro xs
  induction xs with
  | nil => intro p _ h; exact h
  | cons x xs ih =>
    intro p hn h
    obtain ⟨h1, h2, h3, h4⟩ := h
    exact ⟨h1, h2, by rw [hn x (by simp)]; exact h3,
      ih _ (fun a ha => hn a (List.mem_cons_of_mem _ ha)) h4⟩

theorem Chain.unique {m : Mem} : ∀ (xs ys : List Ptr) (p : Ptr),
    Chain m p xs → Chain m p ys → xs = ys := by
  intro xs
  induction xs with
  | nil =>
    intro ys p h1 h2
    cases ys with
    | nil => rfl
    | cons y ys =>
      have hp : p = 0 := h1
      exact absurd (h2.1.symm.trans hp) h2.2.1
  | cons x xs ih =>
    intro ys p h1 h2
    cases ys with
    | nil =>
      have hp : p = 0 := h2
      exact absurd (h1.1.symm.trans hp) h1.2.1
    | cons y ys =>
      obtain ⟨a1, -, a3, a4⟩ := h1
      obtain ⟨b1, -, b3, b4⟩ := h2
      have hxy : x = y := a1.symm.trans b1
      subst hxy
      rw [a3] at b3
      have hq : xs.headD 0 = ys.headD 0 := Option.some.inj b3
      rw [← hq] at b4
      rw [ih ys _ a4 b4]

/-- The last link of a chain points at `NULL`. -/
theorem Chain.last {m : Mem} : ∀ (cs : List Ptr) (c : Ptr), Chain m c (c :: cs) →
    lastOf c cs ∈ c :: cs ∧ lastOf c cs ≠ 0 ∧ m.next (lastOf c cs) = some 0 := by
  intro cs
  induction cs with
  | nil =>
    intro c h
    exact ⟨by simp [lastOf], h.2.1, h.2.2.1⟩
  | cons c2 cs ih =>
    intro c h
    have h2 : Chain m c2 (c2 :: cs) := h.2.2.2
    obtain ⟨i1, i2, i3⟩ := ih c2 h2
    exact ⟨List.mem_cons_of_mem _ i1, i2, i3⟩

/-- The first link of a chain without repetition is not its own successor. -/
theorem Chain.not_self {m : Mem} {c : Ptr} {cs : List Ptr} (h : Chain m c (c :: cs))
    (hnd : (c :: cs).Nodup) : list_empty m c = .ok false := by
  have hc0 : c ≠ 0 := h.2.1
  have hne : cs.headD 0 ≠ c := by
    cases cs with
    | nil => exact fun e => hc0 e.symm
    | cons c2 cs =>
      intro e
      have e2 : c2 = c := e
      simp [e2] at hnd
  rw [list_empty, loadNext_ok hc0 h.2.2.1]
  simp only [bind_ok_eq, pure_eq_ok, hne, decide_False]

/-- Linking the last link of a chain to a second, disjoint chain gives the
chain of the first followed by the second. -/
theorem Chain.link {m : Mem} {y : Ptr} {ys : List Ptr} (hy : Chain m y (y :: ys)) :
    ∀ (cs : List Ptr) (c : Ptr), Chain m c (c :: cs) → (c :: cs).Nodup →
      (∀ a ∈ c :: cs, a ∉ y :: ys) →
      Chain (m.setNext (lastOf c cs) y) c ((c :: cs) ++ (y :: ys)) := by
  intro cs
  induction cs with
  | nil =>
    intro c h _ hdis
    refine ⟨rfl, h.2.1, by simp [lastOf], ?_⟩
    show Chain (m.setNext c y) y (y :: ys)
    refine Chain.same_next _ _ (fun a ha => ?_) hy
    have : a ≠ c := by
      rintro rfl; exact hdis a (by simp) ha
    simp [this]
  | cons c2 cs ih =>
    intro c h hnd hdis
    have h2 : Chain m c2 (c2 :: cs) := h.2.2.2
    have hnd2 : (c2 :: cs).Nodup := (List.nodup_cons.1 hnd).2
    have hlast := (Chain.last cs c2 h2).1
    have hcl : c ≠ lastOf c2 cs := by
      intro e
      exact (List.nodup_cons.1 hnd).1 (by rw [e]; exact hlast)
    have := ih c2 h2 hnd2 (fun a ha => hdis a (List.mem_cons_of_mem _ ha))
    have hn : m.next c = some c2 := h.2.2.1
    refine ⟨rfl, h.2.1, ?_, this⟩
    show (m.setNext (lastOf c2 cs) y).next c = some c2
    simp [hcl, hn]

theorem valueOf_loads {m : Mem} {x : Ptr} {s : List Nat} (hx : x ≠ 0)
    (h : valueOf m x = some s) :
    ∃ v, loadValue m x = .ok v ∧ loadStr m v = .ok s := by
  obtain ⟨v, bs, hv, hv0, hbs, hz, hc⟩ := valueOf_eq_some h
  exact ⟨v, loadValue_ok hx hv, by simp [loadStr, hv0, hbs, hz, hc]⟩

/-- The loop of `merge` when the first nodes compare less: since `e1` and `e2`
are never updated, every round takes from the first chain until it is
exhausted; the memory is left as it was. -/
theorem merge_loop_left {m : Mem} {e1 e2 v1 v2 : Ptr} {s1 s2 : List Nat} {l2 : Ptr}
    (hv1 : loadValue m e1 = .ok v1) (hs1 : loadStr m v1 = .ok s1)
    (hv2 : loadValue m e2 = .ok v2) (hs2 : loadStr m v2 = .ok s2)
    (hlt : strcmp s1 s2 < 0) (hl2 : l2 ≠ 0) :
    ∀ (cs : List Ptr) (c hd : Ptr) (tmp : Option Ptr) (fuel : Nat), Chain m c (c :: cs) →
      (∀ p, tmp = some p → p ≠ 0 ∧ m.next p = some c) → cs.length + 1 < fuel →
      merge_loop fuel m e1 e2 hd tmp c l2 =
        .ok (m, (tmp.elim c (fun _ => hd)), some (lastOf c cs), 0, l2) := by
  intro cs
  induction cs with
  | nil =>
    intro c hd tmp fuel h htmp hfuel
    obtain ⟨k, rfl⟩ : ∃ k, fuel = k + 2 := ⟨fuel - 2, by simp at hfuel; omega⟩
    have hc0 : c ≠ 0 := h.2.1
    have hst : storeTmp m hd tmp c = .ok ((tmp.elim c (fun _ => hd)), m) := by
      cases tmp with
      | none => rfl
      | some p =>
        obtain ⟨hp0, hpc⟩ := htmp p rfl
        rw [storeTmp, storeNext_ok c hp0 (by simp [hpc]), setNext_same hpc]
        rfl
    have hnx : loadNext m c = .ok 0 := loadNext_ok hc0 h.2.2.1
    rw [merge_loop]
    simp only [hc0, hl2, ne_eq, not_false_eq_true, and_self, if_true, hv1, hv2, hs1, hs2,
      bind_ok_eq, hlt, hst, hnx]
    simp [merge_loop, lastOf]
  | cons c2 cs ih =>
    intro c hd tmp fuel h htmp hfuel
    obtain ⟨k, rfl⟩ : ∃ k, fuel = k + 1 := ⟨fuel - 1, by omega⟩
    have hc0 : c ≠ 0 := h.2.1
    have hst : storeTmp m hd tmp c = .ok ((tmp.elim c (fun _ => hd)), m) := by
      cases tmp with
      | none => rfl
      | some p =>
        obtain ⟨hp0, hpc⟩ := htmp p rfl
        rw [storeTmp, storeNext_ok c hp0 (by simp [hpc]), setNext_same hpc]
        rfl
    have hnx : loadNext m c = .ok c2 := loadNext_ok hc0 h.2.2.1
    rw [merge_loop]
    simp only [hc0, hl2, ne_eq, not_false_eq_true, and_self, if_true, hv1, hv2, hs1, hs2,
      bind_ok_eq, hlt, hst, hnx]
    rw [ih c2 _ (some c) k h.2.2.2 (fun p hp => by
      have : c = p := Option.some.inj hp
      subst this
      exact ⟨hc0, h.2.2.1⟩) (by simp at hfuel ⊢; omega)]
    rfl

/-- The loop of `merge` when the first node of the first chain does not compare
less: every round takes from the second chain until it is exhausted; the
memory is left as it was. -/
theorem merge_loop_right {m : Mem} {e1 e2 v1 v2 : Ptr} {s1 s2 : List Nat} {l1 : Ptr}
    (hv1 : loadValue m e1 = .ok v1) (hs1 : loadStr m v1 = .ok s1)
    (hv2 : loadValue m e2 = .ok v2) (hs2 : loadStr m v2 = .ok s2)
    (hge : ¬ strcmp s1 s2 < 0) (hl1 : l1 ≠ 0) :
    ∀ (cs : List Ptr) (c hd : Ptr) (tmp : Option Ptr) (fuel : Nat), Chain m c (c :: cs) →
      (∀ p, tmp = some p → p ≠ 0 ∧ m.next p = some c) → cs.length + 1 < fuel →
      merge_loop fuel m e1 e2 hd tmp l1 c =
        .ok (m, (tmp.elim c (fun _ => hd)), some (lastOf c cs), l1, 0) := by
  intro cs
  induction cs with
  | nil =>
    intro c hd tmp fuel h htmp hfuel
    obtain ⟨k, rfl⟩ : ∃ k, fuel = k + 2 := ⟨fuel - 2, by simp at hfuel; omega⟩
    have hc0 : c ≠ 0 := h.2.1
    have hst : storeTmp m hd tmp c = .ok ((tmp.elim c (fun _ => hd)), m) := by
      cases tmp with
      | none => rfl
      | some p =>
        obtain ⟨hp0, hpc⟩ := htmp p rfl
        rw [storeTmp, storeNext_ok c hp0 (by simp [hpc]), setNext_same hpc]
        rfl
    have hnx : loadNext m c = .ok 0 := loadNext_ok hc0 h.2.2.1
    rw [merge_loop]
    simp only [hc0, hl1, ne_eq, not_false_eq_true, and_self, if_true, hv1, hv2, hs1, hs2,
      bind_ok_eq, hge, if_false, hst, hnx]
    simp [merge_loop, lastOf]
  | cons c2 cs ih =>
    intro c hd tmp fuel h htmp hfuel
    obtain ⟨k, rfl⟩ : ∃ k, fuel = k + 1 := ⟨fuel - 1, by omega⟩
    have hc0 : c ≠ 0 := h.2.1
    have hst : storeTmp m hd tmp c = .ok ((tmp.elim c (fun _ => hd)), m) := by
      cases tmp with
      | none => rfl
      | some p =>
        obtain ⟨hp0, hpc⟩ := htmp p rfl
        rw [storeTmp, storeNext_ok c hp0 (by simp [hpc]), setNext_same hpc]
        rfl
    have hnx : loadNext m c = .ok c2 := loadNext_ok hc0 h.2.2.1
    rw [merge_loop]
    simp only [hc0, hl1, ne_eq, not_false_eq_true, and_self, if_true, hv1, hv2, hs1, hs2,
      bind_ok_eq, hge, if_false, hst, hnx]
    rw [ih c2 _ (some c) k h.2.2.2 (fun p hp => by
      have : c = p := Option.some.inj hp
      subst this
      exact ⟨hc0, h.2.2.1⟩) (by simp at hfuel ⊢; omega)]
    rfl

/-- `merge` on two non-empty chains whose first nodes compare less: the whole
first chain is emitted, and then the last link is pointed at the second chain
(if `list_entry` of its start is non-null). -/
theorem merge_first_less {m : Mem} {x y : Ptr} {xs ys : List Ptr} {s1 s2 : List Nat}
    (off : Nat) {fuel : Nat} (hx : Chain m x (x :: xs)) (hy : Chain m y (y :: ys))
    (hndx : (x :: xs).Nodup) (hndy : (y :: ys).Nodup) (h1 : valueOf m x = some s1)
    (h2 : valueOf m y = some s2) (hlt : strcmp s1 s2 < 0) (hfuel : xs.length + 1 < fuel) :
    merge off fuel m x y =
      .ok (x, if list_entry_nonnull off y then m.setNext (lastOf x xs) y else m) := by
  have hx0 : x ≠ 0 := hx.2.1
  have hy0 : y ≠ 0 := hy.2.1
  obtain ⟨v1, hv1, hs1⟩ := valueOf_loads hx0 h1
  obtain ⟨v2, hv2, hs2⟩ := valueOf_loads hy0 h2
  obtain ⟨-, hl0, hln⟩ := Chain.last xs x hx
  have hloop := merge_loop_left hv1 hs1 hv2 hs2 hlt hy0 xs x 0 none fuel hx
    (fun p hp => by simp at hp) hfuel
  have hst0 : storeTmp m x (some (lastOf x xs)) 0 = .ok (x, m) := by
    rw [storeTmp, storeNext_ok 0 hl0 (by simp [hln]), setNext_same hln]
    rfl
  have hsty : storeTmp m x (some (lastOf x xs)) y = .ok (x, m.setNext (lastOf x xs) y) := by
    rw [storeTmp, storeNext_ok y hl0 (by simp [hln])]
    rfl
  unfold merge
  simp only [hy0, hx0, if_false, hy.not_self hndy, hx.not_self hndx, bind_ok_eq,
    Bool.false_eq_true, hloop, Option.elim]
  by_cases hn0 : list_entry_nonnull off 0 = true
  · by_cases hny : list_entry_nonnull off y = true
    · simp [hn0, hny, hst0, hsty]
    · simp [hn0, hny, hst0]
  · by_cases hny : list_entry_nonnull off y = true
    · simp [hn0, hny, hsty]
    · simp [hn0, hny]

/-- `merge` on two non-empty chains whose first nodes do not compare less: the
whole second chain is emitted and its start is returned; then the last link
is pointed at the first chain and, if `list_entry(NULL)` is non-null, at
`NULL` again. -/
theorem merge_first_not_less {m : Mem} {x y : Ptr} {xs ys : List Ptr} {s1 s2 : List Nat}
    (off : Nat) {fuel : Nat} (hx : Chain m x (x :: xs)) (hy : Chain m y (y :: ys))
    (hndx : (x :: xs).Nodup) (hndy : (y :: ys).Nodup) (h1 : valueOf m x = some s1)
    (h2 : valueOf m y = some s2) (hge : ¬ strcmp s1 s2 < 0) (hfuel : ys.length + 1 < fuel) :
    ∃ m2, merge off fuel m x y = .ok (y, m2) ∧
      (list_entry_nonnull off 0 = true → Chain m2 y (y :: ys)) ∧
      m2.value = m.value ∧ m2.bytes = m.bytes := by
  have hx0 : x ≠ 0 := hx.2.1
  have hy0 : y ≠ 0 := hy.2.1
  obtain ⟨v1, hv1, hs1⟩ := valueOf_loads hx0 h1
  obtain ⟨v2, hv2, hs2⟩ := valueOf_loads hy0 h2
  obtain ⟨-, hl0, hln⟩ := Chain.last ys y hy
  have hloop := merge_loop_right hv1 hs1 hv2 hs2 hge hx0 ys y 0 none fuel hy
    (fun p hp => by simp at hp) hfuel
  have hstx : storeTmp m y (some (lastOf y ys)) x = .ok (y, m.setNext (lastOf y ys) x) := by
    rw [storeTmp, storeNext_ok x hl0 (by simp [hln])]
    rfl
  have hst0 : ∀ m1 : Mem, (m1.next (lastOf y ys)).isSome →
      storeTmp m1 y (some (lastOf y ys)) 0 = .ok (y, m1.setNext (lastOf y ys) 0) := by
    intro m1 h
    rw [storeTmp, storeNext_ok 0 hl0 h]
    rfl
  have hback : ∀ m1 : Mem, (∀ a, a ≠ lastOf y ys → m1.next a = m.next a) →
      Chain (m1.setNext (lastOf y ys) 0) y (y :: ys) := by
    intro m1 hsame
    refine Chain.same_next _ _ (fun a _ => ?_) hy
    by_cases ha : a = lastOf y ys
    · subst ha; simp [hln]
    · simp [ha, hsame a ha]
  unfold merge
  simp only [hy0, hx0, if_false, hy.not_self hndy, hx.not_self hndx, bind_ok_eq,
    Bool.false_eq_true, hloop, Option.elim]
  by_cases hn0 : list_entry_nonnull off 0 = true
  · by_cases hnx : list_entry_nonnull off x = true
    · refine ⟨(m.setNext (lastOf y ys) x).setNext (lastOf y ys) 0, ?_, ?_, rfl, rfl⟩
      · simp [hn0, hnx, hstx, hst0 (m.setNext (lastOf y ys) x) (by simp)]
      · intro _
        exact hback _ (fun a ha => by simp [ha])
    · refine ⟨m.setNext (lastOf y ys) 0, ?_, ?_, rfl, rfl⟩
      · simp [hn0, hnx, hst0 m (by simp [hln])]
      · intro _
        exact hback _ (fun a _ => rfl)
  · by_cases hnx : list_entry_nonnull off x = true
    · exact ⟨m.setNext (lastOf y ys) x, by simp [hn0, hnx, hstx], fun h => absurd h hn0, rfl, rfl⟩
    · exact ⟨m, by simp [hn0, hnx], fun h => absurd h hn0, rfl, rfl⟩

/-- An empty input makes `merge` return the other chain as it is. -/
theorem merge_empty_input {m : Mem} {y : Ptr} {ys : List Ptr} (off fuel : Nat) (l1 : Ptr)
    (hy : Chain m y (y :: ys)) (hndy : (y :: ys).Nodup) :
    merge off fuel m l1 0 = .ok (l1, m) ∧ merge off fuel m 0 y = .ok (y, m) := by
  constructor
  · simp [merge]
  · simp [merge, hy.2.1, hy.not_self hndy]

theorem ascending_link (f : Ptr → List Nat) {y : Ptr} {ys : List Ptr} :
    ∀ (cs : List Ptr) (c : Ptr), Ascending (((c :: cs) ++ (y :: ys)).map f) →
      strcmp (f (lastOf c cs)) (f y) ≤ 0 := by
  intro cs
  induction cs with
  | nil => intro c h; exact h.1
  | cons c2 cs ih => intro c h; exact ih c2 h.2

theorem strcmp_self (s : List Nat) : strcmp s s = 0 := by
  induction s with
  | nil => rfl
  | cons a s ih => simp [strcmp, ih]

/-- When the first nodes compare less, `merge` returns the first chain followed
by the second; the result is not ascending as soon as the last string of the
first chain is greater than the first string of the second. -/
theorem merge_appends {m : Mem} {x y : Ptr} {xs ys : List Ptr} {s1 s2 sl : List Nat}
    {off fuel : Nat} (hx : Chain m x (x :: xs)) (hy : Chain m y (y :: ys))
    (hnd : ((x :: xs) ++ (y :: ys)).Nodup) (h1 : valueOf m x = some s1)
    (h2 : valueOf m y = some s2) (hl : valueOf m (lastOf x xs) = some sl)
    (hlt : strcmp s1 s2 < 0) (hbad : 0 < strcmp sl s2)
    (hoff : list_entry_nonnull off y = true) (hfuel : xs.length + 1 < fuel) :
    ∃ m2, merge off fuel m x y = .ok (x, m2) ∧ Chain m2 x ((x :: xs) ++ (y :: ys)) ∧
      (∀ a, valueOf m2 a = valueOf m a) ∧
      ¬ Ascending (((x :: xs) ++ (y :: ys)).map (fun a => (valueOf m2 a).getD [])) := by
  have hndx : (x :: xs).Nodup := (List.nodup_append.1 hnd).1
  have hndy : (y :: ys).Nodup := (List.nodup_append.1 hnd).2.1
  have hdis : ∀ a ∈ x :: xs, a ∉ y :: ys := fun a ha hb => (List.nodup_append.1 hnd).2.2 ha hb
  refine ⟨m.setNext (lastOf x xs) y, ?_, Chain.link hy xs x hx hndx hdis, fun _ => rfl, ?_⟩
  · rw [merge_first_less off hx hy hndx hndy h1 h2 hlt hfuel, if_pos hoff]
  · intro hasc
    have := ascending_link (fun a => (valueOf (m.setNext (lastOf x xs) y) a).getD []) xs x hasc
    have e1 : valueOf (m.setNext (lastOf x xs) y) (lastOf x xs) = some sl := hl
    have e2 : valueOf (m.setNext (lastOf x xs) y) y = some s2 := h2
    simp only [e1, e2, Option.getD_some] at this
    omega

/-- C15 (the code does not do it): `merge` does not merge. `e1` and `e2` are
computed before the loop and never updated, so every round compares the two
first nodes; when the first node of the first chain compares less, the whole
first chain is emitted and the second chain is hung behind it. Whenever the
last string of the first chain is greater than the first string of the second
chain, the returned chain is not in ascending order. -/
theorem merge_not_sorted (m : Mem) (x y : Ptr) (xs ys : List Ptr) (s1 s2 sl : List Nat)
    (off fuel : Nat) (hx : Chain m x (x :: xs)) (hy : Chain m y (y :: ys))
    (hnd : ((x :: xs) ++ (y :: ys)).Nodup) (h1 : valueOf m x = some s1)
    (h2 : valueOf m y = some s2) (hl : valueOf m (lastOf x xs) = some sl)
    (hlt : strcmp s1 s2 < 0) (hbad : 0 < strcmp sl s2)
    (hoff : list_entry_nonnull off y = true) (hfuel : xs.length + 1 < fuel) :
    ∃ m2, merge off fuel m x y = .ok (x, m2) ∧ Chain m2 x ((x :: xs) ++ (y :: ys)) ∧
      (∀ a, valueOf m2 a = valueOf m a) ∧
      ¬ Ascending (((x :: xs) ++ (y :: ys)).map (fun a => (valueOf m2 a).getD [])) :=
  merge_appends hx hy hnd h1 h2 hl hlt hbad hoff hfuel

theorem merge_not_sorted_witness :
    Chain (mkChain (mkChain Mem.empty [ascii "a", ascii "c"] 10) [ascii "b"] 100) 10 (10 :: [20]) ∧
      Chain (mkChain (mkChain Mem.empty [ascii "a", ascii "c"] 10) [ascii "b"] 100) 100
        (100 :: []) ∧
      Ascending [ascii "a", ascii "c"] ∧ Ascending [ascii "b"] ∧
      ∃ m2, merge 8 8 (mkChain (mkChain Mem.empty [ascii "a", ascii "c"] 10) [ascii "b"] 100)
          10 100 = .ok (10, m2) ∧
        Chain m2 10 ((10 :: [20]) ++ (100 :: [])) ∧
        (∀ a, valueOf m2 a =
          valueOf (mkChain (mkChain Mem.empty [ascii "a", ascii "c"] 10) [ascii "b"] 100) a) ∧
        ¬ Ascending (((10 :: [20]) ++ (100 :: [])).map (fun a => (valueOf m2 a).getD [])) :=
  ⟨by decide, by decide, by decide, by decide,
    merge_not_sorted (mkChain (mkChain Mem.empty [ascii "a", ascii "c"] 10) [ascii "b"] 100)
      10 100 [20] [] (ascii "a") (ascii "b") (ascii "c") 8 8 (by decide) (by decide) (by decide)
      (by decide) (by decide) (by decide) (by decide) (by decide) (by decide) (by decide)⟩

/-- When the first node of the first chain does not compare less and
`list_entry(NULL)` is a non-null pointer, `merge` returns the second chain
alone. -/
theorem merge_second_only {m : Mem} {x y : Ptr} {xs ys : List Ptr} {s1 s2 : List Nat}
    {off fuel : Nat} (hx : Chain m x (x :: xs)) (hy : Chain m y (y :: ys))
    (hndx : (x :: xs).Nodup) (hndy : (y :: ys).Nodup) (h1 : valueOf m x = some s1)
    (h2 : valueOf m y = some s2) (hge : ¬ strcmp s1 s2 < 0)
    (hoff : list_entry_nonnull off 0 = true) (hfuel : ys.length + 1 < fuel) :
    ∃ m2, merge off fuel m x y = .ok (y, m2) ∧ Chain m2 y (y :: ys) ∧
      ∀ zs, Chain m2 y zs → zs.length < (x :: xs).length + (y :: ys).length := by
  obtain ⟨m2, hrun, hch, -, -⟩ := merge_first_not_less off hx hy hndx hndy h1 h2 hge hfuel
  refine ⟨m2, hrun, hch hoff, fun zs hzs => ?_⟩
  rw [Chain.unique zs (y :: ys) y hzs (hch hoff)]
  simp

/-- C16 (the code does not do it): `merge` does not keep every node. After the
loop it tests `list_entry(l1, ...)` and `list_entry(l2, ...)` instead of `l1`
and `l2`; with the list link behind `value` in `element_t`, `list_entry(NULL)`
is not `NULL`, so both assignments to `*tmp` are made and the last one wins.
When the second chain is exhausted first (the first node of the first chain
does not compare less), the rest of the first chain is appended and then
overwritten by `NULL`: the returned chain is the second chain alone, shorter
than `m + n`. (An empty input does return the other chain unchanged, see
`merge_empty_input`.) -/
theorem merge_loses_first_chain (m : Mem) (x y : Ptr) (xs ys : List Ptr) (s1 s2 : List Nat)
    (off fuel : Nat) (hx : Chain m x (x :: xs)) (hy : Chain m y (y :: ys))
    (hndx : (x :: xs).Nodup) (hndy : (y :: ys).Nodup) (h1 : valueOf m x = some s1)
    (h2 : valueOf m y = some s2) (hge : ¬ strcmp s1 s2 < 0)
    (hoff : list_entry_nonnull off 0 = true) (hfuel : ys.length + 1 < fuel) :
    ∃ m2, merge off fuel m x y = .ok (y, m2) ∧ Chain m2 y (y :: ys) ∧
      ∀ zs, Chain m2 y zs → zs.length < (x :: xs).length + (y :: ys).length :=
  merge_second_only hx hy hndx hndy h1 h2 hge hoff hfuel

theorem merge_loses_first_chain_witness :
    Chain (mkChain (mkChain Mem.empty [ascii "b"] 10) [ascii "a"] 100) 10 (10 :: []) ∧
      Chain (mkChain (mkChain Mem.empty [ascii "b"] 10) [ascii "a"] 100) 100 (100 :: []) ∧
      list_entry_nonnull 8 0 = true ∧
      ∃ m2, merge 8 8 (mkChain (mkChain Mem.empty [ascii "b"] 10) [ascii "a"] 100) 10 100 =
          .ok (100, m2) ∧
        Chain m2 100 (100 :: []) ∧
        ∀ zs, Chain m2 100 zs → zs.length < (10 :: ([] : List Ptr)).length +
          (100 :: ([] : List Ptr)).length :=
  ⟨by decide, by decide, by decide,
    merge_loses_first_chain (mkChain (mkChain Mem.empty [ascii "b"] 10) [ascii "a"] 100)
      10 100 [] [] (ascii "b") (ascii "a") 8 8 (by decide) (by decide) (by decide) (by decide)
      (by decide) (by decide) (by decide) (by decide) (by decide)⟩

/-- `merge` on two non-empty disjoint chains whose first nodes do not compare
less, in every layout of `element_t`: the chain returned starts with the whole
second chain; the first chain comes behind it, or is not in it at all, and it
is not in it when `list_entry(NULL)` is a non-null pointer. -/
theorem merge_second_chain_first {m : Mem} {x y : Ptr} {xs ys : List Ptr} {s1 s2 : List Nat}
    (off : Nat) {fuel : Nat} (hx : Chain m x (x :: xs)) (hy : Chain m y (y :: ys))
    (hnd : ((x :: xs) ++ (y :: ys)).Nodup) (h1 : valueOf m x = some s1)
    (h2 : valueOf m y = some s2) (hge : ¬ strcmp s1 s2 < 0) (hfuel : ys.length + 1 < fuel) :
    ∃ m2 zs, merge off fuel m x y = .ok (y, m2) ∧ Chain m2 y ((y :: ys) ++ zs) ∧
      (zs = [] ∨ zs = x :: xs) ∧ (list_entry_nonnull off 0 = true → zs = []) ∧
      m2.value = m.value ∧ m2.bytes = m.bytes := by
  have hndx : (x :: xs).Nodup := (List.nodup_append.1 hnd).1
  have hndy : (y :: ys).Nodup := (List.nodup_append.1 hnd).2.1
  have hdis : ∀ a ∈ y :: ys, a ∉ x :: xs := fun a ha hb => (List.nodup_append.1 hnd).2.2 hb ha
  have hx0 : x ≠ 0 := hx.2.1
  have hy0 : y ≠ 0 := hy.2.1
  obtain ⟨v1, hv1, hs1⟩ := valueOf_loads hx0 h1
  obtain ⟨v2, hv2, hs2⟩ := valueOf_loads hy0 h2
  obtain ⟨-, hl0, hln⟩ := Chain.last ys y hy
  have hloop := merge_loop_right hv1 hs1 hv2 hs2 hge hx0 ys y 0 none fuel hy
    (fun p hp => by simp at hp) hfuel
  have hstx : storeTmp m y (some (lastOf y ys)) x = .ok (y, m.setNext (lastOf y ys) x) := by
    rw [storeTmp, storeNext_ok x hl0 (by simp [hln])]
    rfl
  have hst0 : ∀ m1 : Mem, (m1.next (lastOf y ys)).isSome →
      storeTmp m1 y (some (lastOf y ys)) 0 = .ok (y, m1.setNext (lastOf y ys) 0) := by
    intro m1 h
    rw [storeTmp, storeNext_ok 0 hl0 h]
    rfl
  have hback : ∀ m1 : Mem, (∀ a, a ≠ lastOf y ys → m1.next a = m.next a) →
      Chain (m1.setNext (lastOf y ys) 0) y ((y :: ys) ++ []) := by
    intro m1 hsame
    rw [List.append_nil]
    refine Chain.same_next _ _ (fun a _ => ?_) hy
    by_cases ha : a = lastOf y ys
    · subst ha; simp [hln]
    · simp [ha, hsame a ha]
  unfold merge
  simp only [hy0, hx0, if_false, hy.not_self hndy, hx.not_self hndx, bind_ok_eq,
    Bool.false_eq_true, hloop, Option.elim]
  by_cases hn0 : list_entry_nonnull off 0 = true
  · by_cases hnx : list_entry_nonnull off x = true
    · refine ⟨(m.setNext (lastOf y ys) x).setNext (lastOf y ys) 0, [], ?_, ?_, Or.inl rfl,
        fun _ => rfl, rfl, rfl⟩
      · simp [hn0, hnx, hstx, hst0 (m.setNext (lastOf y ys) x) (by simp)]
      · exact hback _ (fun a ha => by simp [ha])
    · refine ⟨m.setNext (lastOf y ys) 0, [], ?_, ?_, Or.inl rfl, fun _ => rfl, rfl, rfl⟩
      · simp [hn0, hnx, hst0 m (by simp [hln])]
      · exact hback _ (fun a _ => rfl)
  · by_cases hnx : list_entry_nonnull off x = true
    · exact ⟨m.setNext (lastOf y ys) x, x :: xs, by simp [hn0, hnx, hstx],
        Chain.link hx ys y hy hndy hdis, Or.inr rfl, fun h => absurd h hn0, rfl, rfl⟩
    · refine ⟨m, [], by simp [hn0, hnx], ?_, Or.inl rfl, fun _ => rfl, rfl, rfl⟩
      rw [List.append_nil]
      exact hy

/-- C17 (the code does not do it): on a tie `merge` does not emit the node of
the first chain first, and equal nodes do not keep their order. When the first
nodes of the two chains have equal values, the test `strcmp(...) < 0` fails and
the node of the second chain is taken; `e1` and `e2` are never updated, so the
whole second chain is emitted before any node of the first. The chain that
`merge` returns starts with the second chain `y :: ys`; the first chain `x :: xs`
comes behind it or is not in it at all, and with the list link behind `value`
in `element_t` (`list_entry(NULL)` non-null) it is not in it, so the equal
node of the first chain is lost. -/
theorem merge_tie_second_chain_first (m : Mem) (x y : Ptr) (xs ys : List Ptr) (s : List Nat)
    (off fuel : Nat) (hx : Chain m x (x :: xs)) (hy : Chain m y (y :: ys))
    (hnd : ((x :: xs) ++ (y :: ys)).Nodup) (h1 : valueOf m x = some s)
    (h2 : valueOf m y = some s) (hfuel : ys.length + 1 < fuel) :
    ∃ m2 zs, merge off fuel m x y = .ok (y, m2) ∧ y ≠ x ∧ Chain m2 y ((y :: ys) ++ zs) ∧
      (zs = [] ∨ zs = x :: xs) ∧ (list_entry_nonnull off 0 = true → zs = []) ∧
      (∀ a, valueOf m2 a = valueOf m a) := by
  have hge : ¬ strcmp s s < 0 := by rw [strcmp_self]; omega
  obtain ⟨m2, zs, hrun, hch, hzs, hoff, hv, hb⟩ :=
    merge_second_chain_first off hx hy hnd h1 h2 hge hfuel
  have hyx : y ≠ x := by
    rintro rfl
    exact (List.nodup_append.1 hnd).2.2 (List.mem_cons_self y xs) (List.mem_cons_self y ys)
  exact ⟨m2, zs, hrun, hyx, hch, hzs, hoff,
    fun a => valueOf_frame (by rw [hv]) (fun w _ => by rw [hb])⟩

theorem merge_tie_second_chain_first_witness :
    Chain (mkChain (mkChain Mem.empty [ascii "a"] 10) [ascii "a"] 100) 10 (10 :: []) ∧
      Chain (mkChain (mkChain Mem.empty [ascii "a"] 10) [ascii "a"] 100) 100 (100 :: []) ∧
      valueOf (mkChain (mkChain Mem.empty [ascii "a"] 10) [ascii "a"] 100) 10 =
        valueOf (mkChain (mkChain Mem.empty [ascii "a"] 10) [ascii "a"] 100) 100 ∧
      ∃ m2 zs, merge 8 8 (mkChain (mkChain Mem.empty [ascii "a"] 10) [ascii "a"] 100) 10 100 =
          .ok (100, m2) ∧
        100 ≠ 10 ∧ Chain m2 100 ((100 :: []) ++ zs) ∧ (zs = [] ∨ zs = 10 :: []) ∧
        (list_entry_nonnull 8 0 = true → zs = []) ∧
        ∀ a, valueOf m2 a =
          valueOf (mkChain (mkChain Mem.empty [ascii "a"] 10) [ascii "a"] 100) a :=
  ⟨by decide, by decide, by decide,
    merge_tie_second_chain_first (mkChain (mkChain Mem.empty [ascii "a"] 10) [ascii "a"] 100)
      10 100 [] [] (ascii "a") 8 8 (by decide) (by decide) (by decide) (by decide) (by decide)
      (by decide)⟩

/-- The counts of the recursive calls of `lsort`: the first half gets
`qSize / 2`; the second half gets `qSize / 2` when `qSize` is odd and
`qSize / 2 + 1` when it is even. -/
theorem lsort_counts {off fuel : Nat} {m : Mem} {p : Ptr} {qSize : Int} (hp : p ≠ 0)
    (h : 2 ≤ qSize) :
    lsort off (fuel + 1) m p qSize =
      (advance (qSize / 2).toNat m p >>= fun l2 =>
        lsort off fuel m p (qSize / 2) >>= fun r1 =>
          lsort off fuel r1.2 l2 (if qSize % 2 = 1 then qSize / 2 else qSize / 2 + 1) >>=
            fun r2 => merge off (fuel + 1) r2.2 r1.1 r2.1) := by
  rw [lsort_step hp h]
  by_cases hodd : qSize % 2 = 1
  · have h1 : qSize - qSize / 2 * 2 ≠ 0 := by omega
    simp only [if_pos h1, if_pos hodd]
  · have h1 : ¬ (qSize - qSize / 2 * 2 ≠ 0) := by omega
    simp only [if_neg h1, if_neg hodd]

theorem lsort_second_count_ne (qSize : Int) :
    (if qSize % 2 = 1 then qSize / 2 else qSize / 2 + 1) ≠ qSize - qSize / 2 := by
  split <;> omega

/-- C18 (the code does not do it): for a count of at least 2, `lsort` walks
`qSize / 2` links to the split point and sorts the first half with count
`qSize / 2`, but the count of the second recursive call is never
`qSize - qSize / 2`: the parity test is the wrong way round, an odd count gives
`qSize / 2` and an even count gives `qSize / 2 + 1`. (With a count below 2 the
chain is returned unchanged, see `lsort_base`.) -/
theorem lsort_second_half_count (off fuel : Nat) (m : Mem) (p : Ptr) (qSize : Int)
    (hp : p ≠ 0) (h : 2 ≤ qSize) :
    lsort off (fuel + 1) m p qSize =
        (advance (qSize / 2).toNat m p >>= fun l2 =>
          lsort off fuel m p (qSize / 2) >>= fun r1 =>
            lsort off fuel r1.2 l2 (if qSize % 2 = 1 then qSize / 2 else qSize / 2 + 1) >>=
              fun r2 => merge off (fuel + 1) r2.2 r1.1 r2.1) ∧
      (if qSize % 2 = 1 then qSize / 2 else qSize / 2 + 1) ≠ qSize - qSize / 2 :=
  ⟨lsort_counts hp h, lsort_second_count_ne qSize⟩

theorem lsort_second_half_count_witness :
    (10 : Ptr) ≠ 0 ∧ (2 : Int) ≤ 3 ∧
      (lsort 8 (5 + 1) (mkChain Mem.empty [ascii "b", ascii "a", ascii "c"] 10) 10 3 =
        (advance ((3 : Int) / 2).toNat (mkChain Mem.empty [ascii "b", ascii "a", ascii "c"] 10) 10
          >>= fun l2 =>
          lsort 8 5 (mkChain Mem.empty [ascii "b", ascii "a", ascii "c"] 10) 10 (3 / 2) >>=
            fun r1 =>
            lsort 8 5 r1.2 l2 (if (3 : Int) % 2 = 1 then 3 / 2 else 3 / 2 + 1) >>=
              fun r2 => merge 8 (5 + 1) r2.2 r1.1 r2.1) ∧
        (if (3 : Int) % 2 = 1 then (3 : Int) / 2 else 3 / 2 + 1) ≠ 3 - 3 / 2) :=
  ⟨by decide, by decide,
    lsort_second_half_count 8 5 (mkChain Mem.empty [ascii "b", ascii "a", ascii "c"] 10) 10 3
      (by decide) (by decide)⟩

/-- C19 (the code does not do it): the recursion of `lsort` does not always
descend. With count 2 the second recursive call is made with count
`2 / 2 + 1 = 2` again, on the next link; on a ring, which is what `q_sort`
passes, every link has a next link, so `lsort` with count 2 never returns. -/
theorem lsort_count_two_never_returns (m : Mem) (head p : Ptr) (xs : List Ptr) (off fuel : Nat)
    (hring : Ring m head xs) (hp : p ∈ head :: xs) :
    lsort off fuel m p 2 = .error .outOfFuel ∧
      lsort off (fuel + 1) m p 2 =
        (advance 1 m p >>= fun l2 =>
          lsort off fuel m p 1 >>= fun r1 =>
            lsort off fuel r1.2 l2 2 >>= fun r2 => merge off (fuel + 1) r2.2 r1.1 r2.1) := by
  refine ⟨lsort_two_closed hring.closed off fuel p hp, ?_⟩
  have hp0 : p ≠ 0 := hring.1 p hp
  have := @lsort_counts off fuel m p 2 hp0 (by decide)
  simpa using this

theorem lsort_count_two_never_returns_witness :
    Ring (build [ascii "b", ascii "a"]) 1 [10, 20] ∧ (1 : Ptr) ∈ [1, 10, 20] ∧
      (lsort 8 50 (build [ascii "b", ascii "a"]) 1 2 = .error .outOfFuel ∧
        lsort 8 (50 + 1) (build [ascii "b", ascii "a"]) 1 2 =
          (advance 1 (build [ascii "b", ascii "a"]) 1 >>= fun l2 =>
            lsort 8 50 (build [ascii "b", ascii "a"]) 1 1 >>= fun r1 =>
              lsort 8 50 r1.2 l2 2 >>= fun r2 => merge 8 (50 + 1) r2.2 r1.1 r2.1)) :=
  ⟨by decide, by decide,
    lsort_count_two_never_returns (build [ascii "b", ascii "a"]) 1 1 [10, 20] 8 50 (by decide)
      (by decide)⟩

/-- The library function `free` on a `char` pointer either faults or returns,
and then no `value` member has changed. -/
theorem freeBytes_cases (m : Mem) (p : Ptr) :
    freeBytes m p = .error .badAccess ∨ ∃ m2, freeBytes m p = .ok m2 ∧ m2.value = m.value := by
  unfold freeBytes
  by_cases hp : p = 0
  · exact Or.inr ⟨m, by simp [hp], rfl⟩
  · cases hb : m.bytes p with
    | none => exact Or.inl (by simp [hp])
    | some bs =>
      exact Or.inr ⟨{ m with bytes := fun a => if a = p then none else m.bytes a },
        by simp [hp], rfl⟩

/-- What `q_delete_mid` does on a well-formed queue of one element: `mid` is 0,
the walk does not leave the sentinel, and the sentinel is the node that is
unlinked and handed to `q_release_element`. -/
theorem q_delete_mid_one {m : Mem} {head x : Ptr} {fuel : Nat} (hwf : WF m head [x])
    (hfuel : 1 < fuel) :
    advance (1 / 2) m head = .ok head ∧
      (∃ m1, list_del m head = .ok m1 ∧ m1.next x = some x ∧ m1.prev x = some x ∧
        q_delete_mid fuel m head = (q_release_element m1 head >>= fun m2 => pure (true, m2))) ∧
      q_delete_mid fuel m head = .error .badAccess := by
  have hemp := hwf.list_empty_eq
  have hsize := hwf.q_size_ok hfuel (by simp)
  have hiso := hwf.ring_isSome
  obtain ⟨hnz, hnd, hseg, hsent, -⟩ := hwf
  have hh : head ≠ 0 := hnz head (by simp)
  have hx0 : x ≠ 0 := hnz x (by simp)
  have hxh : x ≠ head := by
    rintro rfl; simp at hnd
  simp only [Seg] at hseg
  have hdel : list_del m head = .ok ((m.setPrev x x).setNext x x) :=
    list_del_ok hh hx0 hx0 hseg.1 hseg.2.2.2 (hiso x (by simp)).2 (hiso x (by simp)).1
  have hrun : q_delete_mid fuel m head =
      (q_release_element ((m.setPrev x x).setNext x x) head >>= fun m2 => pure (true, m2)) := by
    have hne : ¬ ([x] = []) := by simp
    simp only [q_delete_mid, hemp, bind_ok_eq, hne, decide_False, Bool.false_or, beq_iff_eq, hh,
      if_false, hsize, List.length_singleton, advance, hdel]
  refine ⟨rfl, ⟨_, hdel, by simp, by simp, hrun⟩, ?_⟩
  rw [hrun]
  have hload : loadValue ((m.setPrev x x).setNext x x) head = .ok (m.front head) := by
    simp [loadValue, hh, hsent, hxh.symm, hseg.1]
  simp only [q_release_element, hload, bind_ok_eq]
  rcases freeBytes_cases ((m.setPrev x x).setNext x x) (m.front head) with he | ⟨m2, hm2, hv2⟩
  · rw [he]; rfl
  · have hfree : freeElem m2 head = .error .badAccess := by
      have : m2.value head = none := by rw [hv2]; simpa using hsent
      simp [freeElem, hh, this]
    rw [hm2, bind_ok_eq, hfree]; rfl

/-- C20 (the code does not do it): on a well-formed queue of exactly one element
the node that `q_delete_mid` unlinks and releases is the sentinel, not the
element: `mid` is 0, so `tmp` stays at `head`; `list_del(head)` takes the
sentinel out of the ring (the element is left linked to itself), and
`q_release_element` is called on the sentinel, which is no element. -/
theorem q_delete_mid_unlinks_sentinel (m : Mem) (head x : Ptr) (fuel : Nat)
    (hwf : WF m head [x]) (hfuel : 1 < fuel) :
    advance (1 / 2) m head = .ok head ∧
      (∃ m1, list_del m head = .ok m1 ∧ m1.next x = some x ∧ m1.prev x = some x ∧
        q_delete_mid fuel m head = (q_release_element m1 head >>= fun m2 => pure (true, m2))) ∧
      q_delete_mid fuel m head = .error .badAccess :=
  q_delete_mid_one hwf hfuel

theorem q_delete_mid_unlinks_sentinel_witness :
    WF (build [ascii "a"]) 1 [10] ∧ 1 < 8 ∧
      (advance (1 / 2) (build [ascii "a"]) 1 = .ok 1 ∧
        (∃ m1, list_del (build [ascii "a"]) 1 = .ok m1 ∧ m1.next 10 = some 10 ∧
          m1.prev 10 = some 10 ∧
          q_delete_mid 8 (build [ascii "a"]) 1 =
            (q_release_element m1 1 >>= fun m2 => pure (true, m2))) ∧
        q_delete_mid 8 (build [ascii "a"]) 1 = .error .badAccess) :=
  ⟨by decide, by decide,
    q_delete_mid_unlinks_sentinel (build [ascii "a"]) 1 10 8 (by decide) (by decide)⟩

end Lab0
